import Mathlib

/-!
Verification development for the grammar-approx repository: four
approximation algorithms for the smallest grammar problem (Bisection,
Exhaustive, Lehman1 / substring construction, Sakamoto / LEVELWISE-REPAIR).

Strings of the Python source are modelled as `List Char`; Python dicts are
modelled as association lists where insertion overwrites the value stored at
an existing key in place (Python dicts are keyed maps; for every statement
proved here only lookup, key-set and value-multiset semantics matter).
Python integer division `//` on non-negative operands is `Nat` division.
-/

namespace GrammarApprox

abbrev Str := List Char

/-- Converts a Lean string literal to the `List Char` model of Python strings. -/
def strOf (s : String) : Str := s.toList

/-- Association-list lookup, first entry with the given key (Python `d[k]` / `d.get(k)`). -/
def lookupA {α β : Type} [DecidableEq α] : List (α × β) → α → Option β
  | [], _ => none
  | kv :: rest, k => if kv.1 = k then some kv.2 else lookupA rest k

/-- Python `k in d`. -/
def hasKeyA {α β : Type} [DecidableEq α] (d : List (α × β)) (k : α) : Bool :=
  (lookupA d k).isSome

/-- Python `d[k] = v`: overwrite the value at an existing key in place,
otherwise append a new entry. -/
def insertA {α β : Type} [DecidableEq α] : List (α × β) → α → β → List (α × β)
  | [], k, v => [(k, v)]
  | kv :: rest, k, v => if kv.1 = k then (k, v) :: rest else kv :: insertA rest k v

/-- Python `d.update(h)`: insert every entry of `h`, in order, into `d`. -/
def updateA {α β : Type} [DecidableEq α] (d h : List (α × β)) : List (α × β) :=
  h.foldl (fun acc kv => insertA acc kv.1 kv.2) d

/-- A grammar: map from nonterminal (named by its expansion) to right-hand side. -/
abbrev Grammar := List (Str × List Str)

/-- Embeds `grammarSize` of src/performance.py: the sum over productions of
the number of right-hand-side symbols. -/
def grammarSize (G : Grammar) : Nat :=
  (G.map (fun kv => kv.2.length)).sum

/-! ## src/bisection.py -/

/-- Embeds the inner `_recurse` of `getBisectionGrammar` (src/bisection.py):
strings of length at most 1 contribute nothing; otherwise store the
floor-midpoint split and recurse on both halves. -/
def bisectionRecurse (S : Str) (g : Grammar) : Grammar :=
  if h : S.length ≤ 1 then g
  else
    let l := S.take (S.length / 2)
    let r := S.drop (S.length / 2)
    bisectionRecurse r (bisectionRecurse l (insertA g S [l, r]))
termination_by S.length
decreasing_by
  · simp only [List.length_take]
    omega
  · simp only [List.length_drop]
    omega

/-- Embeds `getBisectionGrammar` of src/bisection.py. -/
def getBisectionGrammar (S : Str) : Grammar :=
  bisectionRecurse S []

/-! ## src/lehman1.py: overlap and greedy superstring helpers -/

/-- Python tuple comparison `a < b` on triples of naturals (lexicographic). -/
def lt3 (a b : Nat × Nat × Nat) : Bool :=
  decide (a.1 < b.1 ∨ (a.1 = b.1 ∧ (a.2.1 < b.2.1 ∨ (a.2.1 = b.2.1 ∧ a.2.2 < b.2.2))))

/-- Python `max(a, b)` on triples: returns `b` exactly when `a < b`. -/
def pyMax3 (a b : Nat × Nat × Nat) : Nat × Nat × Nat :=
  if lt3 a b then b else a

/-- Embeds `computeOverlap` of src/lehman1.py: the running `max` over
`i = 1 .. min(len s1, len s2) - 1` of `(i, len s1 - i, 0)` for every `i`
such that the last `i` characters of `s1` equal the first `i` characters
of `s2`, starting from `(0, len s1, 0)`. -/
def computeOverlap (s1 s2 : Str) : Nat × Nat × Nat :=
  (List.range' 1 (min s1.length s2.length - 1)).foldl
    (fun best i =>
      if s1.drop (s1.length - i) = s2.take i then pyMax3 best (i, s1.length - i, 0)
      else best)
    (0, s1.length, 0)

/-- The scan order of the nested loops of `pairWithMaximumOverlap`
(`for i in xrange(len(Ss)): for j in xrange(i+1, len(Ss))`): all index
pairs `(i, j)` with `i < j < n`, `i` ascending, then `j` ascending. -/
def pairIndexList (n : Nat) : List (Nat × Nat) :=
  ((List.range n).map (fun i => (List.range' (i + 1) (n - (i + 1))).map (fun j => (i, j)))).flatten

/-- The Python running maximum of `pairWithMaximumOverlap`, starting from
`(-1, None, None)` (modelled as `none`, which every real candidate beats)
and taking `max` with `(overlap(Ss[i], Ss[j]), i, j)` for every scanned pair. -/
def bestOverlapTriple (Ss : List Str) : Option (Nat × Nat × Nat) :=
  (pairIndexList Ss.length).foldl
    (fun best ij =>
      let c := ((computeOverlap (Ss.getD ij.1 []) (Ss.getD ij.2 [])).1, ij.1, ij.2)
      match best with
      | none => some c
      | some b => some (pyMax3 b c))
    none

/-- Embeds `pairWithMaximumOverlap` of src/lehman1.py. On lists with fewer
than two strings the Python code would index with `None`; that case is
unreachable from `blumSmallestSuperstringAndBreaking`. -/
def pairWithMaximumOverlap (Ss : List Str) : Str × Str :=
  match bestOverlapTriple Ss with
  | none => ([], [])
  | some t => (Ss.getD t.2.1 [], Ss.getD t.2.2 [])

/-- Embeds `splitTooBigs` of src/lehman1.py: one pass over the list,
replacing each string longer than `split_len` by its two floor-midpoint
halves and keeping every other string. -/
def splitTooBigs : List Str → Nat → List Str
  | [], _ => []
  | s :: rest, k =>
      (if k < s.length then [s.take (s.length / 2), s.drop (s.length / 2)] else [s]) ++
        splitTooBigs rest k

/-- The merge loop of `blumSmallestSuperstringAndBreaking`: while more than
one string remains, remove the pair with maximum overlap, append their merge
`s1[:cut] ++ s2`, and record the merged string's offsets (those of `s1` plus
those of `s2` shifted by `cut`, appended to any offsets already recorded for
an equal string). The loop runs `length - 1` times; the fuel argument is the
initial length, which strictly bounds the number of iterations. -/
def blumLoop : Nat → List Str → List (Str × List Nat) → List Str × List (Str × List Nat)
  | 0, strings, d => (strings, d)
  | fuel + 1, strings, d =>
      if strings.length ≤ 1 then (strings, d)
      else
        let p := pairWithMaximumOverlap strings
        let ov := computeOverlap p.1 p.2
        let cut := ov.2.1
        let merged := p.1.take cut ++ p.2
        let strings2 := ((strings.erase p.1).erase p.2) ++ [merged]
        let d1 := if hasKeyA d merged then d else insertA d merged []
        let newOffsets := (lookupA d1 merged).getD [] ++ (lookupA d1 p.1).getD [] ++
          ((lookupA d1 p.2).getD []).map (fun i => i + cut)
        blumLoop fuel strings2 (insertA d1 merged newOffsets)

/-- Insertion into a `≤`-sorted list of naturals. -/
def insSorted (x : Nat) : List Nat → List Nat
  | [] => [x]
  | y :: ys => if x ≤ y then x :: y :: ys else y :: insSorted x ys

/-- Models Python `sorted(set(xs))`: the ascending list of the distinct
elements of `xs`. -/
def sortedNub (xs : List Nat) : List Nat :=
  xs.dedup.foldr insSorted []

/-- Embeds `blumSmallestSuperstringAndBreaking` of src/lehman1.py: greedily
merge the strings into a single superstring, then cut it at the sorted,
deduplicated recorded offsets (plus `0` and the total length). -/
def blumSmallestSuperstringAndBreaking (Ss : List Str) : List Str :=
  let d0 := Ss.foldl (fun d s => insertA d s [0]) []
  let res := blumLoop Ss.length Ss d0
  let superstring := res.1.getD 0 []
  let idxs := sortedNub (0 :: (lookupA res.2 superstring).getD [] ++ [superstring.length])
  (idxs.zip idxs.tail).map (fun se => (superstring.drop se.1).take (se.2 - se.1))

/-- The `while (k >= 2)` loop of `generateCs`. -/
def generateCsLoop (k : Nat) (Cs : List (List Str)) : List (List Str) :=
  if k < 2 then Cs
  else
    generateCsLoop (k / 2)
      (Cs ++ [splitTooBigs (blumSmallestSuperstringAndBreaking (Cs.getLastD [])) k])
termination_by k
decreasing_by omega

/-- Embeds `generateCs` of src/lehman1.py. The Python source computes
`2**(int(math.ceil(math.log(n, 2))) - 1)` with floating point; for `n ≥ 1`
this is `2^(Nat.clog 2 n - 1)` (for `n = 1` Python gets the float `0.5` and
the loop guard `k >= 2` fails immediately, exactly as it does here with
`2^0 = 1`). Python raises on `n = 0`; every claim restricts to `n ≥ 1`. -/
def generateCs (S : Str) : List (List Str) :=
  generateCsLoop (2 ^ (Nat.clog 2 S.length - 1)) [[S]]

/-- Embeds the inner `findPrefixStart` of `findLongestPrefix`
(src/lehman1.py): the smallest `i` such that `s` is a prefix of the
concatenation of `small_strings[i:]`, `none` when the Python code would
raise `"String not found as a prefix"`. -/
def findPrefStart (s : Str) (C : List Str) : Option Nat :=
  (List.range C.length).find? (fun i => ((C.drop i).flatten).take s.length == s)

/-- The greedy extension loop of `findLongestPrefix`: starting at segment
`e` with `rem` characters of `s` left, consume whole segments while they
fit. Returns the final segment index and the unconsumed length. -/
def flpConsume (C : List Str) (e rem : Nat) : Nat × Nat :=
  if _h : e < C.length ∧ (C.getD e []).length ≤ rem then
    flpConsume C (e + 1) (rem - (C.getD e []).length)
  else (e, rem)
termination_by C.length - e
decreasing_by omega

/-- Embeds `findLongestPrefix` of src/lehman1.py, returning
`(start, end, used length)`, or `none` where Python raises. -/
def findLongestPref (s : Str) (C : List Str) : Option (Nat × Nat × Nat) :=
  match findPrefStart s C with
  | none => none
  | some start =>
      let er := flpConsume C start s.length
      some (start, er.1, s.length - er.2)

/-- Embeds the inner `recursiveCall` of
`generateSubstringConstructionGrammar` (src/lehman1.py). `S` is a sequence
of piece-strings; keys are concatenations of its contiguous slices. The
Python guard is `len(S) == 1`; on the empty list the Python recursion never
terminates, but every call reachable from `getLehman1Grammar` is on a
nonempty list, so the guard here is `length ≤ 1`. -/
def subConstrRecurse (S : List Str) (grammar : Grammar) : Grammar :=
  if _h : S.length ≤ 1 then grammar
  else
    let m := S.length / 2
    let g1 := (List.range (m - 1)).foldl
      (fun g i =>
        insertA g ((S.drop i).take (m - i)).flatten
          [S.getD i [], ((S.drop (i + 1)).take (m - (i + 1))).flatten])
      grammar
    let g2 := (List.range' (m + 1) (S.length - (m + 1))).foldl
      (fun g i =>
        insertA g ((S.drop m).take (i + 1 - m)).flatten
          [((S.drop m).take (i - m)).flatten, S.getD i []])
      g1
    subConstrRecurse (S.drop m) (subConstrRecurse (S.take m) g2)
termination_by S.length
decreasing_by
  · simp only [List.length_take]
    omega
  · simp only [List.length_drop]
    omega

/-- Embeds `generateSubstringConstructionGrammar` of src/lehman1.py. -/
def generateSubstringConstructionGrammar (S : List Str) : Grammar :=
  subConstrRecurse S []

/-- The split-point search of the `start + 2 < end` stitching case of
`getLehman1Grammar`: the first `split` in `(start, end)` whose two halves
are each a single segment or an existing grammar key; when no split
satisfies the condition the Python `for` loop falls through with its last
value `end - 1`. -/
def chooseSplit (g : Grammar) (C : List Str) (start e : Nat) : Nat :=
  match (List.range' (start + 1) (e - (start + 1))).find? (fun split =>
      (split == start + 1 || hasKeyA g ((C.drop start).take (split - start)).flatten) &&
      (split == e - 1 || hasKeyA g ((C.drop split).take (e - split)).flatten)) with
  | some sp => sp
  | none => e - 1

/-- The per-segment level walk of `getLehman1Grammar`: for each finer level
`C`, find the longest prefix of the remainder made of whole `C`-segments and
append one or two symbols for it to the right-hand side under construction.
`g0` is the grammar as it stands when the walk begins (its key set is what
the `half1 in grammar` membership tests consult; the walk itself only
modifies the entry of the segment being stitched). -/
def stitchLevels (g0 : Grammar) : List (List Str) → Str → List Str →
    Except String (List Str × Str)
  | [], sRem, rhs => .ok (rhs, sRem)
  | C :: rest, sRem, rhs =>
      match findLongestPref sRem C with
      | none => .error "String not found as a prefix"
      | some (start, e, used) =>
          if start = e then stitchLevels g0 rest sRem rhs
          else if start + 1 = e then
            stitchLevels g0 rest (sRem.drop used) (rhs ++ [C.getD start []])
          else if start + 2 = e then
            stitchLevels g0 rest (sRem.drop used)
              (rhs ++ [C.getD start [], C.getD (start + 1) []])
          else
            let split := chooseSplit g0 C start e
            let half1 := ((C.drop start).take (split - start)).flatten
            let half2 := ((C.drop split).take (e - split)).flatten
            stitchLevels g0 rest (sRem.drop used) (rhs ++ [half1, half2])

/-- Stitches every segment of one level (the inner `j` loop of
`getLehman1Grammar`): length-1 segments are skipped; otherwise the segment's
entry is first set to `[]` and then filled with the symbols collected across
the finer levels, any leftover suffix appended as single characters. -/
def stitchList (levels : List (List Str)) (g : Grammar) : List Str →
    Except String Grammar
  | [] => .ok g
  | s :: rest =>
      if s.length = 1 then stitchList levels g rest
      else
        let g0 := insertA g s []
        match stitchLevels g0 levels s [] with
        | .error msg => .error msg
        | .ok (rhs, sRem) =>
            stitchList levels (insertA g0 s (rhs ++ sRem.map (fun c => [c]))) rest

/-- The outer `i` loop of `getLehman1Grammar`: stitch the segments of each
level against the sequence of strictly finer levels. -/
def stitchAll (g : Grammar) : List (List Str) → Except String Grammar
  | [] => .ok g
  | C :: rest =>
      match stitchList rest g C with
      | .error msg => .error msg
      | .ok g2 => stitchAll g2 rest

/-- The closure test at the end of `getLehman1Grammar`: every right-hand
side symbol of length at least 2 must be a grammar key. -/
def closureOk (g : Grammar) : Bool :=
  g.all (fun kv => kv.2.all (fun v => v.length ≤ 1 || hasKeyA g v))

/-- Embeds `getLehman1Grammar` of src/lehman1.py. `Except.error` marks the
two `raise` sites: `findPrefixStart` failing, and the final closure check
(`"FUUU"`). -/
def getLehman1Grammar (S : Str) : Except String Grammar :=
  let Cs := generateCs S
  let g1 := Cs.foldl (fun g C => updateA g (generateSubstringConstructionGrammar C)) []
  let g2 := updateA g1 (generateSubstringConstructionGrammar (S.map (fun c => [c])))
  match stitchAll g2 Cs with
  | .error msg => .error msg
  | .ok g => if closureOk g then .ok g else .error "FUUU"

/-! ## src/exhaustive.py -/

/-- Embeds `generateAllGrammars` of src/exhaustive.py: for a single
character, one empty grammar; otherwise, for each split point
`i in xrange(1, len(goal))`, each grammar `g` of the left part and each
grammar `h` of the right part, the grammar `{goal: [left, right]}` updated
with `h` and then with `g` (so the left side's productions win key
collisions). The empty string yields no grammars, as in the source. -/
def generateAllGrammars (goal : Str) : List Grammar :=
  if goal.length = 1 then [[]]
  else
    ((List.range' 1 (goal.length - 1)).attach.map (fun ii =>
      let left := goal.take ii.1
      let right := goal.drop ii.1
      ((generateAllGrammars left).map (fun g =>
        (generateAllGrammars right).map (fun h =>
          updateA (updateA [(goal, [left, right])] h) g))).flatten)).flatten
termination_by goal.length
decreasing_by
  all_goals have := List.mem_range'_1.mp ii.2
  all_goals simp only [List.length_take, List.length_drop]
  all_goals omega

/-- Embeds the inner `stageCount` of `getExhaustiveGrammar`
(src/exhaustive.py), with explicit fuel: non-keys have count 0, keys one
more than the maximum of their symbols' counts. On the enumerated grammars
every right-hand-side symbol is strictly shorter than its key, so the
derivation depth is below `|s|` and fuel `|s|` reproduces the Python
recursion (which has no fuel and diverges only on cyclic grammars that the
enumeration never produces). -/
def stageCountF : Nat → Grammar → Str → Nat
  | 0, _, _ => 0
  | fuel + 1, G, s =>
      match lookupA G s with
      | none => 0
      | some rhs => (rhs.map (stageCountF fuel G)).foldl max 0 + 1

/-- Python tuple comparison on the `(len(G), stageCount)` minimization
key. -/
def lt2 (a b : Nat × Nat) : Bool :=
  decide (a.1 < b.1 ∨ (a.1 = b.1 ∧ a.2 < b.2))

/-- Python `min(list, key=...)`: the first element attaining the minimal
key (a later element replaces the running best only when strictly
smaller). `none` on the empty list, where Python raises `ValueError`. -/
def pyMinBy (key : Grammar → Nat × Nat) : List Grammar → Option Grammar
  | [] => none
  | g :: rest =>
      some (rest.foldl (fun best cand => if lt2 (key cand) (key best) then cand else best) g)

/-- Embeds `getExhaustiveGrammar` of src/exhaustive.py. -/
def getExhaustiveGrammar (S : Str) : Option Grammar :=
  pyMinBy (fun G => (G.length, stageCountF S.length G S)) (generateAllGrammars S)

/-! ## src/sakamoto.py

The working sequence `w` is a list of symbols; each symbol is the string it
expands to (nonterminals are named by their expansions). Python `set`s of
occurrence index pairs are modelled as lists kept in ascending scan order;
every statement proved about the functions below is insensitive to that
order (classification of an occurrence and the final key sets do not depend
on it), matching CPython, whose set iteration order is unspecified. -/

/-- Embeds `produceTrivialGrammar` of src/sakamoto.py: the chain
`w[:i] -> [w[:i-1], w[i-1]]` for `i = 2 .. len(w)`. -/
def produceTrivialGrammar (w : List Str) : Grammar :=
  (List.range' 2 (w.length + 1 - 2)).foldl
    (fun P i => insertA P (w.take i).flatten [(w.take (i - 1)).flatten, w.getD (i - 1) []]) []

/-- The scan of `hasRepeatingPairs`: walk adjacent pairs left to right with
the set of pairs seen so far. -/
def hasRepeatingPairsAux (seen : List (Str × Str)) : List Str → Bool
  | a :: b :: rest =>
      if (a, b) ∈ seen then true
      else hasRepeatingPairsAux ((a, b) :: seen) (b :: rest)
  | _ => false

/-- Embeds `hasRepeatingPairs` of src/sakamoto.py: does some adjacent pair
of symbols occur at least twice in `w`? -/
def hasRepeatingPairs (w : List Str) : Bool :=
  hasRepeatingPairsAux [] w

/-- The length of the maximal run of the symbol `a` at the front of a list
(the `while w[j] == w[i]` extension of `findMaxRepeating`). -/
def runLen (a : Str) : List Str → Nat
  | [] => 0
  | b :: rest => if b = a then runLen a rest + 1 else 0

/-- The scan of `hasRepeatingSymbol`: the first index `i` whose symbol
equals its successor, together with the inclusive end of the maximal run
starting there. -/
def hasRepeatingSymbolAux (i : Nat) : List Str → Option (Nat × Nat)
  | a :: b :: rest =>
      if b = a then some (i, i + 1 + runLen a rest)
      else hasRepeatingSymbolAux (i + 1) (b :: rest)
  | _ => none

/-- Embeds `hasRepeatingSymbol` of src/sakamoto.py. -/
def hasRepeatingSymbol (w : List Str) : Option (Nat × Nat) :=
  hasRepeatingSymbolAux 0 w

/-- Embeds `produceRepeatingSymbolGrammar` of src/sakamoto.py: binary
decomposition of a repeated-symbol string, splitting at the character
midpoint when even and peeling the last character when odd. Every argument
reachable from `repetition` has length at least 2 (the Python recursion
never terminates below that). -/
def produceRepeatingSymbolGrammar (P : Grammar) (S : Str) : Grammar :=
  if S.length ≤ 1 then P
  else if S.length = 2 then insertA P S [S.take 1, S.drop 1]
  else if S.length % 2 = 0 then
    let rhs1 := S.take (S.length / 2)
    let rhs2 := S.drop (S.length / 2)
    produceRepeatingSymbolGrammar
      (produceRepeatingSymbolGrammar (insertA P S [rhs1, rhs2]) rhs1) rhs2
  else
    let rhs1 := S.take (S.length - 1)
    let rhs2 := S.drop (S.length - 1)
    produceRepeatingSymbolGrammar (insertA P S [rhs1, rhs2]) rhs1
termination_by S.length
decreasing_by
  · simp only [List.length_take]
    omega
  · simp only [List.length_drop]
    omega
  · simp only [List.length_take]
    omega

theorem runLen_le (a : Str) (l : List Str) : runLen a l ≤ l.length := by
  induction l with
  | nil => simp [runLen]
  | cons b rest ih =>
      simp only [runLen, List.length_cons]
      split <;> omega

theorem hasRepeatingSymbolAux_bounds (l : List Str) (i : Nat) (p : Nat × Nat)
    (h : hasRepeatingSymbolAux i l = some p) :
    i ≤ p.1 ∧ p.1 < p.2 ∧ p.2 < i + l.length := by
  induction l generalizing i with
  | nil => simp [hasRepeatingSymbolAux] at h
  | cons a tail ih =>
      match tail with
      | [] => simp [hasRepeatingSymbolAux] at h
      | b :: rest =>
          rw [hasRepeatingSymbolAux] at h
          split at h
          · cases h
            have := runLen_le a rest
            simp only [List.length_cons]
            omega
          · have := ih (i + 1) h
            simp only [List.length_cons] at this ⊢
            omega

theorem hasRepeatingSymbol_bounds (w : List Str) (p : Nat × Nat)
    (h : hasRepeatingSymbol w = some p) : p.1 < p.2 ∧ p.2 < w.length := by
  have := hasRepeatingSymbolAux_bounds w 0 p h
  omega

/-- The `while (hasRepeatingSymbol(w))` loop of `repetition`
(src/sakamoto.py): replace the run `w[i..j]` by the single symbol
`w[i] * (j - i + 1)` and emit its binary decomposition. Returns the
accumulated productions and the final sequence. -/
def repetitionLoop (w : List Str) (P : Grammar) : Grammar × List Str :=
  match _h : hasRepeatingSymbol w with
  | none => (P, w)
  | some (i, j) =>
      let A := (List.replicate (j - i + 1) (w.getD i [])).flatten
      repetitionLoop (w.take i ++ [A] ++ w.drop (j + 1))
        (produceRepeatingSymbolGrammar P A)
termination_by w.length
decreasing_by
  have hb := hasRepeatingSymbol_bounds w (i, j) _h
  simp only [List.length_append, List.length_take, List.length_drop,
    List.length_cons, List.length_nil]
  omega

/-- Embeds `repetition` of src/sakamoto.py (which starts from an empty
production set and mutates `w` in place). -/
def repetition (w : List Str) : Grammar × List Str :=
  repetitionLoop w []

/-- Lexicographic comparison of strings by character code: Python `s < t`. -/
def strLt : Str → Str → Bool
  | [], [] => false
  | [], _ :: _ => true
  | _ :: _, [] => false
  | a :: as, b :: bs => if a = b then strLt as bs else decide (a < b)

/-- Python tuple comparison on `(count, (s1, s2))` entries of the frequency
list: compare counts, then the pairs lexicographically. -/
def entryLe (x y : Nat × (Str × Str)) : Bool :=
  x.1 < y.1 ||
    (x.1 == y.1 &&
      (strLt x.2.1 y.2.1 ||
        (x.2.1 == y.2.1 && (strLt x.2.2 y.2.2 || x.2.2 == y.2.2))))

/-- Insertion into a list sorted ascending by `le`. -/
def insSortedBy {α : Type} (le : α → α → Bool) (x : α) : List α → List α
  | [] => [x]
  | y :: ys => if le x y then x :: y :: ys else y :: insSortedBy le x ys

/-- Insertion sort ascending by `le` (a model of Python `list.sort()`;
the keys here are distinct, so stability is irrelevant). -/
def sortByLe {α : Type} (le : α → α → Bool) (xs : List α) : List α :=
  xs.foldr (insSortedBy le) []

/-- The per-pair counting step of `createSortedSegmentList` (the
`if segment in segmentCounts` branch of the source). -/
def countStep (d : List ((Str × Str) × Nat)) (p : Str × Str) :
    List ((Str × Str) × Nat) :=
  match lookupA d p with
  | some c => insertA d p (c + 1)
  | none => insertA d p 1

/-- Embeds `createSortedSegmentList` of src/sakamoto.py: count every
adjacent pair, then sort the `(count, pair)` entries ascending under Python
tuple order and reverse. -/
def createSortedSegmentList (w : List Str) : List (Nat × (Str × Str)) :=
  let counts := (w.zip w.tail).foldl countStep []
  (sortByLe entryLe (counts.map (fun kv => (kv.2, kv.1)))).reverse

/-- Embeds `make_set_c` of src/sakamoto.py: the occurrence set
`(i, i+1)` of a pair in `w`, in ascending index order. -/
def make_set_c (seg : Str × Str) (w : List Str) : List (Nat × Nat) :=
  ((List.range (w.length - 1)).filter
    (fun i => (w.getD i [], w.getD (i + 1) []) == seg)).map (fun i => (i, i + 1))

/-- The left-fixed test of `make_sets`: Python `i[0] - 1 > 0 and
(i[0]-1, i[0]) in Assignments` (note: index 1 fails the first conjunct). -/
def isLeftFixed (asg : List ((Nat × Nat) × Nat)) (i : Nat) : Bool :=
  decide (0 < i - 1) && hasKeyA asg (i - 1, i)

/-- The right-fixed test of `make_sets`: Python `i[0] + 2 < len(w) and
(i[0]+1, i[0]+2) in Assignments`, only consulted when not left-fixed. -/
def isRightFixed (asg : List ((Nat × Nat) × Nat)) (i wlen : Nat) : Bool :=
  decide (i + 2 < wlen) && hasKeyA asg (i + 1, i + 2)

/-- Embeds `make_sets` of src/sakamoto.py, returning `(F, L, R)`: each
occurrence is left-fixed, else right-fixed, else free, by the tests above.
The classification of an occurrence does not depend on the others, so the
three sets are independent of the (unspecified) Python set iteration
order. -/
def make_sets (w : List Str) (C : List (Nat × Nat))
    (asg : List ((Nat × Nat) × Nat)) :
    List (Nat × Nat) × List (Nat × Nat) × List (Nat × Nat) :=
  (C.filter (fun x => !isLeftFixed asg x.1 && !isRightFixed asg x.1 w.length),
   C.filter (fun x => isLeftFixed asg x.1),
   C.filter (fun x => !isLeftFixed asg x.1 && isRightFixed asg x.1 w.length))

/-- Embeds `subgroup` of src/sakamoto.py: classify the id-group of the
already-assigned segment `a` by whether the occurrences sharing its id are
all in `D` (`selected`), none in `D` (`unselected`), or mixed
(`irregular`); `none` models the Python fall-through when no branch fires
(unreachable, since `a` itself is scanned). Callers guarantee `a` is
assigned. -/
def subgroup (a : Nat × Nat) (asg D : List ((Nat × Nat) × Nat)) :
    Option String :=
  let index := (lookupA asg a).getD 0
  let inD := asg.any (fun kv => kv.2 == index && hasKeyA D kv.1)
  let ninD := asg.any (fun kv => kv.2 == index && !hasKeyA D kv.1)
  if inD && ninD then some "irregular"
  else if !inD && ninD then some "unselected"
  else if inD && !ninD then some "selected"
  else none

/-- Embeds `group_contents` of src/sakamoto.py (its `w` argument is
unused). The scan looks for an assignments key equal to `seg` whose id
differs from `seg`'s own id — which never happens, since a dict holds one
entry per key — so `otherseg` stays `seg`; the scan is embedded anyway,
folding in entry order. Returns `none` on fall-through. -/
def group_contents (seg : Nat × Nat) (asg D : List ((Nat × Nat) × Nat)) :
    Option String :=
  let segId := (lookupA asg seg).getD 0
  let otherseg := asg.foldl
    (fun acc kv =>
      if kv.1.1 == seg.1 && kv.1.2 == seg.2 && !(kv.2 == segId) then kv.1 else acc)
    seg
  if subgroup otherseg asg D == some "irregular" then some "irregular"
  else if subgroup otherseg asg D == some "unselected" then some "unselected"
  else none

/-- Embeds `check_all` of src/sakamoto.py. Python dispatches on object
identity (`a is Left` / `a is Right`); the boolean flag selects the same
branch. Returns `"irregular"` when some neighbor segment of the group has
an irregular subgroup, else `"other"` (the `for`/`else`). -/
def check_all (a : List (Nat × Nat)) (isLeftBranch : Bool)
    (asg D : List ((Nat × Nat) × Nat)) : String :=
  if a.any (fun xy =>
      subgroup (if isLeftBranch then (xy.1 - 1, xy.1) else (xy.2, xy.2 + 1)) asg D ==
        some "irregular")
  then "irregular" else "other"

/-- Which of the three identity tests (`X is Free` / `X is Left` /
`X is Right`) selects the body of `assignment`. -/
inductive XSel : Type
  | free : XSel
  | left : XSel
  | right : XSel

/-- One iteration of the `Left` (or `Right`) body of `assignment`: the
three successive `if` statements of the source, re-evaluating `subgroup`
after each possible mutation of `assignments`. `nb` is the fixed neighbor
segment, `seq` the occurrence being assigned, `dict` the caller's `D`
(read-only here), `grp` the set handed to `check_all` with its branch
flag. Returns the updated `(assignments, local D)`. -/
def assignFixedOne (nb seq : Nat × Nat) (grp : List (Nat × Nat))
    (isLeftBranch : Bool) (d1 d2 : Nat)
    (asg Dloc dict : List ((Nat × Nat) × Nat)) :
    List ((Nat × Nat) × Nat) × List ((Nat × Nat) × Nat) :=
  let asg1 := if subgroup nb asg dict == some "irregular" then insertA asg seq d2 else asg
  let st2 :=
    if subgroup nb asg1 dict == some "unselected" then
      (insertA asg1 seq d1, insertA Dloc seq d1)
    else (asg1, Dloc)
  let asg2 := st2.1
  let asg3 :=
    if subgroup nb asg2 dict == some "selected" then
      if group_contents nb asg2 dict == some "irregular" then insertA asg2 seq d2
      else if group_contents nb asg2 dict == some "unselected" then insertA asg2 seq d1
      else if check_all grp isLeftBranch asg2 dict == "irregular" then insertA asg2 seq d2
      else insertA asg2 seq d1
    else asg2
  (asg3, st2.2)

/-- Embeds `assignment` of src/sakamoto.py. Returns the local dictionary
`D` built by the call together with the updated persistent `assignments`
map (which the Python code mutates in place). The iteration is in the
ascending order the occurrence lists are kept in. -/
def assignment (X : XSel) (FreeL LeftL RightL : List (Nat × Nat))
    (asg : List ((Nat × Nat) × Nat)) (d1 d2 : Nat)
    (dict : List ((Nat × Nat) × Nat)) :
    List ((Nat × Nat) × Nat) × List ((Nat × Nat) × Nat) :=
  match X with
  | .free =>
      FreeL.foldl (fun st x => (insertA st.1 x d1, insertA st.2 x d1)) (asg, ([] : List ((Nat × Nat) × Nat)))
  | .left =>
      LeftL.foldl
        (fun st x =>
          let r := assignFixedOne (x.1 - 1, x.1) (x.1, x.2) LeftL true d1 d2 st.1 st.2 dict
          (r.1, r.2))
        (asg, [])
  | .right =>
      RightL.foldl
        (fun st x =>
          let r := assignFixedOne (x.2, x.2 + 1) (x.1, x.1 + 1) RightL false d1 d2 st.1 st.2 dict
          (r.1, r.2))
        (asg, [])

/-- The state threaded through the `while (len(L) > 0)` loop of
`arrangement`: the selected-segments dictionary `D`, the persistent
`assignments` map and the id counter (`len(ID)`; ids are allocated as
consecutive naturals, so the set `ID` is determined by its size). -/
structure ArrState : Type where
  D : List ((Nat × Nat) × Nat)
  asg : List ((Nat × Nat) × Nat)
  idc : Nat

/-- The `while (len(L) > 0)` loop of `arrangement`: pop the most frequent
remaining pair, allocate ids `d1, d2`, partition its occurrences and run
`assignment` on the free, left-fixed and right-fixed sets in that order,
merging each local dictionary into `D` before the next call (Python's
`D.update(assignment(...))`). -/
def arrangementLoop (w : List Str) : List (Nat × (Str × Str)) → ArrState → ArrState
  | [], st => st
  | (_, seg) :: L, st =>
      let id1 := st.idc
      let id2 := id1 + 1
      let C := make_set_c seg w
      let fr := make_sets w C st.asg
      let r1 := assignment .free fr.1 fr.2.1 fr.2.2 st.asg id1 id2 st.D
      let D1 := updateA st.D r1.2
      let r2 := assignment .left fr.1 fr.2.1 fr.2.2 r1.1 id1 id2 D1
      let D2 := updateA D1 r2.2
      let r3 := assignment .right fr.1 fr.2.1 fr.2.2 r2.1 id1 id2 D2
      let D3 := updateA D2 r3.2
      arrangementLoop w L ⟨D3, r3.1, id1 + 2⟩

/-- First-occurrence deduplication (the effect of collecting into a Python
set, iterated here in first-encounter order). -/
def nubFirst {α : Type} [DecidableEq α] : List α → List α
  | [] => []
  | x :: xs => x :: nubFirst (xs.filter (fun y => decide (y ≠ x)))
termination_by l => l.length
decreasing_by
  simp only [List.length_cons]
  exact Nat.lt_succ_of_le (List.length_filter_le _ _)

/-- One segment replacement of `arrangement`'s final phase: find the
occurrence indices of the pair `s` in the current `w`, overwrite each first
position with the concatenated nonterminal, then pop each second position
(the source's `locs[li] - li + 1` compensates for the previous pops). -/
def replaceSegment (w : List Str) (s : Str × Str) : List Str :=
  let locs := (List.range (w.length - 1)).filter
    (fun i => (w.getD i [], w.getD (i + 1) []) == s)
  let w1 := locs.foldl (fun wacc l => wacc.set l (s.1 ++ s.2)) w
  (locs.enum).foldl (fun wacc li_l => wacc.eraseIdx (li_l.2 - li_l.1 + 1)) w1

/-- The replacement loop over the distinct selected segments, also emitting
the production `a+b -> [a, b]` for each. -/
def replaceLoop : List (Str × Str) → List Str → Grammar → List Str × Grammar
  | [], w, P => (w, P)
  | s :: rest, w, P =>
      replaceLoop rest (replaceSegment w s) (insertA P (s.1 ++ s.2) [s.1, s.2])

/-- Embeds `arrangement` of src/sakamoto.py. The distinct segments named by
`D`'s entries (Python's de-duplicated `values`/`segments` sets) are
replaced in `w`; the result is the production set, the new sequence, and
the updated id counter. -/
def arrangement (w : List Str) (idc : Nat) : Grammar × List Str × Nat :=
  let L := createSortedSegmentList w
  let st := arrangementLoop w L ⟨[], [], idc⟩
  let segments := nubFirst (st.D.map (fun kv => (w.getD kv.1.1 [], w.getD kv.1.2 [])))
  let r := replaceLoop segments w []
  (r.2, r.1, st.idc)

/-- The `while (hasRepeatingPairs(w))` loop of `levelwiseRepair`. Each
iteration strictly shrinks `w` (proved below), so fuel equal to the initial
length always suffices; `none` models a hypothetical non-terminating run. -/
def lwrLoop : Nat → List Str → Grammar → Nat → Option (Grammar × List Str)
  | 0, w, P, _ => if hasRepeatingPairs w then none else some (P, w)
  | fuel + 1, w, P, idc =>
      if hasRepeatingPairs w then
        let r := repetition w
        let a := arrangement r.2 idc
        lwrLoop fuel a.2.1 (updateA (updateA P r.1) a.1) a.2.2
      else some (P, w)

/-- Embeds `levelwiseRepair` of src/sakamoto.py: run the repair loop, then
return the accumulated productions, appending the trivial chain for the
final sequence unless it is a single symbol. -/
def levelwiseRepair (w : List Str) : Option Grammar :=
  match lwrLoop w.length w [] 0 with
  | none => none
  | some r =>
      if r.2.length = 1 then some r.1
      else some (updateA r.1 (produceTrivialGrammar r.2))

/-- Embeds `getSakamotoGrammar` of src/sakamoto.py (the string becomes the
list of its characters). -/
def getSakamotoGrammar (S : Str) : Option Grammar :=
  levelwiseRepair (S.map (fun c => [c]))

/-! ## Generic association-list lemmas -/

theorem lookupA_insertA {α β : Type} [DecidableEq α] (d : List (α × β)) (k : α) (v : β)
    (k' : α) :
    lookupA (insertA d k v) k' = if k = k' then some v else lookupA d k' := by
  induction d with
  | nil => simp only [insertA, lookupA]
  | cons kv rest ih =>
      obtain ⟨a, b⟩ := kv
      by_cases h1 : a = k
      · subst h1
        rw [insertA, if_pos rfl]
        by_cases h2 : a = k'
        · rw [lookupA, if_pos h2, if_pos h2]
        · rw [lookupA, if_neg h2, if_neg h2, lookupA, if_neg h2]
      · rw [insertA, if_neg h1, lookupA]
        by_cases h3 : a = k'
        · have hkk : ¬ k = k' := by
            rintro rfl
            exact h1 h3
          rw [if_pos h3, if_neg hkk, lookupA, if_pos h3]
        · rw [if_neg h3, ih, lookupA, if_neg h3]

/-! ## Claims about splitTooBigs (C7) -/

/-- Claim C7 as frozen is false: with threshold `k = 1` and input
`["abcd"]`, `splitTooBigs` returns `["ab", "cd"]`, which contains a string
of length `2 > k`; the single pass does not iterate to a fixpoint. -/
theorem splitTooBigs_not_all_le_threshold :
    splitTooBigs [strOf "abcd"] 1 = [strOf "ab", strOf "cd"] ∧
    ¬ (∀ t ∈ splitTooBigs [strOf "abcd"] 1, t.length ≤ 1) := by
  constructor
  · rfl
  · decide

/-- Claim C7, amended: `splitTooBigs` makes a single splitting pass, so its
output strings are bounded by `k` only when the inputs are bounded by `2k`
(which holds at every call site inside `generateCs`, where the previous
level's segments are bounded by twice the current threshold). -/
theorem splitTooBigs_le_of_le_double (L : List Str) (k : Nat)
    (h : ∀ s ∈ L, s.length ≤ 2 * k) :
    ∀ t ∈ splitTooBigs L k, t.length ≤ k := by
  induction L with
  | nil => simp [splitTooBigs]
  | cons s rest ih =>
      intro t ht
      have hs : s.length ≤ 2 * k := h s (List.mem_cons_self s rest)
      rw [splitTooBigs] at ht
      rcases List.mem_append.mp ht with hl | hr
      · by_cases hk : k < s.length
        · rw [if_pos hk] at hl
          simp only [List.mem_cons, List.not_mem_nil, or_false] at hl
          rcases hl with h1 | h1 <;> subst h1
          · simp only [List.length_take]
            omega
          · simp only [List.length_drop]
            omega
        · rw [if_neg hk] at hl
          simp only [List.mem_cons, List.not_mem_nil, or_false] at hl
          subst hl
          omega
      · exact ih (fun u hu => h u (List.mem_cons_of_mem s hu)) t hr

/-- Witness for the amended C7 at a concrete input: the strings of
`["abcd"]` have length at most `2 * 2`, and the first output half has
length at most `2`. -/
theorem splitTooBigs_le_of_le_double_witness :
    ((splitTooBigs [strOf "abcd"] 2).getD 0 []).length ≤ 2 :=
  splitTooBigs_le_of_le_double [strOf "abcd"] 2 (by decide) _ (by decide)

/-! ## Claims about make_sets (C8) -/

/-- Claim C8 as frozen is false: with `w = [a, b, c]`, the single
occurrence `(1, 2)` and the neighboring segment `(0, 1)` assigned an id,
the source's guard `i[0] - 1 > 0` rejects index 1, so the occurrence is
classified free, not left-fixed as the claim's "for every valid i >= 1"
requires. -/
theorem make_sets_index_one_not_left_fixed :
    make_sets [strOf "a", strOf "b", strOf "c"] [(1, 2)] [((0, 1), 0)] =
      ([(1, 2)], [], []) ∧
    hasKeyA [(((0 : Nat), (1 : Nat)), (0 : Nat))] (0, 1) = true := by
  constructor
  · rfl
  · rfl

theorem isLeftFixed_iff (asg : List ((Nat × Nat) × Nat)) (i : Nat) :
    isLeftFixed asg i = true ↔ (2 ≤ i ∧ hasKeyA asg (i - 1, i) = true) := by
  simp only [isLeftFixed, Bool.and_eq_true, decide_eq_true_eq]
  constructor
  · rintro ⟨h1, h2⟩
    exact ⟨by omega, h2⟩
  · rintro ⟨h1, h2⟩
    exact ⟨by omega, h2⟩

theorem isRightFixed_iff (asg : List ((Nat × Nat) × Nat)) (i n : Nat) :
    isRightFixed asg i n = true ↔ (i + 2 < n ∧ hasKeyA asg (i + 1, i + 2) = true) := by
  simp [isRightFixed, Bool.and_eq_true, decide_eq_true_eq]

/-- Claim C8, amended: `make_sets` partitions the occurrences as specified
except that left-fixed additionally requires `i ≥ 2` (the source tests
`i[0] - 1 > 0`, excluding index 1): an occurrence `(i, i+1)` is left-fixed
iff `i ≥ 2` and `(i-1, i)` is assigned; right-fixed iff it is not
left-fixed, `i + 2 < len w` and `(i+1, i+2)` is assigned; free otherwise.
The three sets are disjoint restrictions of `C`. -/
theorem make_sets_partition (w : List Str) (C : List (Nat × Nat))
    (asg : List ((Nat × Nat) × Nat)) (x : Nat × Nat) (hx : x ∈ C) :
    (x ∈ (make_sets w C asg).2.1 ↔
      (2 ≤ x.1 ∧ hasKeyA asg (x.1 - 1, x.1) = true)) ∧
    (x ∈ (make_sets w C asg).2.2 ↔
      (¬ (2 ≤ x.1 ∧ hasKeyA asg (x.1 - 1, x.1) = true) ∧
        x.1 + 2 < w.length ∧ hasKeyA asg (x.1 + 1, x.1 + 2) = true)) ∧
    (x ∈ (make_sets w C asg).1 ↔
      (¬ (2 ≤ x.1 ∧ hasKeyA asg (x.1 - 1, x.1) = true) ∧
        ¬ (x.1 + 2 < w.length ∧ hasKeyA asg (x.1 + 1, x.1 + 2) = true))) := by
  have hLhd : (isLeftFixed asg x.1 = false) ↔
      ¬ (2 ≤ x.1 ∧ hasKeyA asg (x.1 - 1, x.1) = true) := by
    rw [← isLeftFixed_iff]
    simp
  have hRhd : (isRightFixed asg x.1 w.length = false) ↔
      ¬ (x.1 + 2 < w.length ∧ hasKeyA asg (x.1 + 1, x.1 + 2) = true) := by
    rw [← isRightFixed_iff]
    simp
  refine ⟨?_, ?_, ?_⟩
  · simp only [make_sets, List.mem_filter, hx, true_and]
    exact isLeftFixed_iff asg x.1
  · simp only [make_sets, List.mem_filter, hx, true_and, Bool.and_eq_true,
      Bool.not_eq_true']
    rw [hLhd, isRightFixed_iff]
  · simp only [make_sets, List.mem_filter, hx, true_and, Bool.and_eq_true,
      Bool.not_eq_true']
    rw [hLhd, hRhd]

/-- Witness for the amended C8 at a concrete input: in `w = [a, b, a, b]`
with `(1, 2)` assigned an id, the occurrence `(2, 3)` is left-fixed and the
occurrence `(0, 1)` is right-fixed. -/
theorem make_sets_partition_witness :
    ((2, 3) ∈ (make_sets [strOf "a", strOf "b", strOf "a", strOf "b"]
        [(0, 1), (2, 3)] [((1, 2), 0)]).2.1) ∧
    ((0, 1) ∈ (make_sets [strOf "a", strOf "b", strOf "a", strOf "b"]
        [(0, 1), (2, 3)] [((1, 2), 0)]).2.2) := by
  constructor
  · exact ((make_sets_partition [strOf "a", strOf "b", strOf "a", strOf "b"]
      [(0, 1), (2, 3)] [((1, 2), 0)] (2, 3) (by decide)).1).mpr (by decide)
  · exact (((make_sets_partition [strOf "a", strOf "b", strOf "a", strOf "b"]
      [(0, 1), (2, 3)] [((1, 2), 0)] (0, 1) (by decide)).2.1)).mpr (by decide)

/-! ## Claims about pairWithMaximumOverlap (C6) -/

/-- One step of the Python running maximum: `None` is replaced by the first
candidate, any later candidate through `max` under tuple comparison. -/
def pyStep (b : Option (Nat × Nat × Nat)) (c : Nat × Nat × Nat) :
    Option (Nat × Nat × Nat) :=
  match b with
  | none => some c
  | some b => some (pyMax3 b c)

theorem lt3_iff (a b : Nat × Nat × Nat) :
    lt3 a b = true ↔
      (a.1 < b.1 ∨ (a.1 = b.1 ∧ (a.2.1 < b.2.1 ∨ (a.2.1 = b.2.1 ∧ a.2.2 < b.2.2)))) := by
  simp [lt3]

theorem bestOverlapTriple_eq_foldl (Ss : List Str) :
    bestOverlapTriple Ss =
      ((pairIndexList Ss.length).map
        (fun ij => ((computeOverlap (Ss.getD ij.1 []) (Ss.getD ij.2 [])).1, ij.1, ij.2))).foldl
        pyStep none := by
  rw [List.foldl_map]
  rfl

theorem pyStep_foldl_spec (l : List (Nat × Nat × Nat)) :
    ∀ acc : Option (Nat × Nat × Nat),
      (l.foldl pyStep acc = none → acc = none ∧ l = []) ∧
      (∀ t, l.foldl pyStep acc = some t →
        (t ∈ l ∨ acc = some t) ∧ (∀ c ∈ l, lt3 t c = false) ∧
        (∀ b, acc = some b → lt3 t b = false)) := by
  induction l with
  | nil =>
      intro acc
      refine ⟨fun h => ⟨h, rfl⟩, fun t ht => ⟨Or.inr ht, by simp, ?_⟩⟩
      intro b hb
      rw [List.foldl_nil] at ht
      rw [ht] at hb
      cases hb
      simp only [lt3, decide_eq_false_iff_not]
      omega
  | cons c' rest ih =>
      intro acc
      rw [List.foldl_cons]
      refine ⟨fun h => absurd ((ih (pyStep acc c')).1 h).1 (by cases acc <;> simp [pyStep, pyMax3]), ?_⟩
      intro t ht
      have spec := ((ih (pyStep acc c')).2 t ht)
      cases acc with
      | none =>
          have hstep : pyStep none c' = some c' := rfl
          rw [hstep] at spec
          refine ⟨?_, ?_, by simp⟩
          · rcases spec.1 with h | h
            · exact Or.inl (List.mem_cons_of_mem _ h)
            · cases h
              exact Or.inl (List.mem_cons_self _ _)
          · intro c hc
            rcases List.mem_cons.mp hc with h | h
            · rw [h]
              exact spec.2.2 c' rfl
            · exact spec.2.1 c h
      | some b0 =>
          by_cases hlt : lt3 b0 c' = true
          · have hstep : pyStep (some b0) c' = some c' := by
              simp [pyStep, pyMax3, hlt]
            rw [hstep] at spec
            have htc : lt3 t c' = false := spec.2.2 c' rfl
            refine ⟨?_, ?_, ?_⟩
            · rcases spec.1 with h | h
              · exact Or.inl (List.mem_cons_of_mem _ h)
              · cases h
                exact Or.inl (List.mem_cons_self _ _)
            · intro c hc
              rcases List.mem_cons.mp hc with h | h
              · subst h
                exact htc
              · exact spec.2.1 c h
            · intro b hb
              cases hb
              simp only [lt3, decide_eq_true_eq] at hlt
              simp only [lt3, decide_eq_false_iff_not] at htc ⊢
              omega
          · have hlt' : lt3 b0 c' = false := by
              cases h : lt3 b0 c'
              · rfl
              · exact absurd h hlt
            have hstep : pyStep (some b0) c' = some b0 := by
              simp [pyStep, pyMax3, hlt']
            rw [hstep] at spec
            have htb : lt3 t b0 = false := spec.2.2 b0 rfl
            refine ⟨?_, ?_, ?_⟩
            · rcases spec.1 with h | h
              · exact Or.inl (List.mem_cons_of_mem _ h)
              · exact Or.inr h
            · intro c hc
              rcases List.mem_cons.mp hc with h | h
              · subst h
                simp only [lt3, decide_eq_false_iff_not] at hlt' htb ⊢
                omega
              · exact spec.2.1 c h
            · intro b hb
              cases hb
              exact htb

theorem mem_pairIndexList (n i j : Nat) :
    (i, j) ∈ pairIndexList n ↔ i < j ∧ j < n := by
  constructor
  · intro hm
    rw [pairIndexList] at hm
    rcases List.mem_flatten.mp hm with ⟨ll, hll, hmem2⟩
    rcases List.mem_map.mp hll with ⟨a, ha, rfl⟩
    rcases List.mem_map.mp hmem2 with ⟨b, hb, heq⟩
    cases heq
    have h1 := List.mem_range.mp ha
    have h2 := List.mem_range'_1.mp hb
    omega
  · rintro ⟨h1, h2⟩
    rw [pairIndexList]
    have hj : (i, j) ∈ (List.range' (i + 1) (n - (i + 1))).map (fun j => (i, j)) :=
      List.mem_map.mpr ⟨j, List.mem_range'_1.mpr (by omega), rfl⟩
    exact List.mem_flatten.mpr ⟨_, List.mem_map.mpr ⟨i, List.mem_range.mpr (by omega), rfl⟩, hj⟩

/-- Claim C6 as frozen is false: on `["ab", "bc", "bd"]` both pairs
`(0, 1)` and `(0, 2)` attain the maximum overlap 1, and the function
returns `("ab", "bd")` — the pair `(0, 2)` scanned later — not the
first-encountered `("ab", "bc")`. -/
theorem pairWithMaximumOverlap_not_first :
    (computeOverlap (strOf "ab") (strOf "bc")).1 = 1 ∧
    (computeOverlap (strOf "ab") (strOf "bd")).1 = 1 ∧
    (computeOverlap (strOf "bc") (strOf "bd")).1 = 0 ∧
    pairWithMaximumOverlap [strOf "ab", strOf "bc", strOf "bd"] = (strOf "ab", strOf "bd") ∧
    pairWithMaximumOverlap [strOf "ab", strOf "bc", strOf "bd"] ≠ (strOf "ab", strOf "bc") := by
  refine ⟨rfl, rfl, rfl, rfl, ?_⟩
  decide

/-- Claim C6, amended: ties in overlap are broken in favor of the pair
scanned last, not first: `pairWithMaximumOverlap` returns the strings at
the index pair whose `(overlap, i, j)` triple is the running Python
`max`, which no scanned pair's triple exceeds — in particular, among the
pairs attaining the maximum overlap, the lexicographically largest
`(i, j)` wins. -/
theorem pairWithMaximumOverlap_is_lex_max (Ss : List Str) (h : 2 ≤ Ss.length) :
    (bestOverlapTriple Ss).isSome = true ∧
    ((bestOverlapTriple Ss).getD (0, 0, 0)).2.1 < ((bestOverlapTriple Ss).getD (0, 0, 0)).2.2 ∧
    ((bestOverlapTriple Ss).getD (0, 0, 0)).2.2 < Ss.length ∧
    ((bestOverlapTriple Ss).getD (0, 0, 0)).1 =
      (computeOverlap (Ss.getD ((bestOverlapTriple Ss).getD (0, 0, 0)).2.1 [])
        (Ss.getD ((bestOverlapTriple Ss).getD (0, 0, 0)).2.2 [])).1 ∧
    pairWithMaximumOverlap Ss =
      (Ss.getD ((bestOverlapTriple Ss).getD (0, 0, 0)).2.1 [],
       Ss.getD ((bestOverlapTriple Ss).getD (0, 0, 0)).2.2 []) ∧
    ∀ i' j', i' < j' → j' < Ss.length →
      lt3 ((bestOverlapTriple Ss).getD (0, 0, 0))
        ((computeOverlap (Ss.getD i' []) (Ss.getD j' [])).1, i', j') = false := by
  have hne : bestOverlapTriple Ss ≠ none := by
    intro hcon
    rw [bestOverlapTriple_eq_foldl] at hcon
    have hmapnil := ((pyStep_foldl_spec _ none).1 hcon).2
    have h3 : pairIndexList Ss.length = [] := by
      rcases hl : pairIndexList Ss.length with _ | ⟨a, l⟩
      · rfl
      · rw [hl] at hmapnil
        simp at hmapnil
    have h01 : ((0 : Nat), (1 : Nat)) ∈ pairIndexList Ss.length :=
      (mem_pairIndexList Ss.length 0 1).mpr (by omega)
    rw [h3] at h01
    exact absurd h01 (List.not_mem_nil _)
  rcases hb : bestOverlapTriple Ss with _ | t
  · exact absurd hb hne
  have hspec := (pyStep_foldl_spec
    ((pairIndexList Ss.length).map
      (fun ij => ((computeOverlap (Ss.getD ij.1 []) (Ss.getD ij.2 [])).1, ij.1, ij.2))) none).2 t
    (by rw [← bestOverlapTriple_eq_foldl]; exact hb)
  have hmem : t ∈ (pairIndexList Ss.length).map
      (fun ij => ((computeOverlap (Ss.getD ij.1 []) (Ss.getD ij.2 [])).1, ij.1, ij.2)) := by
    rcases hspec.1 with h | h
    · exact h
    · cases h
  rcases List.mem_map.mp hmem with ⟨ij, hij, hteq⟩
  have hijlt : ij.1 < ij.2 ∧ ij.2 < Ss.length := by
    have := (mem_pairIndexList Ss.length ij.1 ij.2).mp (by
      rcases ij with ⟨i, j⟩
      exact hij)
    exact this
  subst hteq
  simp only [hb, Option.getD_some, Option.isSome_some, true_and]
  refine ⟨hijlt.1, hijlt.2, ?_, ?_⟩
  · show pairWithMaximumOverlap Ss = _
    rw [pairWithMaximumOverlap, hb]
  · intro i' j' h1 h2
    exact hspec.2.1 _ (List.mem_map.mpr ⟨(i', j'), (mem_pairIndexList Ss.length i' j').mpr ⟨h1, h2⟩, rfl⟩)

/-- Witness for the amended C6 at the tie input `["ab", "bc", "bd"]`: the
returned pair is the one at the lex-largest tying index pair, and the
first-scanned tying pair `(0, 1)` does not beat the chosen triple. -/
theorem pairWithMaximumOverlap_is_lex_max_witness :
    pairWithMaximumOverlap [strOf "ab", strOf "bc", strOf "bd"] =
      ([strOf "ab", strOf "bc", strOf "bd"].getD
        ((bestOverlapTriple [strOf "ab", strOf "bc", strOf "bd"]).getD (0, 0, 0)).2.1 [],
       [strOf "ab", strOf "bc", strOf "bd"].getD
        ((bestOverlapTriple [strOf "ab", strOf "bc", strOf "bd"]).getD (0, 0, 0)).2.2 []) ∧
    lt3 ((bestOverlapTriple [strOf "ab", strOf "bc", strOf "bd"]).getD (0, 0, 0))
      ((computeOverlap ([strOf "ab", strOf "bc", strOf "bd"].getD 0 [])
        ([strOf "ab", strOf "bc", strOf "bd"].getD 1 [])).1, 0, 1) = false :=
  ⟨(pairWithMaximumOverlap_is_lex_max [strOf "ab", strOf "bc", strOf "bd"] (by decide)).2.2.2.2.1,
   (pairWithMaximumOverlap_is_lex_max [strOf "ab", strOf "bc", strOf "bd"] (by decide)).2.2.2.2.2
     0 1 (by decide) (by decide)⟩

/-! ## Claims about getBisectionGrammar (C9) -/

/-- Modelled from the spec (§4.2, claim C9): the substrings of length at
least 2 encountered by the recursive floor-midpoint split of `S`. Strings
of length 1 are not encountered as keys. -/
def bisectionSpecKeys (S : Str) : List Str :=
  if S.length ≤ 1 then []
  else
    S :: (bisectionSpecKeys (S.take (S.length / 2)) ++
      bisectionSpecKeys (S.drop (S.length / 2)))
termination_by S.length
decreasing_by
  · simp only [List.length_take]
    omega
  · simp only [List.length_drop]
    omega

theorem bisectionSpecKeys_two_le (n : Nat) :
    ∀ S : Str, S.length ≤ n → ∀ T ∈ bisectionSpecKeys S, 2 ≤ T.length := by
  induction n with
  | zero =>
      intro S hS T hT
      rw [bisectionSpecKeys] at hT
      rw [if_pos (by omega)] at hT
      exact absurd hT (List.not_mem_nil T)
  | succ n ih =>
      intro S hS T hT
      rw [bisectionSpecKeys] at hT
      by_cases h1 : S.length ≤ 1
      · rw [if_pos h1] at hT
        exact absurd hT (List.not_mem_nil T)
      · rw [if_neg h1] at hT
        rcases List.mem_cons.mp hT with h | h
        · subst h
          omega
        · rcases List.mem_append.mp h with h2 | h2
          · exact ih (S.take (S.length / 2)) (by simp only [List.length_take]; omega) T h2
          · exact ih (S.drop (S.length / 2)) (by simp only [List.length_drop]; omega) T h2

theorem bisectionRecurse_lookup (n : Nat) :
    ∀ S : Str, S.length ≤ n → ∀ (g : Grammar) (T : Str),
      lookupA (bisectionRecurse S g) T =
        if T ∈ bisectionSpecKeys S then
          some [T.take (T.length / 2), T.drop (T.length / 2)]
        else lookupA g T := by
  induction n with
  | zero =>
      intro S hS g T
      rw [bisectionRecurse, dif_pos (show S.length ≤ 1 by omega), bisectionSpecKeys,
        if_pos (show S.length ≤ 1 by omega)]
      simp
  | succ n ih =>
      intro S hS g T
      by_cases h1 : S.length ≤ 1
      · rw [bisectionRecurse, dif_pos h1, bisectionSpecKeys, if_pos h1]
        simp
      · rw [bisectionRecurse, dif_neg h1, bisectionSpecKeys, if_neg h1]
        show lookupA (bisectionRecurse (S.drop (S.length / 2))
            (bisectionRecurse (S.take (S.length / 2))
              (insertA g S [S.take (S.length / 2), S.drop (S.length / 2)]))) T = _
        rw [ih (S.drop (S.length / 2)) (by simp only [List.length_drop]; omega)]
        rw [ih (S.take (S.length / 2)) (by simp only [List.length_take]; omega)]
        rw [lookupA_insertA]
        by_cases hr : T ∈ bisectionSpecKeys (S.drop (S.length / 2))
        · rw [if_pos hr, if_pos (List.mem_cons.mpr (Or.inr (List.mem_append.mpr (Or.inr hr))))]
        · rw [if_neg hr]
          by_cases hl : T ∈ bisectionSpecKeys (S.take (S.length / 2))
          · rw [if_pos hl, if_pos (List.mem_cons.mpr (Or.inr (List.mem_append.mpr (Or.inl hl))))]
          · rw [if_neg hl]
            by_cases hT : S = T
            · subst hT
              rw [if_pos rfl, if_pos (List.mem_cons.mpr (Or.inl rfl))]
            · rw [if_neg hT, if_neg]
              intro hc
              rcases List.mem_cons.mp hc with h | h
              · exact hT h.symm
              · rcases List.mem_append.mp h with h2 | h2
                · exact hl h2
                · exact hr h2

unseal bisectionRecurse bisectionSpecKeys in
/-- Claim C9: `getBisectionGrammar S` is exactly the grammar of the
recursive floor-midpoint split: a string `T` is a key iff it is a
substring of length at least 2 encountered by the recursion, and then maps
to its two floor-midpoint halves; length-1 substrings contribute no
production; equal halves collapse into a single key, as in the concrete
`"abababab"` example with exactly three productions. -/
theorem getBisectionGrammar_characterization (S : Str) (_h : 1 ≤ S.length) (T : Str) :
    (lookupA (getBisectionGrammar S) T =
      if T ∈ bisectionSpecKeys S then
        some [T.take (T.length / 2), T.drop (T.length / 2)]
      else none) ∧
    (T ∈ bisectionSpecKeys S → 2 ≤ T.length) ∧
    getBisectionGrammar (strOf "abababab") =
      [(strOf "abababab", [strOf "abab", strOf "abab"]),
       (strOf "abab", [strOf "ab", strOf "ab"]),
       (strOf "ab", [strOf "a", strOf "b"])] := by
  refine ⟨?_, ?_, ?_⟩
  · have := bisectionRecurse_lookup S.length S (Nat.le_refl _) [] T
    rw [getBisectionGrammar, this]
    rfl
  · exact bisectionSpecKeys_two_le S.length S (Nat.le_refl _) T
  · rfl

/-- Witness for C9 at a concrete input. -/
theorem getBisectionGrammar_characterization_witness :
    lookupA (getBisectionGrammar (strOf "ab")) (strOf "ab") =
      if strOf "ab" ∈ bisectionSpecKeys (strOf "ab") then
        some [(strOf "ab").take 1, (strOf "ab").drop 1]
      else none :=
  (getBisectionGrammar_characterization (strOf "ab") (by decide) (strOf "ab")).1

/-! ## Termination of levelwiseRepair (C3) -/

theorem insertA_ne_nil {α β : Type} [DecidableEq α] (d : List (α × β)) (k : α) (v : β) :
    insertA d k v ≠ [] := by
  cases d with
  | nil => simp [insertA]
  | cons kv rest =>
      rw [insertA]
      split <;> simp

theorem updateA_ne_nil {α β : Type} [DecidableEq α] (h d : List (α × β)) :
    (d ≠ [] ∨ h ≠ []) → updateA d h ≠ [] := by
  induction h generalizing d with
  | nil =>
      intro hne
      rcases hne with hd | hh
      · exact hd
      · exact absurd rfl hh
  | cons kv rest ih =>
      intro _
      rw [updateA, List.foldl_cons]
      exact ih (insertA d kv.1 kv.2) (Or.inl (insertA_ne_nil d kv.1 kv.2))

theorem mem_keys_insertA {α β : Type} [DecidableEq α] (d : List (α × β)) (k : α) (v : β)
    (a : α) (ha : a ∈ (insertA d k v).map Prod.fst) :
    a = k ∨ a ∈ d.map Prod.fst := by
  induction d with
  | nil =>
      simp only [insertA, List.map_cons, List.map_nil, List.mem_singleton] at ha
      exact Or.inl ha
  | cons kv rest ih =>
      rw [insertA] at ha
      split at ha
      · simp only [List.map_cons, List.mem_cons] at ha
        rcases ha with h | h
        · exact Or.inl h
        · exact Or.inr (by simp only [List.map_cons, List.mem_cons]; exact Or.inr h)
      · simp only [List.map_cons, List.mem_cons] at ha
        rcases ha with h | h
        · exact Or.inr (by simp only [List.map_cons, List.mem_cons]; exact Or.inl h)
        · rcases ih h with h2 | h2
          · exact Or.inl h2
          · exact Or.inr (by simp only [List.map_cons, List.mem_cons]; exact Or.inr h2)

theorem mem_keys_updateA {α β : Type} [DecidableEq α] (h d : List (α × β)) (a : α)
    (ha : a ∈ (updateA d h).map Prod.fst) :
    a ∈ d.map Prod.fst ∨ a ∈ h.map Prod.fst := by
  induction h generalizing d with
  | nil => exact Or.inl ha
  | cons kv rest ih =>
      rw [updateA, List.foldl_cons] at ha
      rcases ih (insertA d kv.1 kv.2) (by rw [updateA] at *; exact ha) with h1 | h1
      · rcases mem_keys_insertA d kv.1 kv.2 a h1 with h2 | h2
        · exact Or.inr (by simp [h2])
        · exact Or.inl h2
      · exact Or.inr (by simp only [List.map_cons, List.mem_cons]; exact Or.inr h1)

theorem mem_zip_tail (w : List Str) (p : Str × Str) (hp : p ∈ w.zip w.tail) :
    ∃ i, i + 1 < w.length ∧ w.getD i [] = p.1 ∧ w.getD (i + 1) [] = p.2 := by
  induction w with
  | nil => simp [List.zip] at hp
  | cons a rest ih =>
      match rest with
      | [] => simp [List.zip] at hp
      | b :: rest2 =>
          simp only [List.tail_cons] at hp
          rcases List.mem_cons.mp (by
            have : (a, b) :: ((b :: rest2).zip rest2) = (a :: b :: rest2).zip (b :: rest2) := rfl
            rw [← this] at hp
            exact hp) with h | h
          · subst h
            exact ⟨0, by simp, rfl, rfl⟩
          · have hx := ih (by simpa using h)
            rcases hx with ⟨i, hi, h1, h2⟩
            refine ⟨i + 1, ?_, h1, h2⟩
            simp only [List.length_cons] at hi ⊢
            omega

theorem zip_tail_ne_nil (w : List Str) (hw : 2 ≤ w.length) : w.zip w.tail ≠ [] := by
  match w with
  | [] => simp at hw
  | [a] => simp at hw
  | a :: b :: rest => simp [List.zip]

theorem counts_foldl_ne_nil {α : Type} [DecidableEq α] (l : List α)
    (step : List (α × Nat) → α → List (α × Nat))
    (hstep : ∀ d p, step d p ≠ []) :
    ∀ d : List (α × Nat), (d ≠ [] ∨ l ≠ []) → l.foldl step d ≠ [] := by
  induction l with
  | nil =>
      intro d hd
      rcases hd with h | h
      · exact h
      · exact absurd rfl h
  | cons p rest ih =>
      intro d _
      rw [List.foldl_cons]
      exact ih (step d p) (Or.inl (hstep d p))

theorem counts_foldl_keys {α : Type} [DecidableEq α] (l : List α)
    (step : List (α × Nat) → α → List (α × Nat))
    (hstep : ∀ d p a, a ∈ (step d p).map Prod.fst → a = p ∨ a ∈ d.map Prod.fst) :
    ∀ (d : List (α × Nat)) (a : α), a ∈ (l.foldl step d).map Prod.fst →
      a ∈ d.map Prod.fst ∨ a ∈ l := by
  induction l with
  | nil =>
      intro d a ha
      exact Or.inl ha
  | cons p rest ih =>
      intro d a ha
      rw [List.foldl_cons] at ha
      rcases ih (step d p) a ha with h | h
      · rcases hstep d p a h with h2 | h2
        · exact Or.inr (by simp [h2])
        · exact Or.inl h2
      · exact Or.inr (List.mem_cons_of_mem _ h)

theorem mem_insSortedBy {α : Type} (le : α → α → Bool) (x y : α) (l : List α)
    (h : y ∈ insSortedBy le x l) : y = x ∨ y ∈ l := by
  induction l with
  | nil =>
      simp only [insSortedBy, List.mem_singleton] at h
      exact Or.inl h
  | cons z zs ih =>
      rw [insSortedBy] at h
      split at h
      · rcases List.mem_cons.mp h with h1 | h1
        · exact Or.inl h1
        · exact Or.inr h1
      · rcases List.mem_cons.mp h with h1 | h1
        · exact Or.inr (by simp [h1])
        · rcases ih h1 with h2 | h2
          · exact Or.inl h2
          · exact Or.inr (List.mem_cons_of_mem _ h2)

theorem mem_sortByLe {α : Type} (le : α → α → Bool) (x : α) (l : List α)
    (h : x ∈ sortByLe le l) : x ∈ l := by
  induction l with
  | nil => exact absurd h (List.not_mem_nil x)
  | cons z zs ih =>
      rw [sortByLe, List.foldr_cons] at h
      rcases mem_insSortedBy le z x _ h with h1 | h1
      · simp [h1]
      · exact List.mem_cons_of_mem _ (ih (by rw [sortByLe]; exact h1))

theorem insSortedBy_ne_nil {α : Type} (le : α → α → Bool) (x : α) (l : List α) :
    insSortedBy le x l ≠ [] := by
  cases l with
  | nil => simp [insSortedBy]
  | cons z zs =>
      rw [insSortedBy]
      split <;> simp

theorem sortByLe_ne_nil {α : Type} (le : α → α → Bool) (l : List α) (h : l ≠ []) :
    sortByLe le l ≠ [] := by
  cases l with
  | nil => exact absurd rfl h
  | cons x xs =>
      rw [sortByLe, List.foldr_cons]
      exact insSortedBy_ne_nil _ _ _

/-- Every entry of the sorted frequency list is an adjacent pair that
actually occurs in `w`, and for `|w| ≥ 2` the list is nonempty. -/
theorem createSortedSegmentList_spec (w : List Str) :
    (∀ e ∈ createSortedSegmentList w, e.2 ∈ w.zip w.tail) ∧
    (2 ≤ w.length → createSortedSegmentList w ≠ []) := by
  constructor
  · intro e he
    rw [createSortedSegmentList] at he
    rw [List.mem_reverse] at he
    have h1 := mem_sortByLe _ _ _ he
    rcases List.mem_map.mp h1 with ⟨kv, hkv, heq⟩
    have hkey : kv.1 ∈ ((w.zip w.tail).foldl countStep []).map Prod.fst :=
      List.mem_map.mpr ⟨kv, hkv, rfl⟩
    have h2 := counts_foldl_keys (w.zip w.tail) countStep
      (by
        intro d p a ha
        rw [countStep] at ha
        cases hl : lookupA d p with
        | some c =>
            rw [hl] at ha
            exact mem_keys_insertA d p (c + 1) a ha
        | none =>
            rw [hl] at ha
            exact mem_keys_insertA d p 1 a ha)
      [] kv.1 hkey
    rcases h2 with h3 | h3
    · exact absurd h3 (by simp)
    · rw [← heq]
      exact h3
  · intro hw
    rw [createSortedSegmentList]
    intro hcon
    rw [List.reverse_eq_nil_iff] at hcon
    have h3 := counts_foldl_ne_nil (w.zip w.tail) countStep
      (by
        intro d p
        rw [countStep]
        cases hl : lookupA d p with
        | some c => exact insertA_ne_nil d p (c + 1)
        | none => exact insertA_ne_nil d p 1)
      [] (Or.inr (zip_tail_ne_nil w hw))
    refine sortByLe_ne_nil entryLe _ ?_ hcon
    intro hmap
    rw [List.map_eq_nil_iff] at hmap
    exact h3 hmap

/-- Occurrence shape: the occurrences listed by `make_set_c` are the pairs
`(i, i+1)` with `i + 1 < |w|` whose symbols form `seg`. -/
theorem mem_make_set_c (seg : Str × Str) (w : List Str) (x : Nat × Nat)
    (hx : x ∈ make_set_c seg w) :
    x.2 = x.1 + 1 ∧ x.1 + 1 < w.length ∧
      (w.getD x.1 [], w.getD (x.1 + 1) []) = seg := by
  rw [make_set_c] at hx
  rcases List.mem_map.mp hx with ⟨i, hi, rfl⟩
  have h1 := List.mem_filter.mp hi
  have h2 := List.mem_range.mp h1.1
  exact ⟨rfl, by omega, eq_of_beq h1.2⟩

theorem make_set_c_mem (seg : Str × Str) (w : List Str) (i : Nat)
    (hi : i + 1 < w.length) (hpair : (w.getD i [], w.getD (i + 1) []) = seg) :
    (i, i + 1) ∈ make_set_c seg w := by
  rw [make_set_c]
  exact List.mem_map.mpr ⟨i,
    List.mem_filter.mpr ⟨List.mem_range.mpr (by omega), beq_iff_eq.mpr hpair⟩, rfl⟩

/-- With no assignments yet (the first popped pair of a call to
`arrangement`), every occurrence is free. -/
theorem make_sets_empty_asg (w : List Str) (C : List (Nat × Nat)) :
    make_sets w C [] = (C, [], []) := by
  have hL : ∀ i : Nat, isLeftFixed [] i = false := by
    intro i
    simp [isLeftFixed, hasKeyA, lookupA]
  have hR : ∀ i n : Nat, isRightFixed [] i n = false := by
    intro i n
    simp [isRightFixed, hasKeyA, lookupA]
  rw [make_sets]
  simp [hL, hR]

theorem make_sets_sub_c (w : List Str) (C : List (Nat × Nat))
    (asg : List ((Nat × Nat) × Nat)) :
    (∀ x ∈ (make_sets w C asg).1, x ∈ C) ∧
    (∀ x ∈ (make_sets w C asg).2.1, x ∈ C) ∧
    (∀ x ∈ (make_sets w C asg).2.2, x ∈ C) := by
  rw [make_sets]
  exact ⟨fun x hx => (List.mem_filter.mp hx).1,
    fun x hx => (List.mem_filter.mp hx).1,
    fun x hx => (List.mem_filter.mp hx).1⟩

theorem assignment_free_keys (F L R : List (Nat × Nat))
    (asg : List ((Nat × Nat) × Nat)) (d1 d2 : Nat)
    (dict : List ((Nat × Nat) × Nat)) :
    (∀ a ∈ (assignment .free F L R asg d1 d2 dict).2.map Prod.fst, a ∈ F) ∧
    (F ≠ [] → (assignment .free F L R asg d1 d2 dict).2 ≠ []) := by
  rw [assignment]
  have main : ∀ (l : List (Nat × Nat)) (st : List ((Nat × Nat) × Nat) × List ((Nat × Nat) × Nat)),
      (∀ a ∈ (l.foldl (fun st x => (insertA st.1 x d1, insertA st.2 x d1)) st).2.map Prod.fst,
        a ∈ st.2.map Prod.fst ∨ a ∈ l) ∧
      ((st.2 ≠ [] ∨ l ≠ []) →
        (l.foldl (fun st x => (insertA st.1 x d1, insertA st.2 x d1)) st).2 ≠ []) := by
    intro l
    induction l with
    | nil =>
        intro st
        refine ⟨fun a ha => Or.inl ha, fun h => ?_⟩
        rcases h with h | h
        · exact h
        · exact absurd rfl h
    | cons x xs ih =>
        intro st
        rw [List.foldl_cons]
        constructor
        · intro a ha
          rcases (ih (insertA st.1 x d1, insertA st.2 x d1)).1 a ha with h | h
          · rcases mem_keys_insertA st.2 x d1 a h with h2 | h2
            · exact Or.inr (by simp [h2])
            · exact Or.inl h2
          · exact Or.inr (List.mem_cons_of_mem _ h)
        · intro _
          exact (ih (insertA st.1 x d1, insertA st.2 x d1)).2
            (Or.inl (insertA_ne_nil st.2 x d1))
  constructor
  · intro a ha
    rcases (main F (asg, [])).1 a ha with h | h
    · exact absurd h (by simp)
    · exact h
  · intro hF
    exact (main F (asg, [])).2 (Or.inr hF)

/-- The left- and right-fixed assignment passes only ever add occurrences
from their input set to the local dictionary (`D[seq] = d1` in the
`unselected` branch), where for the right pass `seq = (x, x+1)` coincides
with the occurrence when it has the standard shape. -/
theorem assignFixedOne_snd_keys (nb seq : Nat × Nat) (grp : List (Nat × Nat))
    (isLeftBranch : Bool) (d1 d2 : Nat)
    (asg Dloc dict : List ((Nat × Nat) × Nat)) (a : Nat × Nat)
    (ha : a ∈ (assignFixedOne nb seq grp isLeftBranch d1 d2 asg Dloc dict).2.map Prod.fst) :
    a ∈ Dloc.map Prod.fst ∨ a = seq := by
  rw [assignFixedOne] at ha
  have hgen : ∀ Dx : List ((Nat × Nat) × Nat), a ∈ (insertA Dx seq d1).map Prod.fst →
      a ∈ Dx.map Prod.fst ∨ a = seq := by
    intro Dx hx
    rcases mem_keys_insertA Dx seq d1 a hx with h | h
    · exact Or.inr h
    · exact Or.inl h
  split at ha
  · split at ha
    · exact hgen Dloc ha
    · exact Or.inl ha
  · split at ha
    · exact hgen Dloc ha
    · exact Or.inl ha

theorem assignment_left_keys (F L R : List (Nat × Nat))
    (asg : List ((Nat × Nat) × Nat)) (d1 d2 : Nat)
    (dict : List ((Nat × Nat) × Nat)) (a : Nat × Nat)
    (ha : a ∈ (assignment .left F L R asg d1 d2 dict).2.map Prod.fst) :
    a ∈ L := by
  rw [assignment] at ha
  have main : ∀ (l : List (Nat × Nat)) (st : List ((Nat × Nat) × Nat) × List ((Nat × Nat) × Nat)),
      ∀ a ∈ (l.foldl (fun st x =>
          let r := assignFixedOne (x.1 - 1, x.1) (x.1, x.2) L true d1 d2 st.1 st.2 dict
          (r.1, r.2)) st).2.map Prod.fst,
        a ∈ st.2.map Prod.fst ∨ a ∈ l := by
    intro l
    induction l with
    | nil => exact fun st a ha => Or.inl ha
    | cons x xs ih =>
        intro st a ha
        rw [List.foldl_cons] at ha
        rcases ih _ a ha with h | h
        · rcases assignFixedOne_snd_keys (x.1 - 1, x.1) (x.1, x.2) L true d1 d2
            st.1 st.2 dict a h with h2 | h2
          · exact Or.inl h2
          · exact Or.inr (by simp [h2])
        · exact Or.inr (List.mem_cons_of_mem _ h)
  rcases main L (asg, []) a ha with h | h
  · exact absurd h (by simp)
  · exact h

theorem assignment_right_keys (F L R : List (Nat × Nat))
    (asg : List ((Nat × Nat) × Nat)) (d1 d2 : Nat)
    (dict : List ((Nat × Nat) × Nat)) (a : Nat × Nat)
    (ha : a ∈ (assignment .right F L R asg d1 d2 dict).2.map Prod.fst) :
    ∃ x ∈ R, a = (x.1, x.1 + 1) := by
  rw [assignment] at ha
  have main : ∀ (l : List (Nat × Nat)) (st : List ((Nat × Nat) × Nat) × List ((Nat × Nat) × Nat)),
      ∀ a ∈ (l.foldl (fun st x =>
          let r := assignFixedOne (x.2, x.2 + 1) (x.1, x.1 + 1) R false d1 d2 st.1 st.2 dict
          (r.1, r.2)) st).2.map Prod.fst,
        a ∈ st.2.map Prod.fst ∨ ∃ x ∈ l, a = (x.1, x.1 + 1) := by
    intro l
    induction l with
    | nil => exact fun st a ha => Or.inl ha
    | cons x xs ih =>
        intro st a ha
        rw [List.foldl_cons] at ha
        rcases ih _ a ha with h | h
        · rcases assignFixedOne_snd_keys (x.2, x.2 + 1) (x.1, x.1 + 1) R false d1 d2
            st.1 st.2 dict a h with h2 | h2
          · exact Or.inl h2
          · exact Or.inr ⟨x, List.mem_cons_self _ _, h2⟩
        · rcases h with ⟨y, hy, hay⟩
          exact Or.inr ⟨y, List.mem_cons_of_mem _ hy, hay⟩
  rcases main R (asg, []) a ha with h | h
  · exact absurd h (by simp)
  · exact h

/-- The shape invariant carried through the arrangement loop: every key of
the selected-segments dictionary `D` is a genuine occurrence index pair of
`w`. -/
def occShape (w : List Str) (a : Nat × Nat) : Prop :=
  a.2 = a.1 + 1 ∧ a.1 + 1 < w.length

theorem arrangementLoop_D (w : List Str) (L : List (Nat × (Str × Str))) :
    ∀ st : ArrState, (∀ a ∈ st.D.map Prod.fst, occShape w a) →
      (∀ a ∈ (arrangementLoop w L st).D.map Prod.fst, occShape w a) ∧
      (st.D ≠ [] → (arrangementLoop w L st).D ≠ []) := by
  induction L with
  | nil => exact fun st hst => ⟨hst, fun h => h⟩
  | cons e L' ih =>
      intro st hst
      obtain ⟨cnt, seg⟩ := e
      rw [arrangementLoop]
      have hCshape : ∀ x ∈ make_set_c seg w, occShape w x := by
        intro x hx
        have := mem_make_set_c seg w x hx
        exact ⟨this.1, this.2.1⟩
      set C := make_set_c seg w with hC
      set fr := make_sets w C st.asg with hfr
      have hsub := make_sets_sub_c w C st.asg
      rw [← hfr] at hsub
      set r1 := assignment .free fr.1 fr.2.1 fr.2.2 st.asg st.idc (st.idc + 1) st.D with hr1
      set D1 := updateA st.D r1.2 with hD1
      set r2 := assignment .left fr.1 fr.2.1 fr.2.2 r1.1 st.idc (st.idc + 1) D1 with hr2
      set D2 := updateA D1 r2.2 with hD2
      set r3 := assignment .right fr.1 fr.2.1 fr.2.2 r2.1 st.idc (st.idc + 1) D2 with hr3
      set D3 := updateA D2 r3.2 with hD3
      have hD1shape : ∀ a ∈ D1.map Prod.fst, occShape w a := by
        intro a ha
        rcases mem_keys_updateA r1.2 st.D a ha with h | h
        · exact hst a h
        · exact hCshape a (hsub.1 a ((assignment_free_keys fr.1 fr.2.1 fr.2.2
            st.asg st.idc (st.idc + 1) st.D).1 a h))
      have hD2shape : ∀ a ∈ D2.map Prod.fst, occShape w a := by
        intro a ha
        rcases mem_keys_updateA r2.2 D1 a ha with h | h
        · exact hD1shape a h
        · exact hCshape a (hsub.2.1 a (assignment_left_keys fr.1 fr.2.1 fr.2.2
            r1.1 st.idc (st.idc + 1) D1 a h))
      have hD3shape : ∀ a ∈ D3.map Prod.fst, occShape w a := by
        intro a ha
        rcases mem_keys_updateA r3.2 D2 a ha with h | h
        · exact hD2shape a h
        · rcases assignment_right_keys fr.1 fr.2.1 fr.2.2 r2.1 st.idc (st.idc + 1)
            D2 a h with ⟨x, hx, hax⟩
          have hxs := hCshape x (hsub.2.2 x hx)
          rw [hax]
          exact ⟨rfl, hxs.2⟩
      have hres := ih ⟨D3, r3.1, st.idc + 2⟩ hD3shape
      refine ⟨hres.1, fun hne => hres.2 ?_⟩
      rw [hD3]
      refine updateA_ne_nil r3.2 D2 (Or.inl ?_)
      rw [hD2]
      refine updateA_ne_nil r2.2 D1 (Or.inl ?_)
      rw [hD1]
      exact updateA_ne_nil r1.2 st.D (Or.inl hne)

theorem foldl_set_length (locs : List Nat) (v : Str) :
    ∀ w : List Str, (locs.foldl (fun wacc l => wacc.set l v) w).length = w.length := by
  induction locs with
  | nil => intro w; rfl
  | cons l rest ih =>
      intro w
      rw [List.foldl_cons, ih, List.length_set]

theorem foldl_eraseIdx_length_le (xs : List (Nat × Nat)) :
    ∀ w : List Str,
      (xs.foldl (fun wacc li_l => wacc.eraseIdx (li_l.2 - li_l.1 + 1)) w).length ≤ w.length := by
  induction xs with
  | nil => intro w; exact Nat.le_refl _
  | cons x rest ih =>
      intro w
      rw [List.foldl_cons]
      exact Nat.le_trans (ih _) (List.length_eraseIdx_le _ _)

theorem replaceSegment_length_le (w : List Str) (s : Str × Str) :
    (replaceSegment w s).length ≤ w.length := by
  rw [replaceSegment]
  refine Nat.le_trans (foldl_eraseIdx_length_le _ _) ?_
  rw [foldl_set_length]

theorem replaceSegment_length_lt (w : List Str) (s : Str × Str) (i : Nat)
    (hi : i + 1 < w.length) (hpair : (w.getD i [], w.getD (i + 1) []) = s) :
    (replaceSegment w s).length < w.length := by
  rw [replaceSegment]
  have hmem : i ∈ (List.range (w.length - 1)).filter
      (fun i => (w.getD i [], w.getD (i + 1) []) == s) :=
    List.mem_filter.mpr ⟨List.mem_range.mpr (by omega), beq_iff_eq.mpr hpair⟩
  rcases hlocs : (List.range (w.length - 1)).filter
      (fun i => (w.getD i [], w.getD (i + 1) []) == s) with _ | ⟨l0, rest⟩
  · rw [hlocs] at hmem
    exact absurd hmem (List.not_mem_nil i)
  · have hl0 : l0 < w.length - 1 := by
      have : l0 ∈ (List.range (w.length - 1)).filter
          (fun i => (w.getD i [], w.getD (i + 1) []) == s) := by
        rw [hlocs]
        exact List.mem_cons_self _ _
      exact List.mem_range.mp (List.mem_filter.mp this).1
    rw [List.enum_cons, List.foldl_cons]
    have hw1len : ((l0 :: rest).foldl (fun wacc l => wacc.set l (s.1 ++ s.2)) w).length
        = w.length := foldl_set_length _ _ w
    have herase : ((((l0 :: rest).foldl (fun wacc l => wacc.set l (s.1 ++ s.2)) w)).eraseIdx
        (l0 - 0 + 1)).length = w.length - 1 := by
      rw [List.length_eraseIdx, hw1len, if_pos (show l0 - 0 + 1 < w.length by omega)]
    exact Nat.lt_of_le_of_lt
      (Nat.le_trans (foldl_eraseIdx_length_le _ _) (Nat.le_of_eq herase)) (by omega)

theorem replaceLoop_length_le (segs : List (Str × Str)) :
    ∀ (w : List Str) (P : Grammar), (replaceLoop segs w P).1.length ≤ w.length := by
  induction segs with
  | nil => intro w P; exact Nat.le_refl _
  | cons s rest ih =>
      intro w P
      rw [replaceLoop]
      exact Nat.le_trans (ih _ _) (replaceSegment_length_le w s)

/-- The arrangement pass never lengthens `w`. -/
theorem arrangement_length_le (w : List Str) (idc : Nat) :
    (arrangement w idc).2.1.length ≤ w.length := by
  rw [arrangement]
  exact replaceLoop_length_le _ w []

/-- After processing the first popped pair with the initially empty
`assignments` map, the selected-segments dictionary is nonempty (all the
pair's occurrences are free and get selected) and its keys are genuine
occurrence index pairs. -/
theorem arrangementLoop_result_D (w : List Str) (cnt : Nat) (seg : Str × Str)
    (L' : List (Nat × (Str × Str))) (idc : Nat)
    (hC : make_set_c seg w ≠ []) :
    (arrangementLoop w ((cnt, seg) :: L') ⟨[], [], idc⟩).D ≠ [] ∧
    (∀ a ∈ (arrangementLoop w ((cnt, seg) :: L') ⟨[], [], idc⟩).D.map Prod.fst,
      occShape w a) := by
  rw [arrangementLoop]
  rw [make_sets_empty_asg w (make_set_c seg w)]
  have hfree := assignment_free_keys (make_set_c seg w) [] [] [] idc (idc + 1) []
  have hD1ne : updateA ([] : List ((Nat × Nat) × Nat))
      (assignment .free (make_set_c seg w) [] [] [] idc (idc + 1) []).2 ≠ [] :=
    updateA_ne_nil _ _ (Or.inr (hfree.2 hC))
  set D1 := updateA ([] : List ((Nat × Nat) × Nat))
      (assignment .free (make_set_c seg w) [] [] [] idc (idc + 1) []).2 with hD1def
  set r2 := assignment .left (make_set_c seg w) [] []
      (assignment .free (make_set_c seg w) [] [] [] idc (idc + 1) []).1 idc (idc + 1) D1
    with hr2def
  set D2 := updateA D1 r2.2 with hD2def
  set r3 := assignment .right (make_set_c seg w) [] [] r2.1 idc (idc + 1) D2 with hr3def
  set D3 := updateA D2 r3.2 with hD3def
  have hD1keys : ∀ a ∈ D1.map Prod.fst, occShape w a := by
    intro a ha
    rw [hD1def] at ha
    rcases mem_keys_updateA _ _ a ha with h | h
    · exact absurd h (by simp)
    · have := mem_make_set_c seg w a (hfree.1 a h)
      exact ⟨this.1, this.2.1⟩
  have hD2keys : ∀ a ∈ D2.map Prod.fst, occShape w a := by
    intro a ha
    rw [hD2def] at ha
    rcases mem_keys_updateA _ _ a ha with h | h
    · exact hD1keys a h
    · exact absurd (assignment_left_keys _ _ _ _ _ _ _ a h) (List.not_mem_nil a)
  have hD3keys : ∀ a ∈ D3.map Prod.fst, occShape w a := by
    intro a ha
    rw [hD3def] at ha
    rcases mem_keys_updateA _ _ a ha with h | h
    · exact hD2keys a h
    · rcases assignment_right_keys _ _ _ _ _ _ _ a h with ⟨x, hx, _⟩
      exact absurd hx (List.not_mem_nil x)
  have hD3ne : D3 ≠ [] := by
    rw [hD3def]
    refine updateA_ne_nil _ _ (Or.inl ?_)
    rw [hD2def]
    exact updateA_ne_nil _ _ (Or.inl hD1ne)
  have := arrangementLoop_D w L' ⟨D3, r3.1, idc + 2⟩ hD3keys
  exact ⟨this.2 hD3ne, this.1⟩

/-- The arrangement pass strictly shrinks any `w` with at least two
symbols: the top frequency-list pair's occurrences are all free (the
assignments map starts empty), so they are selected, and the first
replaced segment removes at least one occurrence. -/
theorem arrangement_length_lt (w : List Str) (idc : Nat) (hw : 2 ≤ w.length) :
    (arrangement w idc).2.1.length < w.length := by
  rw [arrangement]
  rcases hL : createSortedSegmentList w with _ | ⟨e, L'⟩
  · exact absurd hL ((createSortedSegmentList_spec w).2 hw)
  have hein : e ∈ createSortedSegmentList w := by
    rw [hL]
    exact List.mem_cons_self _ _
  have hzip := (createSortedSegmentList_spec w).1 e hein
  rcases mem_zip_tail w e.2 hzip with ⟨i, hi, hp1, hp2⟩
  have hCmem : (i, i + 1) ∈ make_set_c e.2 w :=
    make_set_c_mem e.2 w i hi (by rw [hp1, hp2])
  obtain ⟨cnt, seg⟩ := e
  have hres := arrangementLoop_result_D w cnt seg L' idc (List.ne_nil_of_mem hCmem)
  rcases hD : (arrangementLoop w ((cnt, seg) :: L') ⟨[], [], idc⟩).D with _ | ⟨kv, D'⟩
  · exact absurd hD hres.1
  have hkv : occShape w kv.1 := by
    refine hres.2 kv.1 ?_
    rw [hD]
    exact List.mem_map.mpr ⟨kv, List.mem_cons_self _ _, rfl⟩
  rw [List.map_cons, nubFirst, replaceLoop]
  refine Nat.lt_of_le_of_lt (replaceLoop_length_le _ _ _) ?_
  refine replaceSegment_length_lt w _ kv.1.1 hkv.2 ?_
  rw [← hkv.1]

/-- The repetition pass either leaves `w` unchanged (no run of length 2
exists) or strictly shrinks it (each run replacement removes at least one
symbol). -/
theorem repetitionLoop_length (n : Nat) :
    ∀ w : List Str, w.length ≤ n → ∀ P : Grammar,
      (repetitionLoop w P).2 = w ∨ (repetitionLoop w P).2.length < w.length := by
  induction n with
  | zero =>
      intro w hw P
      rw [repetitionLoop]
      split
      · exact Or.inl rfl
      · next i j heq =>
          have hb := hasRepeatingSymbol_bounds w (i, j) heq
          omega
  | succ n ih =>
      intro w hw P
      rw [repetitionLoop]
      split
      · exact Or.inl rfl
      · next i j heq =>
          have hb := hasRepeatingSymbol_bounds w (i, j) heq
          right
          have hlt : (w.take i ++ [(List.replicate (j - i + 1) (w.getD i [])).flatten]
              ++ w.drop (j + 1)).length < w.length := by
            simp only [List.length_append, List.length_take, List.length_drop,
              List.length_cons, List.length_nil]
            omega
          rcases ih (w.take i ++ [(List.replicate (j - i + 1) (w.getD i [])).flatten]
              ++ w.drop (j + 1)) (by omega) (produceRepeatingSymbolGrammar P
              ((List.replicate (j - i + 1) (w.getD i [])).flatten)) with h | h
          · rw [h]
            exact hlt
          · exact Nat.lt_trans h hlt

/-- A repeated adjacent pair needs at least three symbols. -/
theorem hasRepeatingPairs_length (w : List Str) (h : hasRepeatingPairs w = true) :
    3 ≤ w.length := by
  match w with
  | [] => simp [hasRepeatingPairs, hasRepeatingPairsAux] at h
  | [a] => simp [hasRepeatingPairs, hasRepeatingPairsAux] at h
  | [a, b] => simp [hasRepeatingPairs, hasRepeatingPairsAux] at h
  | a :: b :: c :: rest =>
      simp only [List.length_cons]
      omega

/-- Fuel equal to the length of `w` always suffices for the repair loop:
each iteration strictly decreases the length of `w` (the repetition pass
shrinks it or leaves it unchanged, and then the arrangement pass strictly
shrinks it, since the guard forces at least three symbols). -/
theorem lwrLoop_isSome (fuel : Nat) :
    ∀ (w : List Str) (P : Grammar) (idc : Nat), w.length ≤ fuel →
      (lwrLoop fuel w P idc).isSome = true := by
  induction fuel with
  | zero =>
      intro w P idc hw
      have hw0 : w = [] := List.length_eq_zero.mp (by omega)
      subst hw0
      rw [lwrLoop]
      rw [if_neg (by simp [hasRepeatingPairs, hasRepeatingPairsAux])]
      rfl
  | succ fuel ih =>
      intro w P idc hw
      rw [lwrLoop]
      by_cases hrep : hasRepeatingPairs w = true
      · rw [if_pos hrep]
        have h3 := hasRepeatingPairs_length w hrep
        have hbody : (arrangement (repetition w).2 idc).2.1.length < w.length := by
          rcases repetitionLoop_length w.length w (Nat.le_refl _) [] with he | hlt
          · rw [repetition, he]
            exact arrangement_length_lt w idc (by omega)
          · exact Nat.lt_of_le_of_lt (arrangement_length_le (repetition w).2 idc)
              (by rw [repetition]; exact hlt)
        exact ih _ _ _ (by omega)
      · rw [if_neg hrep]
        rfl

unseal nubFirst repetitionLoop produceRepeatingSymbolGrammar in
/-- Claim C3: `getSakamotoGrammar` terminates on every string. The outer
repair loop runs at most `|w|` iterations because every iteration strictly
decreases the length of `w`: the repetition pass never lengthens it, and
whenever `|w| ≥ 2` the arrangement pass selects at least one pair (the
first pair popped from the nonempty frequency list, all of whose
occurrences are free because the assignments map is still empty) and
replaces at least one occurrence, removing one symbol per replacement.
The fuelled loop model therefore always returns `some`. -/
theorem getSakamotoGrammar_terminates (S : Str) (w : List Str) (idc : Nat)
    (hw : hasRepeatingPairs w = true) :
    (getSakamotoGrammar S).isSome = true ∧
    (arrangement (repetition w).2 idc).2.1.length < w.length ∧
    (2 ≤ w.length → (arrangement w idc).2.1.length < w.length) := by
  refine ⟨?_, ?_, fun h2 => arrangement_length_lt w idc h2⟩
  · have hsome := lwrLoop_isSome ((S.map (fun c => [c])).length) (S.map (fun c => [c])) [] 0
      (Nat.le_refl _)
    rcases hres : lwrLoop ((S.map (fun c => [c])).length) (S.map (fun c => [c])) [] 0
        with _ | pr
    · rw [hres] at hsome
      simp at hsome
    · rw [getSakamotoGrammar, levelwiseRepair, hres]
      split
      · simp_all
      · split <;> rfl
  · have h3 := hasRepeatingPairs_length w hw
    rcases repetitionLoop_length w.length w (Nat.le_refl _) [] with he | hlt
    · rw [repetition, he]
      exact arrangement_length_lt w idc (by omega)
    · exact Nat.lt_of_le_of_lt (arrangement_length_le (repetition w).2 idc)
        (by rw [repetition]; exact hlt)

/-- Witness for C3 at concrete inputs: `"abab"` terminates, and on
`w = [a, b, a, b]` (which has a repeated pair) the loop body strictly
shrinks `w`. -/
theorem getSakamotoGrammar_terminates_witness :
    (getSakamotoGrammar (strOf "abab")).isSome = true ∧
    (arrangement (repetition [strOf "a", strOf "b", strOf "a", strOf "b"]).2 0).2.1.length
      < ([strOf "a", strOf "b", strOf "a", strOf "b"] : List (List Char)).length ∧
    (2 ≤ ([strOf "a", strOf "b", strOf "a", strOf "b"] : List (List Char)).length →
      (arrangement [strOf "a", strOf "b", strOf "a", strOf "b"] 0).2.1.length
        < ([strOf "a", strOf "b", strOf "a", strOf "b"] : List (List Char)).length) :=
  getSakamotoGrammar_terminates (strOf "abab")
    [strOf "a", strOf "b", strOf "a", strOf "b"] 0 (by decide)

/-! ## Acyclicity (C5)

Every production emitted by the four algorithms splits its key into
nonempty parts, so every right-hand-side symbol is strictly shorter than
its key; the derives-relation therefore admits no cycle. -/

/-- One derivation step: `N` has `M` (of length at least 2) among its
right-hand-side symbols. -/
def grammarStep (g : Grammar) (N M : Str) : Prop :=
  ∃ rhs, lookupA g N = some rhs ∧ M ∈ rhs ∧ 2 ≤ M.length

/-- Every right-hand-side symbol of every production is strictly shorter
than its key. -/
def lenDecreasing (g : Grammar) : Prop :=
  ∀ kv ∈ g, ∀ m ∈ kv.2, m.length < kv.1.length

theorem lookupA_mem {α β : Type} [DecidableEq α] (d : List (α × β)) (k : α) (v : β)
    (h : lookupA d k = some v) : (k, v) ∈ d := by
  induction d with
  | nil => simp [lookupA] at h
  | cons kv rest ih =>
      rw [lookupA] at h
      split at h
      · next hcond =>
          have hv : kv.2 = v := by injection h
          have heq : (k, v) = kv := by rw [← hcond, ← hv]
          rw [heq]
          exact List.mem_cons_self _ _
      · exact List.mem_cons_of_mem _ (ih h)

theorem grammarStep_lt (g : Grammar) (hg : lenDecreasing g) (N M : Str)
    (h : grammarStep g N M) : M.length < N.length := by
  rcases h with ⟨rhs, hl, hm, _⟩
  exact hg (N, rhs) (lookupA_mem g N rhs hl) M hm

theorem transGen_lt (g : Grammar) (hg : lenDecreasing g) (N M : Str)
    (h : Relation.TransGen (grammarStep g) N M) : M.length < N.length := by
  induction h with
  | single hstep => exact grammarStep_lt g hg _ _ hstep
  | tail _ hstep ih => exact Nat.lt_trans (grammarStep_lt g hg _ _ hstep) ih

/-- Strictly length-decreasing productions admit no derivation cycle. -/
theorem acyclic_of_lenDecreasing (g : Grammar) (hg : lenDecreasing g) :
    ¬ ∃ N, Relation.TransGen (grammarStep g) N N := by
  rintro ⟨N, hN⟩
  exact Nat.lt_irrefl _ (transGen_lt g hg N N hN)

theorem mem_insertA {α β : Type} [DecidableEq α] (d : List (α × β)) (k : α) (v : β)
    (kv' : α × β) (h : kv' ∈ insertA d k v) : kv' = (k, v) ∨ kv' ∈ d := by
  induction d with
  | nil =>
      simp only [insertA, List.mem_singleton] at h
      exact Or.inl h
  | cons kv rest ih =>
      rw [insertA] at h
      split at h
      · rcases List.mem_cons.mp h with h1 | h1
        · exact Or.inl h1
        · exact Or.inr (List.mem_cons_of_mem _ h1)
      · rcases List.mem_cons.mp h with h1 | h1
        · exact Or.inr (by rw [h1]; exact List.mem_cons_self _ _)
        · rcases ih h1 with h2 | h2
          · exact Or.inl h2
          · exact Or.inr (List.mem_cons_of_mem _ h2)

theorem mem_updateA {α β : Type} [DecidableEq α] (h d : List (α × β)) (kv' : α × β)
    (hm : kv' ∈ updateA d h) : kv' ∈ d ∨ kv' ∈ h := by
  induction h generalizing d with
  | nil => exact Or.inl hm
  | cons kv rest ih =>
      rw [updateA, List.foldl_cons] at hm
      rcases ih (insertA d kv.1 kv.2) (by rw [updateA] at *; exact hm) with h1 | h1
      · rcases mem_insertA d kv.1 kv.2 kv' h1 with h2 | h2
        · exact Or.inr (by rw [h2]; exact List.mem_cons_self _ _)
        · exact Or.inl h2
      · exact Or.inr (List.mem_cons_of_mem _ h1)

/-- Bisection productions split the key at the midpoint into two nonempty
halves. -/
theorem bisectionRecurse_lenDecreasing (n : Nat) :
    ∀ S : Str, S.length ≤ n → ∀ g : Grammar,
      lenDecreasing g → lenDecreasing (bisectionRecurse S g) := by
  induction n with
  | zero =>
      intro S hS g hg
      rw [bisectionRecurse, dif_pos (show S.length ≤ 1 by omega)]
      exact hg
  | succ n ih =>
      intro S hS g hg
      by_cases h1 : S.length ≤ 1
      · rw [bisectionRecurse, dif_pos h1]
        exact hg
      · rw [bisectionRecurse, dif_neg h1]
        show lenDecreasing (bisectionRecurse (S.drop (S.length / 2))
          (bisectionRecurse (S.take (S.length / 2))
            (insertA g S [S.take (S.length / 2), S.drop (S.length / 2)])))
        refine ih (S.drop (S.length / 2)) (by simp only [List.length_drop]; omega) _ ?_
        refine ih (S.take (S.length / 2)) (by simp only [List.length_take]; omega) _ ?_
        intro kv hkv m hm
        rcases mem_insertA g S [S.take (S.length / 2), S.drop (S.length / 2)] kv hkv
          with h2 | h2
        · rw [h2] at hm ⊢
          simp only [List.mem_cons, List.not_mem_nil, or_false] at hm
          rcases hm with h3 | h3 <;> rw [h3] <;>
            simp only [List.length_take, List.length_drop] <;> omega
        · exact hg kv h2 m hm

theorem getBisectionGrammar_lenDecreasing (S : Str) :
    lenDecreasing (getBisectionGrammar S) := by
  rw [getBisectionGrammar]
  refine bisectionRecurse_lenDecreasing S.length S (Nat.le_refl _) [] ?_
  intro kv hkv
  exact absurd hkv (List.not_mem_nil kv)

theorem foldl_min_mem (key : Grammar → Nat × Nat) :
    ∀ (l : List Grammar) (b : Grammar),
      (l.foldl (fun best cand => if lt2 (key cand) (key best) then cand else best) b) = b ∨
      (l.foldl (fun best cand => if lt2 (key cand) (key best) then cand else best) b) ∈ l := by
  intro l
  induction l with
  | nil => exact fun b => Or.inl rfl
  | cons c cs ih =>
      intro b
      rw [List.foldl_cons]
      rcases ih (if lt2 (key c) (key b) then c else b) with h1 | h1
      · rw [h1]
        split
        · exact Or.inr (List.mem_cons_self _ _)
        · exact Or.inl rfl
      · exact Or.inr (List.mem_cons_of_mem _ h1)

/-- Every enumerated grammar splits each key into a nonempty prefix and
suffix, so all its productions are strictly length-decreasing. -/
theorem generateAllGrammars_lenDecreasing (n : Nat) :
    ∀ goal : Str, goal.length ≤ n → ∀ G ∈ generateAllGrammars goal, lenDecreasing G := by
  induction n with
  | zero =>
      intro goal hlen G hG
      rw [generateAllGrammars, if_neg (by omega), (show goal.length - 1 = 0 by omega)] at hG
      simp at hG
  | succ n ih =>
      intro goal hlen G hG
      rw [generateAllGrammars] at hG
      by_cases h1 : goal.length = 1
      · rw [if_pos h1] at hG
        rw [List.mem_singleton] at hG
        rw [hG]
        intro kv hkv
        exact absurd hkv (List.not_mem_nil kv)
      · rw [if_neg h1] at hG
        rw [List.mem_flatten] at hG
        rcases hG with ⟨outer, houter, hGo⟩
        rw [List.mem_map] at houter
        rcases houter with ⟨ii, _, rfl⟩
        have hrange := List.mem_range'_1.mp ii.2
        simp only [List.mem_flatten, List.mem_map] at hGo
        rcases hGo with ⟨inner, ⟨g, hg, rfl⟩, hGi⟩
        rw [List.mem_map] at hGi
        rcases hGi with ⟨h2, hh2, rfl⟩
        intro kv hkv m hm
        rcases mem_updateA g _ kv hkv with hk1 | hk1
        · rcases mem_updateA h2 _ kv hk1 with hk2 | hk2
          · rw [List.mem_singleton] at hk2
            rw [hk2] at hm ⊢
            simp only [List.mem_cons, List.not_mem_nil, or_false] at hm
            rcases hm with h3 | h3 <;> rw [h3] <;>
              simp only [List.length_take, List.length_drop] <;> omega
          · refine ih (goal.drop ii.1) ?_ h2 hh2 kv hk2 m hm
            simp only [List.length_drop]
            omega
        · refine ih (goal.take ii.1) ?_ g hg kv hk1 m hm
          simp only [List.length_take]
          omega

/-- The element picked by Python `min` is a member of the list. -/
theorem pyMinBy_mem (key : Grammar → Nat × Nat) (l : List Grammar) (G : Grammar)
    (h : pyMinBy key l = some G) : G ∈ l := by
  match l with
  | [] => simp [pyMinBy] at h
  | g :: rest =>
      rw [pyMinBy] at h
      cases h
      rcases foldl_min_mem key rest g with h1 | h1
      · rw [h1]
        exact List.mem_cons_self _ _
      · exact List.mem_cons_of_mem _ h1

theorem getExhaustiveGrammar_lenDecreasing (S : Str) (G : Grammar)
    (h : getExhaustiveGrammar S = some G) : lenDecreasing G := by
  rw [getExhaustiveGrammar] at h
  exact generateAllGrammars_lenDecreasing S.length S (Nat.le_refl _) G
    (pyMinBy_mem _ _ _ h)

/-- Every symbol of the working sequence is a nonempty string. -/
def symsNE (w : List Str) : Prop := ∀ x ∈ w, x ≠ []

theorem flatten_ne_nil (l : List Str) (hl : l ≠ []) (hx : ∀ x ∈ l, x ≠ []) :
    l.flatten ≠ [] := by
  match l with
  | [] => exact absurd rfl hl
  | x :: rest =>
      rw [List.flatten_cons]
      intro hcontra
      exact hx x (List.mem_cons_self _ _) (List.append_eq_nil.mp hcontra).1

theorem length_le_length_flatten (l : List Str) (hx : ∀ x ∈ l, x ≠ []) :
    l.length ≤ l.flatten.length := by
  induction l with
  | nil => simp
  | cons x rest ih =>
      rw [List.flatten_cons, List.length_append, List.length_cons]
      have h1 : 1 ≤ x.length := List.length_pos.mpr (hx x (List.mem_cons_self _ _))
      have h2 := ih (fun y hy => hx y (List.mem_cons_of_mem _ hy))
      omega

theorem updateA_lenDecreasing (g h : Grammar) (hg : lenDecreasing g)
    (hh : lenDecreasing h) : lenDecreasing (updateA g h) := by
  intro kv hkv
  rcases mem_updateA h g kv hkv with h1 | h1
  · exact hg kv h1
  · exact hh kv h1

theorem insertA_lenDecreasing (g : Grammar) (k : Str) (v : List Str)
    (hg : lenDecreasing g) (hv : ∀ m ∈ v, m.length < k.length) :
    lenDecreasing (insertA g k v) := by
  intro kv hkv
  rcases mem_insertA g k v kv hkv with h1 | h1
  · rw [h1]
    exact hv
  · exact hg kv h1

/-- Each link of the trivial chain extends the previous prefix by one
nonempty symbol, so both right-hand-side symbols are strictly shorter than
the key. -/
theorem produceTrivialGrammar_lenDecreasing (w : List Str) (hw : symsNE w) :
    lenDecreasing (produceTrivialGrammar w) := by
  rw [produceTrivialGrammar]
  have main : ∀ l : List Nat, (∀ i ∈ l, 2 ≤ i ∧ i ≤ w.length) →
      ∀ P : Grammar, lenDecreasing P →
      lenDecreasing (l.foldl (fun P i => insertA P (w.take i).flatten
        [(w.take (i - 1)).flatten, w.getD (i - 1) []]) P) := by
    intro l
    induction l with
    | nil => exact fun _ P hP => hP
    | cons i rest ih =>
        intro hl P hP
        rw [List.foldl_cons]
        refine ih (fun j hj => hl j (List.mem_cons_of_mem _ hj)) _ ?_
        have hi := hl i (List.mem_cons_self _ _)
        refine insertA_lenDecreasing P _ _ hP ?_
        have hidx : i - 1 < w.length := by omega
        have htake : w.take i = w.take (i - 1) ++ [w[i - 1]] := by
          have heq : i = (i - 1) + 1 := by omega
          conv_lhs => rw [heq]
          rw [List.take_succ, List.getElem?_eq_getElem hidx]
          rfl
        have hgetD : w.getD (i - 1) [] = w[i - 1] := List.getD_eq_getElem w [] hidx
        have hlen : (w.take i).flatten.length
            = (w.take (i - 1)).flatten.length + (w[i - 1]).length := by
          rw [htake, List.flatten_append, List.length_append]
          simp [List.flatten_cons]
        have hpos1 : 1 ≤ (w[i - 1]).length :=
          List.length_pos.mpr (hw _ (List.getElem_mem hidx))
        have hpos2 : 1 ≤ (w.take (i - 1)).flatten.length := by
          have hlen2 : i - 1 ≤ (w.take (i - 1)).length := by
            rw [List.length_take]
            omega
          have := length_le_length_flatten (w.take (i - 1))
            (fun x hx => hw x (List.mem_of_mem_take hx))
          omega
        intro m hm
        simp only [List.mem_cons, List.not_mem_nil, or_false] at hm
        rcases hm with h1 | h1
        · rw [h1]
          omega
        · rw [h1, hgetD]
          omega
  refine main _ (fun i hi => ?_) [] (fun kv hkv => absurd hkv (List.not_mem_nil kv))
  have := List.mem_range'_1.mp hi
  omega

/-- Every production of the repeated-symbol decomposition splits its key
into two nonempty parts. -/
theorem produceRepeatingSymbolGrammar_lenDecreasing (n : Nat) :
    ∀ S : Str, S.length ≤ n → ∀ P : Grammar, lenDecreasing P →
      lenDecreasing (produceRepeatingSymbolGrammar P S) := by
  induction n with
  | zero =>
      intro S hS P hP
      rw [produceRepeatingSymbolGrammar, if_pos (show S.length ≤ 1 by omega)]
      exact hP
  | succ n ih =>
      intro S hS P hP
      rw [produceRepeatingSymbolGrammar]
      by_cases h1 : S.length ≤ 1
      · rw [if_pos h1]
        exact hP
      · rw [if_neg h1]
        by_cases h2 : S.length = 2
        · rw [if_pos h2]
          refine insertA_lenDecreasing P _ _ hP ?_
          intro m hm
          simp only [List.mem_cons, List.not_mem_nil, or_false] at hm
          rcases hm with h3 | h3 <;> rw [h3] <;>
            simp only [List.length_take, List.length_drop] <;> omega
        · rw [if_neg h2]
          by_cases h3 : S.length % 2 = 0
          · rw [if_pos h3]
            show lenDecreasing (produceRepeatingSymbolGrammar
              (produceRepeatingSymbolGrammar
                (insertA P S [S.take (S.length / 2), S.drop (S.length / 2)])
                (S.take (S.length / 2))) (S.drop (S.length / 2)))
            refine ih _ (by rw [List.length_drop]; omega) _ ?_
            refine ih _ (by rw [List.length_take]; omega) _ ?_
            refine insertA_lenDecreasing P _ _ hP ?_
            intro m hm
            simp only [List.mem_cons, List.not_mem_nil, or_false] at hm
            rcases hm with h4 | h4 <;> rw [h4] <;>
              simp only [List.length_take, List.length_drop] <;> omega
          · rw [if_neg h3]
            show lenDecreasing (produceRepeatingSymbolGrammar
              (insertA P S [S.take (S.length - 1), S.drop (S.length - 1)])
              (S.take (S.length - 1)))
            refine ih _ (by rw [List.length_take]; omega) _ ?_
            refine insertA_lenDecreasing P _ _ hP ?_
            intro m hm
            simp only [List.mem_cons, List.not_mem_nil, or_false] at hm
            rcases hm with h4 | h4 <;> rw [h4] <;>
              simp only [List.length_take, List.length_drop] <;> omega

/-- The repetition pass keeps every symbol nonempty and only emits
length-decreasing productions. -/
theorem repetitionLoop_inv (n : Nat) :
    ∀ w : List Str, w.length ≤ n → ∀ P : Grammar, symsNE w → lenDecreasing P →
      lenDecreasing (repetitionLoop w P).1 ∧ symsNE (repetitionLoop w P).2 := by
  induction n with
  | zero =>
      intro w hw P hsyms hP
      rw [repetitionLoop]
      split
      · exact ⟨hP, hsyms⟩
      · next i j heq =>
          have hb := hasRepeatingSymbol_bounds w (i, j) heq
          omega
  | succ n ih =>
      intro w hw P hsyms hP
      rw [repetitionLoop]
      split
      · exact ⟨hP, hsyms⟩
      · next i j heq =>
          have hb := hasRepeatingSymbol_bounds w (i, j) heq
          have hiw : i < w.length := by omega
          have hgetD : w.getD i [] = w[i] := List.getD_eq_getElem w [] hiw
          have hAne : (List.replicate (j - i + 1) (w.getD i [])).flatten ≠ [] := by
            refine flatten_ne_nil _ ?_ ?_
            · intro hcon
              have hlen := congrArg List.length hcon
              rw [List.length_replicate] at hlen
              simp at hlen
            · intro x hx
              rw [List.eq_of_mem_replicate hx, hgetD]
              exact hsyms _ (List.getElem_mem hiw)
          refine ih _ ?_ _ ?_ ?_
          · simp only [List.length_append, List.length_take, List.length_drop,
              List.length_cons, List.length_nil]
            omega
          · intro x hx
            rcases List.mem_append.mp hx with hx1 | hx1
            · rcases List.mem_append.mp hx1 with hx2 | hx2
              · exact hsyms x (List.mem_of_mem_take hx2)
              · rw [List.mem_singleton] at hx2
                rw [hx2]
                exact hAne
            · exact hsyms x (List.mem_of_mem_drop hx1)
          · exact produceRepeatingSymbolGrammar_lenDecreasing
              ((List.replicate (j - i + 1) (w.getD i [])).flatten).length
              _ (Nat.le_refl _) _ hP

theorem repetition_inv (w : List Str) (hsyms : symsNE w) :
    lenDecreasing (repetition w).1 ∧ symsNE (repetition w).2 := by
  rw [repetition]
  exact repetitionLoop_inv w.length w (Nat.le_refl _) [] hsyms
    (fun kv hkv => absurd hkv (List.not_mem_nil kv))

theorem foldl_set_symsNE (locs : List Nat) (v : Str) (hv : v ≠ []) :
    ∀ w : List Str, symsNE w → symsNE (locs.foldl (fun wacc l => wacc.set l v) w) := by
  induction locs with
  | nil => exact fun w h => h
  | cons l rest ih =>
      intro w hw
      rw [List.foldl_cons]
      refine ih _ ?_
      intro x hx
      rcases List.mem_or_eq_of_mem_set hx with h1 | h1
      · exact hw x h1
      · rw [h1]
        exact hv

theorem foldl_eraseIdx_symsNE (xs : List (Nat × Nat)) :
    ∀ w : List Str, symsNE w →
      symsNE (xs.foldl (fun wacc li_l => wacc.eraseIdx (li_l.2 - li_l.1 + 1)) w) := by
  induction xs with
  | nil => exact fun w h => h
  | cons x rest ih =>
      intro w hw
      rw [List.foldl_cons]
      exact ih _ (fun y hy => hw y (List.mem_of_mem_eraseIdx hy))

theorem replaceSegment_symsNE (w : List Str) (s : Str × Str) (hs : s.1 ≠ [])
    (hw : symsNE w) : symsNE (replaceSegment w s) := by
  rw [replaceSegment]
  refine foldl_eraseIdx_symsNE _ _ ?_
  refine foldl_set_symsNE _ _ ?_ w hw
  intro hcon
  exact hs (List.append_eq_nil.mp hcon).1

theorem replaceLoop_inv (segs : List (Str × Str)) :
    ∀ (w : List Str) (P : Grammar),
      (∀ s ∈ segs, s.1 ≠ [] ∧ s.2 ≠ []) → symsNE w → lenDecreasing P →
      symsNE (replaceLoop segs w P).1 ∧ lenDecreasing (replaceLoop segs w P).2 := by
  induction segs with
  | nil => exact fun w P _ hw hP => ⟨hw, hP⟩
  | cons s rest ih =>
      intro w P hsegs hw hP
      rw [replaceLoop]
      have hs := hsegs s (List.mem_cons_self _ _)
      refine ih _ _ (fun t ht => hsegs t (List.mem_cons_of_mem _ ht)) ?_ ?_
      · exact replaceSegment_symsNE w s hs.1 hw
      · refine insertA_lenDecreasing P _ _ hP ?_
        intro m hm
        simp only [List.mem_cons, List.not_mem_nil, or_false] at hm
        have hp1 : 1 ≤ s.1.length := List.length_pos.mpr hs.1
        have hp2 : 1 ≤ s.2.length := List.length_pos.mpr hs.2
        rcases hm with h1 | h1 <;> rw [h1] <;>
          simp only [List.length_append] <;> omega

theorem mem_nubFirst {α : Type} [DecidableEq α] (n : Nat) :
    ∀ l : List α, l.length ≤ n → ∀ x ∈ nubFirst l, x ∈ l := by
  induction n with
  | zero =>
      intro l hl x hx
      have hnil : l = [] := List.length_eq_zero.mp (by omega)
      subst hnil
      rw [nubFirst] at hx
      exact hx
  | succ n ih =>
      intro l hl x hx
      match l with
      | [] =>
          rw [nubFirst] at hx
          exact hx
      | y :: ys =>
          rw [nubFirst] at hx
          rcases List.mem_cons.mp hx with h1 | h1
          · rw [h1]
            exact List.mem_cons_self _ _
          · have hrec := ih (ys.filter (fun z => decide (z ≠ y)))
              (by
                have := List.length_filter_le (fun z => decide (z ≠ y)) ys
                simp only [List.length_cons] at hl
                omega) x h1
            exact List.mem_cons_of_mem _ (List.mem_of_mem_filter hrec)

/-- The arrangement pass keeps every symbol nonempty and only emits
productions splitting a pair nonterminal into its two nonempty symbols. -/
theorem arrangement_inv (w : List Str) (idc : Nat) (hw : symsNE w) :
    lenDecreasing (arrangement w idc).1 ∧ symsNE (arrangement w idc).2.1 := by
  rw [arrangement]
  have hD := (arrangementLoop_D w (createSortedSegmentList w) ⟨[], [], idc⟩
    (fun a ha => by simp at ha)).1
  have hsegs : ∀ s ∈ nubFirst (((arrangementLoop w (createSortedSegmentList w)
      ⟨[], [], idc⟩).D).map (fun kv => (w.getD kv.1.1 [], w.getD kv.1.2 []))),
      s.1 ≠ [] ∧ s.2 ≠ [] := by
    intro s hs
    have hs2 := mem_nubFirst (((arrangementLoop w (createSortedSegmentList w)
      ⟨[], [], idc⟩).D).map (fun kv => (w.getD kv.1.1 [], w.getD kv.1.2 []))).length
      _ (Nat.le_refl _) s hs
    rcases List.mem_map.mp hs2 with ⟨kv, hkv, rfl⟩
    have hshape := hD kv.1 (List.mem_map.mpr ⟨kv, hkv, rfl⟩)
    have h1 : kv.1.1 < w.length := by
      rcases hshape with ⟨_, hlt⟩
      omega
    have h2 : kv.1.2 < w.length := by
      rcases hshape with ⟨heq, hlt⟩
      omega
    constructor
    · show w.getD kv.1.1 [] ≠ []
      rw [List.getD_eq_getElem w [] h1]
      exact hw _ (List.getElem_mem h1)
    · show w.getD kv.1.2 [] ≠ []
      rw [List.getD_eq_getElem w [] h2]
      exact hw _ (List.getElem_mem h2)
  have hmain := replaceLoop_inv _ w [] hsegs hw
    (fun kv hkv => absurd hkv (List.not_mem_nil kv))
  exact ⟨hmain.2, hmain.1⟩

theorem lwrLoop_inv (fuel : Nat) :
    ∀ (w : List Str) (P : Grammar) (idc : Nat) (G : Grammar) (w' : List Str),
      symsNE w → lenDecreasing P →
      lwrLoop fuel w P idc = some (G, w') →
      lenDecreasing G ∧ symsNE w' := by
  induction fuel with
  | zero =>
      intro w P idc G w' hw hP h
      rw [lwrLoop] at h
      split at h
      · exact absurd h (by simp)
      · simp only [Option.some.injEq, Prod.mk.injEq] at h
        obtain ⟨h1, h2⟩ := h
        subst h1
        subst h2
        exact ⟨hP, hw⟩
  | succ fuel ih =>
      intro w P idc G w' hw hP h
      rw [lwrLoop] at h
      split at h
      · have hrep := repetition_inv w hw
        have harr := arrangement_inv (repetition w).2 idc hrep.2
        refine ih _ _ _ _ _ harr.2 ?_ h
        exact updateA_lenDecreasing _ _ (updateA_lenDecreasing _ _ hP hrep.1) harr.1
      · simp only [Option.some.injEq, Prod.mk.injEq] at h
        obtain ⟨h1, h2⟩ := h
        subst h1
        subst h2
        exact ⟨hP, hw⟩

theorem foldl_preserve {α β : Type} (P : β → Prop) (Q : α → Prop) (step : β → α → β)
    (hstep : ∀ b a, P b → Q a → P (step b a)) :
    ∀ l : List α, (∀ a ∈ l, Q a) → ∀ b, P b → P (l.foldl step b) := by
  intro l
  induction l with
  | nil => exact fun _ b hb => hb
  | cons x xs ih =>
      intro hl b hb
      rw [List.foldl_cons]
      exact ih (fun a ha => hl a (List.mem_cons_of_mem _ ha)) _
        (hstep b x hb (hl x (List.mem_cons_self _ _)))

/-- Every production of the Sakamoto grammar is strictly length-decreasing:
the repair loop and the final trivial chain only split keys into nonempty
parts. -/
theorem getSakamotoGrammar_lenDecreasing (S : Str) (G : Grammar)
    (h : getSakamotoGrammar S = some G) : lenDecreasing G := by
  rw [getSakamotoGrammar, levelwiseRepair] at h
  rcases hres : lwrLoop ((S.map (fun c => [c])).length) (S.map (fun c => [c])) [] 0
      with _ | pr
  · rw [hres] at h
    exact absurd h (by simp)
  · rw [hres] at h
    have hw0 : symsNE (S.map (fun c => [c])) := by
      intro x hx
      rcases List.mem_map.mp hx with ⟨c, _, rfl⟩
      simp
    have hinv := lwrLoop_inv ((S.map (fun c => [c])).length) (S.map (fun c => [c]))
      [] 0 pr.1 pr.2 hw0 (fun kv hkv => absurd hkv (List.not_mem_nil kv))
      (by rw [hres])
    have h' : (if pr.2.length = 1 then some pr.1
        else some (updateA pr.1 (produceTrivialGrammar pr.2))) = some G := h
    split at h'
    · simp only [Option.some.injEq] at h'
      rw [← h']
      exact hinv.1
    · simp only [Option.some.injEq] at h'
      rw [← h']
      exact updateA_lenDecreasing _ _ hinv.1
        (produceTrivialGrammar_lenDecreasing pr.2 hinv.2)

/-! ### Lehman1 acyclicity: the merge loop keeps strings nonempty and
recorded offsets within the length of their key -/

theorem computeOverlap_spec (s1 s2 : Str) :
    (computeOverlap s1 s2).1 + (computeOverlap s1 s2).2.1 = s1.length ∧
    (computeOverlap s1 s2).1 ≤ s2.length := by
  rw [computeOverlap]
  refine foldl_preserve
    (fun b : Nat × Nat × Nat => b.1 + b.2.1 = s1.length ∧ b.1 ≤ s2.length)
    (fun i : Nat => i ≤ s1.length ∧ i ≤ s2.length) _ ?_ _ ?_ _ ?_
  · intro b i hb hi
    split
    · rw [pyMax3]
      split
      · exact ⟨by simp; omega, by simp; omega⟩
      · exact hb
    · exact hb
  · intro i hi
    have := List.mem_range'_1.mp hi
    omega
  · exact ⟨by simp, by omega⟩

theorem foldl_some_of_ne_nil {α β : Type} (step : Option β → α → Option β)
    (hstep : ∀ (o : Option β) (a : α), (step o a).isSome = true) :
    ∀ l : List α, l ≠ [] → (l.foldl step none).isSome = true := by
  intro l hl
  match l with
  | [] => exact absurd rfl hl
  | x :: xs =>
      rw [List.foldl_cons]
      exact foldl_preserve (fun o : Option β => o.isSome = true) (fun _ => True) step
        (fun b a hb _ => hstep b a) xs (fun _ _ => trivial) _ (hstep none x)

theorem bestOverlapTriple_some (Ss : List Str) (h : 2 ≤ Ss.length) :
    ∃ t, bestOverlapTriple Ss = some t := by
  rw [bestOverlapTriple]
  have hne : pairIndexList Ss.length ≠ [] :=
    List.ne_nil_of_mem ((mem_pairIndexList Ss.length 0 1).mpr ⟨by omega, by omega⟩)
  exact Option.isSome_iff_exists.mp
    (foldl_some_of_ne_nil _ (fun o a => by cases o <;> rfl) _ hne)

theorem bestOverlapTriple_indices (Ss : List Str) (t : Nat × Nat × Nat)
    (h : bestOverlapTriple Ss = some t) :
    t.2.1 < Ss.length ∧ t.2.2 < Ss.length := by
  rw [bestOverlapTriple] at h
  refine foldl_preserve
    (fun o : Option (Nat × Nat × Nat) =>
      ∀ u, o = some u → u.2.1 < Ss.length ∧ u.2.2 < Ss.length)
    (fun ij : Nat × Nat => ij.1 < Ss.length ∧ ij.2 < Ss.length)
    _ ?_ _ ?_ none (fun u hu => by cases hu) t h
  · intro b a hb ha u hu
    cases b with
    | none =>
        injection hu with hu1
        rw [← hu1]
        exact ⟨ha.1, ha.2⟩
    | some b0 =>
        injection hu with hu1
        rw [← hu1, pyMax3]
        split
        · exact ⟨ha.1, ha.2⟩
        · exact hb b0 rfl
  · exact fun ij hij => by
      have := (mem_pairIndexList Ss.length ij.1 ij.2).mp (by
        have : (ij.1, ij.2) = ij := rfl
        rw [this]
        exact hij)
      omega

theorem insertA_offsets (d : List (Str × List Nat)) (k : Str) (v : List Nat)
    (hd : ∀ kv ∈ d, ∀ o ∈ kv.2, o ≤ kv.1.length) (hv : ∀ o ∈ v, o ≤ k.length) :
    ∀ kv ∈ insertA d k v, ∀ o ∈ kv.2, o ≤ kv.1.length := by
  intro kv hkv
  rcases mem_insertA d k v kv hkv with h1 | h1
  · rw [h1]
    exact hv
  · exact hd kv h1

theorem lookup_getD_bound (d : List (Str × List Nat))
    (hd : ∀ kv ∈ d, ∀ o ∈ kv.2, o ≤ kv.1.length) (k : Str) :
    ∀ o ∈ (lookupA d k).getD [], o ≤ k.length := by
  intro o ho
  rcases hl : lookupA d k with _ | os
  · rw [hl] at ho
    simp at ho
  · rw [hl] at ho
    exact hd (k, os) (lookupA_mem d k os hl) o ho

theorem blumLoop_inv (fuel : Nat) :
    ∀ (strings : List Str) (d : List (Str × List Nat)),
      (∀ t ∈ strings, t ≠ []) → strings ≠ [] →
      (∀ kv ∈ d, ∀ o ∈ kv.2, o ≤ kv.1.length) →
      (∀ t ∈ (blumLoop fuel strings d).1, t ≠ []) ∧ (blumLoop fuel strings d).1 ≠ [] ∧
      (∀ kv ∈ (blumLoop fuel strings d).2, ∀ o ∈ kv.2, o ≤ kv.1.length) := by
  induction fuel with
  | zero =>
      intro strings d h1 h2 h3
      rw [blumLoop]
      exact ⟨h1, h2, h3⟩
  | succ fuel ih =>
      intro strings d h1 h2 h3
      rw [blumLoop]
      by_cases hlen : strings.length ≤ 1
      · rw [if_pos hlen]
        exact ⟨h1, h2, h3⟩
      · rw [if_neg hlen]
        have h2len : 2 ≤ strings.length := by
          rcases strings with _ | ⟨x, xs⟩
          · exact absurd rfl h2
          · simp only [List.length_cons] at hlen ⊢
            omega
        obtain ⟨t, ht⟩ := bestOverlapTriple_some strings h2len
        have hidx := bestOverlapTriple_indices strings t ht
        have hp : pairWithMaximumOverlap strings
            = (strings.getD t.2.1 [], strings.getD t.2.2 []) := by
          rw [pairWithMaximumOverlap, ht]
        have hp1mem : (pairWithMaximumOverlap strings).1 ∈ strings := by
          rw [hp]
          show strings.getD t.2.1 [] ∈ strings
          rw [List.getD_eq_getElem strings [] hidx.1]
          exact List.getElem_mem hidx.1
        have hp2mem : (pairWithMaximumOverlap strings).2 ∈ strings := by
          rw [hp]
          show strings.getD t.2.2 [] ∈ strings
          rw [List.getD_eq_getElem strings [] hidx.2]
          exact List.getElem_mem hidx.2
        have hov := computeOverlap_spec (pairWithMaximumOverlap strings).1
          (pairWithMaximumOverlap strings).2
        have hmergelen : ∀ m : Str,
            m = (pairWithMaximumOverlap strings).1.take
                (computeOverlap (pairWithMaximumOverlap strings).1
                  (pairWithMaximumOverlap strings).2).2.1 ++
              (pairWithMaximumOverlap strings).2 →
            (pairWithMaximumOverlap strings).1.length ≤ m.length ∧
            m.length = (computeOverlap (pairWithMaximumOverlap strings).1
              (pairWithMaximumOverlap strings).2).2.1 +
              (pairWithMaximumOverlap strings).2.length := by
          intro m hm
          rw [hm, List.length_append, List.length_take]
          omega
        refine ih _ _ ?_ ?_ ?_
        · intro t' ht'
          rcases List.mem_append.mp ht' with hx | hx
          · exact h1 t' (List.mem_of_mem_erase (List.mem_of_mem_erase hx))
          · rw [List.mem_singleton] at hx
            rw [hx]
            intro hc
            exact h1 _ hp2mem (List.append_eq_nil.mp hc).2
        · intro hc
          rcases List.append_eq_nil.mp hc with ⟨_, hc2⟩
          cases hc2
        · have hd1 : ∀ kv ∈ (if hasKeyA d ((pairWithMaximumOverlap strings).1.take
              (computeOverlap (pairWithMaximumOverlap strings).1
                (pairWithMaximumOverlap strings).2).2.1 ++
              (pairWithMaximumOverlap strings).2) then d
              else insertA d ((pairWithMaximumOverlap strings).1.take
                (computeOverlap (pairWithMaximumOverlap strings).1
                  (pairWithMaximumOverlap strings).2).2.1 ++
                (pairWithMaximumOverlap strings).2) []),
              ∀ o ∈ kv.2, o ≤ kv.1.length := by
            split
            · exact h3
            · exact insertA_offsets d _ [] h3 (fun o ho => by simp at ho)
          refine insertA_offsets _ _ _ hd1 ?_
          intro o ho
          have hml := hmergelen _ rfl
          rcases List.mem_append.mp ho with ho1 | ho1
          · rcases List.mem_append.mp ho1 with ho2 | ho2
            · exact lookup_getD_bound _ hd1 _ o ho2
            · have := lookup_getD_bound _ hd1 (pairWithMaximumOverlap strings).1 o ho2
              omega
          · rcases List.mem_map.mp ho1 with ⟨o0, ho0, rfl⟩
            have := lookup_getD_bound _ hd1 (pairWithMaximumOverlap strings).2 o0 ho0
            omega

/-! ### Lehman1 acyclicity: the recorded break offsets cut the superstring
into nonempty slices -/

theorem mem_insSorted (x y : Nat) (l : List Nat) (h : y ∈ insSorted x l) :
    y = x ∨ y ∈ l := by
  induction l with
  | nil =>
      rw [insSorted, List.mem_singleton] at h
      exact Or.inl h
  | cons z zs ih =>
      rw [insSorted] at h
      split at h
      · rcases List.mem_cons.mp h with h1 | h1
        · exact Or.inl h1
        · exact Or.inr h1
      · rcases List.mem_cons.mp h with h1 | h1
        · exact Or.inr (by rw [h1]; exact List.mem_cons_self _ _)
        · rcases ih h1 with h2 | h2
          · exact Or.inl h2
          · exact Or.inr (List.mem_cons_of_mem _ h2)

theorem insSorted_perm (x : Nat) (l : List Nat) :
    List.Perm (insSorted x l) (x :: l) := by
  induction l with
  | nil => exact List.Perm.refl _
  | cons y ys ih =>
      rw [insSorted]
      split
      · exact List.Perm.refl _
      · exact List.Perm.trans (List.Perm.cons y ih) (List.Perm.swap x y ys)

theorem foldr_insSorted_perm (l : List Nat) :
    List.Perm (l.foldr insSorted []) l := by
  induction l with
  | nil => exact List.Perm.refl _
  | cons x xs ih =>
      rw [List.foldr_cons]
      exact List.Perm.trans (insSorted_perm x (xs.foldr insSorted []))
        (List.Perm.cons x ih)

theorem insSorted_pairwise (x : Nat) (l : List Nat)
    (h : List.Pairwise (· ≤ ·) l) : List.Pairwise (· ≤ ·) (insSorted x l) := by
  induction l with
  | nil => simp [insSorted]
  | cons y ys ih =>
      rw [insSorted]
      rw [List.pairwise_cons] at h
      split
      · next hxy =>
          rw [List.pairwise_cons]
          refine ⟨?_, List.pairwise_cons.mpr h⟩
          intro z hz
          rcases List.mem_cons.mp hz with h1 | h1
          · rw [h1]
            exact hxy
          · have := h.1 z h1
            omega
      · next hxy =>
          rw [List.pairwise_cons]
          refine ⟨?_, ih h.2⟩
          intro z hz
          rcases mem_insSorted x z ys hz with h1 | h1
          · rw [h1]
            omega
          · exact h.1 z h1

theorem sortedNub_pairwise_lt (xs : List Nat) :
    List.Pairwise (· < ·) (sortedNub xs) := by
  have hsorted : List.Pairwise (· ≤ ·) (sortedNub xs) := by
    rw [sortedNub]
    generalize xs.dedup = l
    induction l with
    | nil => simp
    | cons x xs2 ih =>
        rw [List.foldr_cons]
        exact insSorted_pairwise x _ ih
  have hnodup : (sortedNub xs).Nodup := by
    rw [sortedNub]
    exact (foldr_insSorted_perm xs.dedup).symm.nodup (List.nodup_dedup xs)
  have hne : List.Pairwise (fun a b : Nat => a ≠ b) (sortedNub xs) := hnodup
  exact (hsorted.and hne).imp (fun hab => by omega)

theorem mem_sortedNub_iff (xs : List Nat) (x : Nat) : x ∈ sortedNub xs ↔ x ∈ xs := by
  rw [sortedNub]
  constructor
  · intro h
    exact List.mem_dedup.mp ((foldr_insSorted_perm xs.dedup).subset h)
  · intro h
    exact (foldr_insSorted_perm xs.dedup).symm.subset (List.mem_dedup.mpr h)

theorem pairwise_zip_tail_rel {α : Type} (r : α → α → Prop) :
    ∀ l : List α, List.Pairwise r l → ∀ p ∈ l.zip l.tail, r p.1 p.2 := by
  intro l
  induction l with
  | nil =>
      intro _ p hp
      simp at hp
  | cons a rest ih =>
      intro h p hp
      cases rest with
      | nil => simp at hp
      | cons b rest2 =>
          simp only [List.tail_cons, List.zip_cons_cons] at hp
          rcases List.mem_cons.mp hp with h1 | h1
          · rw [h1]
            exact (List.pairwise_cons.mp h).1 b (List.mem_cons_self _ _)
          · exact ih (List.pairwise_cons.mp h).2 p h1

/-- The break offsets are sorted, distinct and within the superstring, so
every cut slice is nonempty, and the slice list itself is nonempty. -/
theorem blum_slices (superstring : Str) (os : List Nat)
    (hss : superstring ≠ []) (hos : ∀ o ∈ os, o ≤ superstring.length) :
    ((sortedNub (0 :: os ++ [superstring.length])).zip
      (sortedNub (0 :: os ++ [superstring.length])).tail).map
        (fun se => (superstring.drop se.1).take (se.2 - se.1)) ≠ [] ∧
    ∀ x ∈ ((sortedNub (0 :: os ++ [superstring.length])).zip
      (sortedNub (0 :: os ++ [superstring.length])).tail).map
        (fun se => (superstring.drop se.1).take (se.2 - se.1)), x ≠ [] := by
  have hlt := sortedNub_pairwise_lt (0 :: os ++ [superstring.length])
  have hbound : ∀ x ∈ sortedNub (0 :: os ++ [superstring.length]),
      x ≤ superstring.length := by
    intro x hx
    have hx2 := (mem_sortedNub_iff _ x).mp hx
    rcases List.mem_cons.mp hx2 with h1 | h1
    · omega
    · rcases List.mem_append.mp h1 with h2 | h2
      · exact hos x h2
      · rw [List.mem_singleton] at h2
        omega
  have h0mem : (0 : Nat) ∈ sortedNub (0 :: os ++ [superstring.length]) :=
    (mem_sortedNub_iff _ 0).mpr (List.mem_cons_self _ _)
  have hLmem : superstring.length ∈ sortedNub (0 :: os ++ [superstring.length]) :=
    (mem_sortedNub_iff _ _).mpr (List.mem_cons_of_mem _
      (List.mem_append.mpr (Or.inr (List.mem_singleton.mpr rfl))))
  have hLpos : 1 ≤ superstring.length := List.length_pos.mpr hss
  constructor
  · have hlen2 : 2 ≤ (sortedNub (0 :: os ++ [superstring.length])).length := by
      rcases hm : sortedNub (0 :: os ++ [superstring.length]) with _ | ⟨a, _ | ⟨b, rest⟩⟩
      · rw [hm] at h0mem
        exact absurd h0mem (List.not_mem_nil _)
      · rw [hm, List.mem_singleton] at h0mem hLmem
        omega
      · simp only [List.length_cons]
        omega
    intro hc
    rw [List.map_eq_nil_iff] at hc
    have hlc := congrArg List.length hc
    rw [List.length_zip, List.length_tail, List.length_nil] at hlc
    omega
  · intro x hx
    rcases List.mem_map.mp hx with ⟨⟨a, b⟩, hse, rfl⟩
    have hab : a < b := pairwise_zip_tail_rel (· < ·) _ hlt (a, b) hse
    have hmem := List.of_mem_zip hse
    have hb := hbound b (List.mem_of_mem_tail hmem.2)
    intro hc
    have hlc := congrArg List.length hc
    rw [List.length_take, List.length_drop, List.length_nil] at hlc
    omega

theorem getLastD_mem {α : Type} (l : List α) : ∀ d : α, l ≠ [] → l.getLastD d ∈ l := by
  induction l with
  | nil =>
      intro d h
      exact absurd rfl h
  | cons x xs ih =>
      intro d _
      rw [List.getLastD_cons]
      cases xs with
      | nil => exact List.mem_singleton.mpr rfl
      | cons y rest => exact List.mem_cons_of_mem _ (ih x (by simp))

/-- The merge-and-break pass maps a nonempty list of nonempty strings to a
nonempty list of nonempty segments. -/
theorem blum_output (Ss : List Str) (hne : Ss ≠ []) (hels : ∀ t ∈ Ss, t ≠ []) :
    blumSmallestSuperstringAndBreaking Ss ≠ [] ∧
    (∀ x ∈ blumSmallestSuperstringAndBreaking Ss, x ≠ []) := by
  have hd0 : ∀ kv ∈ Ss.foldl (fun d s => insertA d s [0]) [], ∀ o ∈ kv.2,
      o ≤ kv.1.length := by
    refine foldl_preserve
      (fun d : List (Str × List Nat) => ∀ kv ∈ d, ∀ o ∈ kv.2, o ≤ kv.1.length)
      (fun _ : Str => True) _ ?_ _ (fun _ _ => trivial) _ ?_
    · intro d s hd _
      exact insertA_offsets d s [0] hd (fun o ho => by
        rw [List.mem_singleton] at ho
        omega)
    · intro kv hkv
      exact absurd hkv (List.not_mem_nil kv)
  have hloop := blumLoop_inv Ss.length Ss _ hels hne hd0
  have hssne : (blumLoop Ss.length Ss (Ss.foldl (fun d s => insertA d s [0]) [])).1.getD 0 []
      ≠ [] := by
    have hpos : 0 < (blumLoop Ss.length Ss
        (Ss.foldl (fun d s => insertA d s [0]) [])).1.length :=
      List.length_pos.mpr hloop.2.1
    rw [List.getD_eq_getElem _ [] hpos]
    exact hloop.1 _ (List.getElem_mem hpos)
  exact blum_slices _ _ hssne
    (lookup_getD_bound _ hloop.2.2 _)

theorem splitTooBigs_symsNE : ∀ (L : List Str) (k : Nat), 1 ≤ k → (∀ y ∈ L, y ≠ []) →
    (∀ x ∈ splitTooBigs L k, x ≠ []) ∧ (L ≠ [] → splitTooBigs L k ≠ []) := by
  intro L
  induction L with
  | nil =>
      intro k hk h
      exact ⟨fun x hx => absurd hx (List.not_mem_nil x), fun hc => absurd rfl hc⟩
  | cons s rest ih =>
      intro k hk h
      rw [splitTooBigs]
      have hs := h s (List.mem_cons_self _ _)
      have hrest := ih k hk (fun y hy => h y (List.mem_cons_of_mem _ hy))
      constructor
      · intro x hx
        rcases List.mem_append.mp hx with h1 | h1
        · split at h1
          · next hbig =>
              have hlen : 2 ≤ s.length := by
                have := List.length_pos.mpr hs
                omega
              simp only [List.mem_cons, List.not_mem_nil, or_false] at h1
              rcases h1 with h2 | h2 <;> rw [h2] <;> intro hc <;>
                have hlc := congrArg List.length hc <;>
                simp only [List.length_take, List.length_drop, List.length_nil] at hlc <;>
                omega
          · rw [List.mem_singleton] at h1
            rw [h1]
            exact hs
        · exact hrest.1 x h1
      · intro _ hc
        rcases List.append_eq_nil.mp hc with ⟨h1, _⟩
        split at h1 <;> simp at h1

/-- Every level produced by `generateCs` is a nonempty list of nonempty
segments. -/
def levelsGood (Cs : List (List Str)) : Prop :=
  ∀ C ∈ Cs, C ≠ [] ∧ ∀ x ∈ C, x ≠ []

theorem generateCsLoop_good (k : Nat) :
    ∀ Cs : List (List Str), levelsGood Cs → Cs ≠ [] →
      levelsGood (generateCsLoop k Cs) ∧ generateCsLoop k Cs ≠ [] := by
  induction k using Nat.strong_induction_on with
  | _ k ih =>
      intro Cs hCs hne
      rw [generateCsLoop]
      by_cases hk : k < 2
      · rw [if_pos hk]
        exact ⟨hCs, hne⟩
      · rw [if_neg hk]
        have hlast := hCs (Cs.getLastD []) (getLastD_mem Cs [] hne)
        have hblum := blum_output (Cs.getLastD []) hlast.1 hlast.2
        have hsplit := splitTooBigs_symsNE
          (blumSmallestSuperstringAndBreaking (Cs.getLastD [])) k (by omega) hblum.2
        refine ih (k / 2) (by omega) _ ?_ ?_
        · intro C hC
          rcases List.mem_append.mp hC with h1 | h1
          · exact hCs C h1
          · rw [List.mem_singleton] at h1
            rw [h1]
            exact ⟨hsplit.2 hblum.1, hsplit.1⟩
        · intro hc
          rcases List.append_eq_nil.mp hc with ⟨_, h2⟩
          cases h2

theorem generateCs_good (S : Str) (hS : S ≠ []) : levelsGood (generateCs S) := by
  rw [generateCs]
  refine (generateCsLoop_good _ [[S]] ?_ (by simp)).1
  intro C hC
  rw [List.mem_singleton] at hC
  rw [hC]
  refine ⟨by simp, ?_⟩
  intro x hx
  rw [List.mem_singleton] at hx
  rw [hx]
  exact hS

/-! ### Lehman1 acyclicity: the substring-construction grammar splits every
key into two nonempty parts -/

theorem drop_take_cons (C : List Str) (i a : Nat) (hi : i < C.length) (ha : 1 ≤ a) :
    (C.drop i).take a = C[i] :: (C.drop (i + 1)).take (a - 1) := by
  have h1 : C.drop i = C[i] :: C.drop (i + 1) := List.drop_eq_getElem_cons hi
  rw [h1]
  have h2 : a = (a - 1) + 1 := by omega
  conv_lhs => rw [h2]
  rw [List.take_succ_cons]

theorem slice_split (C : List Str) (a b c : Nat) (hab : a ≤ b) (_hbc : b ≤ c) :
    (C.drop a).take (c - a) = (C.drop a).take (b - a) ++ (C.drop b).take (c - b) := by
  have h1 : c - a = (b - a) + (c - b) := by omega
  rw [h1, List.take_add]
  congr 2
  rw [List.drop_drop]
  congr 1
  omega

theorem slice_flatten_len (C : List Str) (els : ∀ x ∈ C, x ≠ []) (i a : Nat)
    (ha : i + a ≤ C.length) : a ≤ ((C.drop i).take a).flatten.length := by
  have h1 : ((C.drop i).take a).length = a := by
    rw [List.length_take, List.length_drop]
    omega
  have h2 := length_le_length_flatten ((C.drop i).take a)
    (fun x hx => els x (List.mem_of_mem_drop (List.mem_of_mem_take hx)))
  omega

/-- Every key of the grammar has length at least two. -/
def keysLong (g : Grammar) : Prop := ∀ kv ∈ g, 2 ≤ kv.1.length

theorem insertA_keysLong (g : Grammar) (k : Str) (v : List Str)
    (hg : keysLong g) (hk : 2 ≤ k.length) : keysLong (insertA g k v) := by
  intro kv hkv
  rcases mem_insertA g k v kv hkv with h1 | h1
  · rw [h1]
    exact hk
  · exact hg kv h1

theorem updateA_keysLong (g h : Grammar) (hg : keysLong g) (hh : keysLong h) :
    keysLong (updateA g h) := by
  intro kv hkv
  rcases mem_updateA h g kv hkv with h1 | h1
  · exact hg kv h1
  · exact hh kv h1

theorem subConstrRecurse_good (n : Nat) :
    ∀ S : List Str, S.length ≤ n → (∀ x ∈ S, x ≠ []) → ∀ g : Grammar,
      lenDecreasing g ∧ keysLong g →
      lenDecreasing (subConstrRecurse S g) ∧ keysLong (subConstrRecurse S g) := by
  induction n with
  | zero =>
      intro S hS hels g hg
      rw [subConstrRecurse, dif_pos (show S.length ≤ 1 by omega)]
      exact hg
  | succ n ih =>
      intro S hS hels g hg
      by_cases h1 : S.length ≤ 1
      · rw [subConstrRecurse, dif_pos h1]
        exact hg
      · rw [subConstrRecurse, dif_neg h1]
        have hlen2 : 2 ≤ S.length := by omega
        have hfold1 : lenDecreasing ((List.range (S.length / 2 - 1)).foldl
              (fun g i =>
                insertA g ((S.drop i).take (S.length / 2 - i)).flatten
                  [S.getD i [], ((S.drop (i + 1)).take (S.length / 2 - (i + 1))).flatten])
              g) ∧
            keysLong ((List.range (S.length / 2 - 1)).foldl
              (fun g i =>
                insertA g ((S.drop i).take (S.length / 2 - i)).flatten
                  [S.getD i [], ((S.drop (i + 1)).take (S.length / 2 - (i + 1))).flatten])
              g) := by
          refine foldl_preserve
            (fun g : Grammar => lenDecreasing g ∧ keysLong g)
            (fun i : Nat => i < S.length / 2 - 1) _ ?_ _
            (fun i hi => List.mem_range.mp hi) g hg
          intro g i hP hi
          have hiS : i < S.length := by omega
          have hdec : ((S.drop i).take (S.length / 2 - i)).flatten
              = S[i] ++ ((S.drop (i + 1)).take (S.length / 2 - i - 1)).flatten := by
            rw [drop_take_cons S i (S.length / 2 - i) hiS (by omega), List.flatten_cons]
          have harg : S.length / 2 - (i + 1) = S.length / 2 - i - 1 :=
            (Nat.sub_sub _ _ _).symm
          have hv1len : S.length / 2 - i - 1
              ≤ (((S.drop (i + 1)).take (S.length / 2 - i - 1)).flatten).length :=
            slice_flatten_len S hels (i + 1) (S.length / 2 - i - 1) (by omega)
          have hkey : (((S.drop i).take (S.length / 2 - i)).flatten).length
              = (S[i]).length
                + (((S.drop (i + 1)).take (S.length / 2 - i - 1)).flatten).length := by
            rw [hdec, List.length_append]
          have hSi : 1 ≤ (S[i]).length :=
            List.length_pos.mpr (hels _ (List.getElem_mem hiS))
          constructor
          · refine insertA_lenDecreasing g _ _ hP.1 ?_
            intro x hx
            simp only [List.mem_cons, List.not_mem_nil, or_false] at hx
            rcases hx with h2 | h2
            · rw [h2, List.getD_eq_getElem S [] hiS]
              omega
            · rw [h2, harg]
              omega
          · refine insertA_keysLong g _ _ hP.2 ?_
            omega
        have hfold2 : lenDecreasing ((List.range' (S.length / 2 + 1)
              (S.length - (S.length / 2 + 1))).foldl
              (fun g i =>
                insertA g ((S.drop (S.length / 2)).take (i + 1 - S.length / 2)).flatten
                  [((S.drop (S.length / 2)).take (i - S.length / 2)).flatten, S.getD i []])
              ((List.range (S.length / 2 - 1)).foldl
                (fun g i =>
                  insertA g ((S.drop i).take (S.length / 2 - i)).flatten
                    [S.getD i [], ((S.drop (i + 1)).take (S.length / 2 - (i + 1))).flatten])
                g)) ∧
            keysLong ((List.range' (S.length / 2 + 1)
              (S.length - (S.length / 2 + 1))).foldl
              (fun g i =>
                insertA g ((S.drop (S.length / 2)).take (i + 1 - S.length / 2)).flatten
                  [((S.drop (S.length / 2)).take (i - S.length / 2)).flatten, S.getD i []])
              ((List.range (S.length / 2 - 1)).foldl
                (fun g i =>
                  insertA g ((S.drop i).take (S.length / 2 - i)).flatten
                    [S.getD i [], ((S.drop (i + 1)).take (S.length / 2 - (i + 1))).flatten])
                g)) := by
          refine foldl_preserve
            (fun g : Grammar => lenDecreasing g ∧ keysLong g)
            (fun i : Nat => S.length / 2 + 1 ≤ i ∧ i < S.length) _ ?_ _
            (fun i hi => by
              have := List.mem_range'_1.mp hi
              omega) _ hfold1
          intro g i hP hi
          have hiS : i < S.length := hi.2
          have hsnoc : (S.drop (S.length / 2)).take (i + 1 - S.length / 2)
              = (S.drop (S.length / 2)).take (i - S.length / 2) ++ [S.getD i []] := by
            rw [show i + 1 - S.length / 2 = (i - S.length / 2) + 1 from by omega,
              List.take_succ]
            congr 1
            rw [List.getElem?_drop]
            rw [show S.length / 2 + (i - S.length / 2) = i from by omega]
            rw [List.getElem?_eq_getElem hiS, List.getD_eq_getElem S [] hiS]
            rfl
          have hdec : ((S.drop (S.length / 2)).take (i + 1 - S.length / 2)).flatten
              = ((S.drop (S.length / 2)).take (i - S.length / 2)).flatten
                ++ S.getD i [] := by
            rw [hsnoc, List.flatten_append]
            simp
          have hv0len : i - S.length / 2
              ≤ (((S.drop (S.length / 2)).take (i - S.length / 2)).flatten).length :=
            slice_flatten_len S hels (S.length / 2) (i - S.length / 2) (by omega)
          have hkey : (((S.drop (S.length / 2)).take (i + 1 - S.length / 2)).flatten).length
              = (((S.drop (S.length / 2)).take (i - S.length / 2)).flatten).length
                + (S.getD i []).length := by
            rw [hdec, List.length_append]
          have hSi : 1 ≤ (S.getD i []).length := by
            rw [List.getD_eq_getElem S [] hiS]
            exact List.length_pos.mpr (hels _ (List.getElem_mem hiS))
          constructor
          · refine insertA_lenDecreasing g _ _ hP.1 ?_
            intro x hx
            simp only [List.mem_cons, List.not_mem_nil, or_false] at hx
            rcases hx with h2 | h2 <;> rw [h2] <;> omega
          · refine insertA_keysLong g _ _ hP.2 ?_
            omega
        refine ih (S.drop (S.length / 2)) ?_ ?_ _ ?_
        · rw [List.length_drop]
          omega
        · exact fun x hx => hels x (List.mem_of_mem_drop hx)
        · refine ih (S.take (S.length / 2)) ?_ ?_ _ hfold2
          · rw [List.length_take]
            omega
          · exact fun x hx => hels x (List.mem_of_mem_take hx)

theorem generateSubstringConstructionGrammar_good (S : List Str)
    (hels : ∀ x ∈ S, x ≠ []) :
    lenDecreasing (generateSubstringConstructionGrammar S) ∧
    keysLong (generateSubstringConstructionGrammar S) := by
  rw [generateSubstringConstructionGrammar]
  exact subConstrRecurse_good S.length S (Nat.le_refl _) hels []
    ⟨fun kv hkv => absurd hkv (List.not_mem_nil kv),
     fun kv hkv => absurd hkv (List.not_mem_nil kv)⟩

/-! ### Lehman1 acyclicity: the stitching walk emits only symbols strictly
shorter than the segment being stitched -/

theorem flpConsume_spec (C : List Str) (n : Nat) :
    ∀ e rem, C.length - e ≤ n →
      e ≤ (flpConsume C e rem).1 ∧
      (flpConsume C e rem).1 ≤ max e C.length ∧
      (((C.drop e).take ((flpConsume C e rem).1 - e)).map List.length).sum
        + (flpConsume C e rem).2 = rem := by
  induction n with
  | zero =>
      intro e rem hn
      rw [flpConsume, dif_neg (by
        rintro ⟨h1, _⟩
        omega)]
      refine ⟨Nat.le_refl _, Nat.le_max_left _ _, ?_⟩
      simp
  | succ n ih =>
      intro e rem hn
      rw [flpConsume]
      by_cases hg : e < C.length ∧ (C.getD e []).length ≤ rem
      · rw [dif_pos hg]
        obtain ⟨ih1, ih2, ih3⟩ := ih (e + 1) (rem - (C.getD e []).length) (by omega)
        refine ⟨by omega, by omega, ?_⟩
        have hdec : (C.drop e).take
            ((flpConsume C (e + 1) (rem - (C.getD e []).length)).1 - e)
            = C[e] :: (C.drop (e + 1)).take
              ((flpConsume C (e + 1) (rem - (C.getD e []).length)).1 - e - 1) :=
          drop_take_cons C e _ hg.1 (by omega)
        rw [← List.getD_eq_getElem C [] hg.1] at hdec
        rw [hdec, List.map_cons, List.sum_cons]
        rw [show (flpConsume C (e + 1) (rem - (C.getD e []).length)).1 - e - 1
            = (flpConsume C (e + 1) (rem - (C.getD e []).length)).1 - (e + 1) from by omega]
        omega
      · rw [dif_neg hg]
        refine ⟨Nat.le_refl _, Nat.le_max_left _ _, ?_⟩
        simp

theorem findPrefStart_spec (s : Str) (C : List Str) (start : Nat)
    (h : findPrefStart s C = some start) :
    start < C.length ∧ ((C.drop start).flatten).take s.length = s := by
  rw [findPrefStart] at h
  have h1 := List.find?_some h
  have h2 := List.mem_of_find?_eq_some h
  exact ⟨List.mem_range.mp h2, beq_iff_eq.mp h1⟩

theorem findLongestPref_spec (s : Str) (C : List Str) (start e used : Nat)
    (h : findLongestPref s C = some (start, e, used)) :
    start < C.length ∧ e ≤ C.length ∧ start ≤ e ∧
    used = (((C.drop start).take (e - start)).map List.length).sum ∧
    used ≤ s.length ∧
    ((C.drop start).flatten).take s.length = s := by
  rw [findLongestPref] at h
  rcases hfp : findPrefStart s C with _ | st
  · rw [hfp] at h
    cases h
  · rw [hfp] at h
    have hps := findPrefStart_spec s C st hfp
    have hcons := flpConsume_spec C C.length st s.length (by omega)
    simp only [Option.some.injEq, Prod.mk.injEq] at h
    obtain ⟨h1, h2, h3⟩ := h
    subst h1
    subst h2
    subst h3
    refine ⟨hps.1, by omega, hcons.1, by omega, by omega, hps.2⟩

theorem chooseSplit_bounds (g : Grammar) (C : List Str) (start e : Nat)
    (h3 : start + 3 ≤ e) :
    start + 1 ≤ chooseSplit g C start e ∧ chooseSplit g C start e ≤ e - 1 := by
  rw [chooseSplit]
  split
  · next sp hsp =>
      have hm := List.mem_of_find?_eq_some hsp
      have := List.mem_range'_1.mp hm
      omega
  · omega

/-- The stitching walk across the finer levels: provided the segment `s0`
being stitched occurs in none of those levels, every symbol it appends is
strictly shorter than `s0`, and the remainder is either still all of `s0`
(nothing consumed yet) or already strictly shorter. -/
theorem stitchLevels_inv :
    ∀ (levels : List (List Str)) (g0 : Grammar) (sRem : Str) (rhs : List Str)
      (s0 : Str) (out : List Str × Str),
      (∀ C ∈ levels, ∀ x ∈ C, x ≠ []) →
      (∀ C ∈ levels, s0 ∉ C) →
      (sRem = s0 ∨ sRem.length < s0.length) →
      (∀ m ∈ rhs, m.length < s0.length) →
      stitchLevels g0 levels sRem rhs = .ok out →
      (∀ m ∈ out.1, m.length < s0.length) ∧ (out.2 = s0 ∨ out.2.length < s0.length) := by
  intro levels
  induction levels with
  | nil =>
      intro g0 sRem rhs s0 out hels hnot hsRem hrhs h
      rw [stitchLevels] at h
      injection h with h'
      rw [← h']
      exact ⟨hrhs, hsRem⟩
  | cons C rest ih =>
      intro g0 sRem rhs s0 out hels hnot hsRem hrhs h
      rw [stitchLevels] at h
      split at h
      · simp at h
      · next start e used heq =>
          have hspec := findLongestPref_spec sRem C start e used heq
          obtain ⟨hstartC, heC, hse, hused, husedle, hpref⟩ := hspec
          have helsC : ∀ x ∈ C, x ≠ [] := hels C (List.mem_cons_self _ _)
          have helsrest : ∀ C' ∈ rest, ∀ x ∈ C', x ≠ [] :=
            fun C' hC' => hels C' (List.mem_cons_of_mem _ hC')
          have hnotC : s0 ∉ C := hnot C (List.mem_cons_self _ _)
          have hnotrest : ∀ C' ∈ rest, s0 ∉ C' :=
            fun C' hC' => hnot C' (List.mem_cons_of_mem _ hC')
          by_cases hc1 : start = e
          · rw [if_pos hc1] at h
            exact ih g0 sRem rhs s0 out helsrest hnotrest hsRem hrhs h
          · rw [if_neg hc1] at h
            have hlt : start < e := by omega
            have husedpos : 1 ≤ used := by
              have hdec := drop_take_cons C start (e - start) hstartC (by omega)
              rw [hused, hdec, List.map_cons, List.sum_cons]
              have := List.length_pos.mpr (helsC _ (List.getElem_mem hstartC))
              omega
            have husedle2 : used ≤ s0.length := by
              rcases hsRem with h4 | h4
              · rw [h4] at husedle
                exact husedle
              · omega
            have hnewRem : (sRem.drop used) = s0 ∨ (sRem.drop used).length < s0.length := by
              right
              rw [List.length_drop]
              rcases hsRem with h4 | h4
              · rw [h4]
                omega
              · omega
            by_cases hc2 : start + 1 = e
            · rw [if_pos hc2] at h
              refine ih g0 _ _ s0 out helsrest hnotrest hnewRem ?_ h
              intro m hm
              rcases List.mem_append.mp hm with h5 | h5
              · exact hrhs m h5
              · rw [List.mem_singleton] at h5
                have hgd : C.getD start [] = C[start] := List.getD_eq_getElem C [] hstartC
                have hlen : (C[start]).length = used := by
                  have hdec := drop_take_cons C start (e - start) hstartC (by omega)
                  rw [hused, hdec, List.map_cons, List.sum_cons]
                  rw [show e - start - 1 = 0 from by omega]
                  simp
                rcases hsRem with h4 | h4
                · by_cases h6 : used < s0.length
                  · rw [h5, hgd]
                    omega
                  · exfalso
                    have h8 : (C.drop start).flatten
                        = C[start] ++ (C.drop (start + 1)).flatten := by
                      rw [List.drop_eq_getElem_cons hstartC, List.flatten_cons]
                    have h10 : sRem.length = (C[start]).length := by
                      rw [h4]
                      omega
                    have h9 : sRem = C[start] := by
                      rw [← hpref, h8, h10, List.take_left]
                    refine hnotC ?_
                    rw [← h4, h9]
                    exact List.getElem_mem hstartC
                · rw [h5, hgd]
                  omega
            · rw [if_neg hc2] at h
              by_cases hc3 : start + 2 = e
              · rw [if_pos hc3] at h
                refine ih g0 _ _ s0 out helsrest hnotrest hnewRem ?_ h
                intro m hm
                rcases List.mem_append.mp hm with h5 | h5
                · exact hrhs m h5
                · have hs1C : start + 1 < C.length := by omega
                  have hgd0 : C.getD start [] = C[start] := List.getD_eq_getElem C [] hstartC
                  have hgd1 : C.getD (start + 1) [] = C[start + 1] :=
                    List.getD_eq_getElem C [] hs1C
                  have hsum2 : used = (C[start]).length + (C[start + 1]).length := by
                    have hdec := drop_take_cons C start (e - start) hstartC (by omega)
                    rw [hused, hdec, List.map_cons, List.sum_cons]
                    have hdec2 := drop_take_cons C (start + 1) (e - start - 1) hs1C (by omega)
                    rw [hdec2, List.map_cons, List.sum_cons]
                    rw [show e - start - 1 - 1 = 0 from by omega]
                    simp
                  have hp0 : 1 ≤ (C[start]).length :=
                    List.length_pos.mpr (helsC _ (List.getElem_mem hstartC))
                  have hp1 : 1 ≤ (C[start + 1]).length :=
                    List.length_pos.mpr (helsC _ (List.getElem_mem hs1C))
                  simp only [List.mem_cons, List.not_mem_nil, or_false] at h5
                  rcases h5 with h6 | h6
                  · rw [h6, hgd0]
                    omega
                  · rw [h6, hgd1]
                    omega
              · rw [if_neg hc3] at h
                have h3le : start + 3 ≤ e := by omega
                have hcsb := chooseSplit_bounds g0 C start e h3le
                refine ih g0 _ _ s0 out helsrest hnotrest hnewRem ?_ h
                intro m hm
                rcases List.mem_append.mp hm with h5 | h5
                · exact hrhs m h5
                · have hsumsplit : (((C.drop start).take (e - start)).map List.length).sum
                      = (((C.drop start).take
                          (chooseSplit g0 C start e - start)).flatten).length
                        + (((C.drop (chooseSplit g0 C start e)).take
                          (e - chooseSplit g0 C start e)).flatten).length := by
                    rw [slice_split C start (chooseSplit g0 C start e) e
                      (by omega) (by omega)]
                    rw [List.map_append, List.sum_append,
                      List.length_flatten, List.length_flatten]
                  have hh1 : chooseSplit g0 C start e - start
                      ≤ (((C.drop start).take
                          (chooseSplit g0 C start e - start)).flatten).length :=
                    slice_flatten_len C helsC start _ (by omega)
                  have hh2 : e - chooseSplit g0 C start e
                      ≤ (((C.drop (chooseSplit g0 C start e)).take
                          (e - chooseSplit g0 C start e)).flatten).length :=
                    slice_flatten_len C helsC _ _ (by omega)
                  simp only [List.mem_cons, List.not_mem_nil, or_false] at h5
                  rcases h5 with h6 | h6
                  · rw [h6]
                    omega
                  · rw [h6]
                    omega

/-! ### Lehman1 acyclicity: the final value of every key comes either from
the substring constructions or from the last stitching of that key -/

theorem stitchList_lookup (levels : List (List Str)) :
    ∀ (lvl : List Str) (g g' : Grammar) (k : Str), 2 ≤ k.length →
      stitchList levels g lvl = .ok g' →
      (k ∉ lvl ∧ lookupA g' k = lookupA g k) ∨
      (k ∈ lvl ∧ ∃ (gx : Grammar) (rhs : List Str) (sRem : Str),
        stitchLevels (insertA gx k []) levels k [] = .ok (rhs, sRem) ∧
        lookupA g' k = some (rhs ++ sRem.map (fun c => [c]))) := by
  intro lvl
  induction lvl with
  | nil =>
      intro g g' k hk h
      rw [stitchList] at h
      injection h with h'
      subst h'
      exact Or.inl ⟨List.not_mem_nil k, rfl⟩
  | cons s rest ih =>
      intro g g' k hk h
      rw [stitchList] at h
      by_cases hs1 : s.length = 1
      · rw [if_pos hs1] at h
        rcases ih g g' k hk h with ⟨hnm, heq⟩ | ⟨hm, hex⟩
        · refine Or.inl ⟨?_, heq⟩
          intro hc
          rcases List.mem_cons.mp hc with h1 | h1
          · rw [h1] at hk
            omega
          · exact hnm h1
        · exact Or.inr ⟨List.mem_cons_of_mem _ hm, hex⟩
      · rw [if_neg hs1] at h
        have h2 : (match stitchLevels (insertA g s []) levels s [] with
            | Except.error msg => Except.error msg
            | Except.ok (rhs, sRem) => stitchList levels
                (insertA (insertA g s []) s (rhs ++ List.map (fun c => [c]) sRem)) rest)
            = Except.ok g' := h
        clear h
        split at h2
        · simp at h2
        · next rhs sRem hmatch =>
            rcases ih _ g' k hk h2 with ⟨hnm, heq⟩ | ⟨hm, hex⟩
            · by_cases hks : k = s
              · subst hks
                refine Or.inr ⟨List.mem_cons_self _ _, g, rhs, sRem, hmatch, ?_⟩
                rw [heq, lookupA_insertA, if_pos rfl]
              · refine Or.inl ⟨?_, ?_⟩
                · intro hc
                  rcases List.mem_cons.mp hc with h1 | h1
                  · exact hks h1
                  · exact hnm h1
                · rw [heq, lookupA_insertA, if_neg (fun hc => hks hc.symm),
                    lookupA_insertA, if_neg (fun hc => hks hc.symm)]
            · exact Or.inr ⟨List.mem_cons_of_mem _ hm, hex⟩

theorem stitchAll_lookup :
    ∀ (Cs : List (List Str)) (g gf : Grammar) (k : Str), 2 ≤ k.length →
      stitchAll g Cs = .ok gf →
      ((∀ C ∈ Cs, k ∉ C) ∧ lookupA gf k = lookupA g k) ∨
      (∃ (rest : List (List Str)) (gx : Grammar) (rhs : List Str) (sRem : Str),
        (∀ C' ∈ rest, k ∉ C') ∧
        (∀ C' ∈ rest, C' ∈ Cs) ∧
        stitchLevels (insertA gx k []) rest k [] = .ok (rhs, sRem) ∧
        lookupA gf k = some (rhs ++ sRem.map (fun c => [c]))) := by
  intro Cs
  induction Cs with
  | nil =>
      intro g gf k hk h
      rw [stitchAll] at h
      injection h with h'
      subst h'
      exact Or.inl ⟨fun C hC => absurd hC (List.not_mem_nil C), rfl⟩
  | cons C rest ih =>
      intro g gf k hk h
      rw [stitchAll] at h
      split at h
      · simp at h
      · next g2 hsl =>
          rcases ih g2 gf k hk h with ⟨hnm, heq⟩ |
            ⟨rest', gx, rhs, sRem, hnot', hsub', heq', hlook⟩
          · rcases stitchList_lookup rest C g g2 k hk hsl with ⟨hnmC, heqC⟩ |
              ⟨_, gx, rhs, sRem, hst, hlook⟩
            · refine Or.inl ⟨?_, by rw [heq, heqC]⟩
              intro C' hC'
              rcases List.mem_cons.mp hC' with h1 | h1
              · rw [h1]
                exact hnmC
              · exact hnm C' h1
            · exact Or.inr ⟨rest, gx, rhs, sRem, hnm,
                fun C' hC' => List.mem_cons_of_mem _ hC', hst, by rw [heq, hlook]⟩
          · exact Or.inr ⟨rest', gx, rhs, sRem, hnot',
              fun C' hC' => List.mem_cons_of_mem _ (hsub' C' hC'), heq', hlook⟩

/-- Grammars built by `insertA` from the empty association list have
distinct keys. -/
def keysNodup (g : Grammar) : Prop := (g.map Prod.fst).Nodup

theorem keysNodup_insertA {α β : Type} [DecidableEq α] (d : List (α × β)) (k : α) (v : β)
    (hd : (d.map Prod.fst).Nodup) : ((insertA d k v).map Prod.fst).Nodup := by
  induction d with
  | nil => simp [insertA]
  | cons kv rest ih =>
      rw [insertA]
      split
      · next hkv =>
          simp only [List.map_cons] at hd ⊢
          rw [List.nodup_cons] at hd ⊢
          refine ⟨?_, hd.2⟩
          rw [← hkv]
          exact hd.1
      · next hkv =>
          simp only [List.map_cons] at hd ⊢
          rw [List.nodup_cons] at hd ⊢
          refine ⟨?_, ih hd.2⟩
          intro hc
          rcases mem_keys_insertA rest k v kv.1 hc with h1 | h1
          · exact hkv h1
          · exact hd.1 h1

theorem keysNodup_updateA {α β : Type} [DecidableEq α] (h d : List (α × β))
    (hd : (d.map Prod.fst).Nodup) : ((updateA d h).map Prod.fst).Nodup := by
  rw [updateA]
  exact foldl_preserve (fun d : List (α × β) => (d.map Prod.fst).Nodup)
    (fun _ => True) _ (fun b a hb _ => keysNodup_insertA b a.1 a.2 hb) h
    (fun _ _ => trivial) d hd

theorem lookup_of_mem_nodup {α β : Type} [DecidableEq α] (d : List (α × β))
    (hd : (d.map Prod.fst).Nodup) (kv : α × β) (hkv : kv ∈ d) :
    lookupA d kv.1 = some kv.2 := by
  induction d with
  | nil => exact absurd hkv (List.not_mem_nil kv)
  | cons kv0 rest ih =>
      rw [lookupA]
      simp only [List.map_cons] at hd
      rw [List.nodup_cons] at hd
      rcases List.mem_cons.mp hkv with h1 | h1
      · rw [h1, if_pos rfl]
      · have hne : kv0.1 ≠ kv.1 := by
          intro hc
          exact hd.1 (by rw [hc]; exact List.mem_map_of_mem Prod.fst h1)
        rw [if_neg hne]
        exact ih hd.2 h1

theorem stitchList_preserve (levels : List (List Str)) :
    ∀ (lvl : List Str) (g g' : Grammar),
      stitchList levels g lvl = .ok g' →
      (∀ x ∈ lvl, x ≠ []) →
      (keysNodup g → keysNodup g') ∧ (keysLong g → keysLong g') := by
  intro lvl
  induction lvl with
  | nil =>
      intro g g' h _
      injection h with h'
      subst h'
      exact ⟨id, id⟩
  | cons s rest ih =>
      intro g g' h hels
      rw [stitchList] at h
      by_cases hs1 : s.length = 1
      · rw [if_pos hs1] at h
        exact ih g g' h (fun x hx => hels x (List.mem_cons_of_mem _ hx))
      · rw [if_neg hs1] at h
        have h2 : (match stitchLevels (insertA g s []) levels s [] with
            | Except.error msg => Except.error msg
            | Except.ok (rhs, sRem) => stitchList levels
                (insertA (insertA g s []) s (rhs ++ List.map (fun c => [c]) sRem)) rest)
            = Except.ok g' := h
        clear h
        split at h2
        · simp at h2
        · next rhs sRem _ =>
            have hs2 : 2 ≤ s.length := by
              have := List.length_pos.mpr (hels s (List.mem_cons_self _ _))
              omega
            have hrec := ih _ g' h2 (fun x hx => hels x (List.mem_cons_of_mem _ hx))
            constructor
            · intro hg
              exact hrec.1 (keysNodup_insertA _ s _ (keysNodup_insertA _ s [] hg))
            · intro hg
              exact hrec.2 (insertA_keysLong _ s _ (insertA_keysLong _ s [] hg hs2) hs2)

theorem stitchAll_preserve :
    ∀ (Cs : List (List Str)) (g gf : Grammar),
      stitchAll g Cs = .ok gf → levelsGood Cs →
      (keysNodup g → keysNodup gf) ∧ (keysLong g → keysLong gf) := by
  intro Cs
  induction Cs with
  | nil =>
      intro g gf h _
      injection h with h'
      subst h'
      exact ⟨id, id⟩
  | cons C rest ih =>
      intro g gf h hCs
      rw [stitchAll] at h
      split at h
      · simp at h
      · next g2 hsl =>
          have h1 := stitchList_preserve rest C g g2 hsl
            (hCs C (List.mem_cons_self _ _)).2
          have h2 := ih g2 gf h (fun C' hC' => hCs C' (List.mem_cons_of_mem _ hC'))
          exact ⟨fun hg => h2.1 (h1.1 hg), fun hg => h2.2 (h1.2 hg)⟩

theorem lehmanBase_good (S : Str) (hS : S ≠ []) :
    lenDecreasing (updateA ((generateCs S).foldl
        (fun g C => updateA g (generateSubstringConstructionGrammar C)) [])
      (generateSubstringConstructionGrammar (S.map (fun c => [c])))) ∧
    keysLong (updateA ((generateCs S).foldl
        (fun g C => updateA g (generateSubstringConstructionGrammar C)) [])
      (generateSubstringConstructionGrammar (S.map (fun c => [c])))) ∧
    keysNodup (updateA ((generateCs S).foldl
        (fun g C => updateA g (generateSubstringConstructionGrammar C)) [])
      (generateSubstringConstructionGrammar (S.map (fun c => [c])))) := by
  have hlv := generateCs_good S hS
  have hchars : ∀ x ∈ S.map (fun c => [c]), x ≠ [] := by
    intro x hx
    rcases List.mem_map.mp hx with ⟨c, _, rfl⟩
    simp
  have hcg := generateSubstringConstructionGrammar_good _ hchars
  have hfold := foldl_preserve
    (fun g : Grammar => lenDecreasing g ∧ keysLong g ∧ keysNodup g)
    (fun C : List Str => ∀ x ∈ C, x ≠ [])
    (fun g C => updateA g (generateSubstringConstructionGrammar C))
    (fun g C hP hC => by
      have hg := generateSubstringConstructionGrammar_good C hC
      exact ⟨updateA_lenDecreasing _ _ hP.1 hg.1, updateA_keysLong _ _ hP.2.1 hg.2,
        keysNodup_updateA _ _ hP.2.2⟩)
    (generateCs S) (fun C hC => (hlv C hC).2) []
    ⟨fun kv hkv => absurd hkv (List.not_mem_nil kv),
     fun kv hkv => absurd hkv (List.not_mem_nil kv),
     by simp [keysNodup]⟩
  exact ⟨updateA_lenDecreasing _ _ hfold.1 hcg.1, updateA_keysLong _ _ hfold.2.1 hcg.2,
    keysNodup_updateA _ _ hfold.2.2⟩

/-- Every production of a successfully returned Lehman1 grammar is strictly
length-decreasing: untouched keys keep their substring-construction
production, and every stitched key keeps the production written by the last
(deepest) stitching of that key, whose walk only ranges over strictly finer
levels that do not contain the key. -/
theorem getLehman1Grammar_lenDecreasing (S : Str) (hS : 1 ≤ S.length) (G : Grammar)
    (h : getLehman1Grammar S = .ok G) : lenDecreasing G := by
  have hSne : S ≠ [] := by
    intro hc
    rw [hc] at hS
    simp at hS
  rw [getLehman1Grammar] at h
  split at h
  · simp at h
  · next g hsa =>
      split at h
      · injection h with h'
        subst h'
        have hbase := lehmanBase_good S hSne
        have hlv := generateCs_good S hSne
        have hpres := stitchAll_preserve (generateCs S) _ g hsa hlv
        have hnodup : keysNodup g := hpres.1 hbase.2.2
        have hlong : keysLong g := hpres.2 hbase.2.1
        intro kv hkv
        have hk2 : 2 ≤ kv.1.length := hlong kv hkv
        have hlook : lookupA g kv.1 = some kv.2 := lookup_of_mem_nodup g hnodup kv hkv
        rcases stitchAll_lookup (generateCs S) _ g kv.1 hk2 hsa with ⟨_, heq⟩ |
          ⟨rest, gx, rhs, sRem, hnot, hsub, hst, hlook2⟩
        · rw [heq] at hlook
          exact hbase.1 (kv.1, kv.2) (lookupA_mem _ _ _ hlook)
        · have hv : kv.2 = rhs ++ sRem.map (fun c => [c]) := by
            rw [hlook] at hlook2
            injection hlook2
          have hinv := stitchLevels_inv rest (insertA gx kv.1 []) kv.1 [] kv.1
            (rhs, sRem) (fun C' hC' => (hlv C' (hsub C' hC')).2) hnot (Or.inl rfl)
            (fun m hm => absurd hm (List.not_mem_nil m)) hst
          intro m hm
          rw [hv] at hm
          rcases List.mem_append.mp hm with h1 | h1
          · exact hinv.1 m h1
          · rcases List.mem_map.mp h1 with ⟨c, _, rfl⟩
            simp only [List.length_cons, List.length_nil]
            omega
      · simp at h

/-- Claim C5: for every string `S` with `|S| ≥ 1` and each of the four
algorithms, the returned grammar is acyclic — the relation "`N` has `M`
(of length at least 2) among its right-hand-side symbols" has no direct or
transitive cycle; in particular no production has its own left-hand side
among its right-hand-side symbols. Every production of every returned
grammar splits its key into strictly shorter symbols (for Lehman1, the
production that survives for a stitched key is the one written by the
deepest stitching pass, whose walk ranges only over strictly finer levels
not containing the key), so every derivation step strictly decreases
length and no derivation returns to its start. -/
theorem grammars_acyclic (S : Str) (hS : 1 ≤ S.length) :
    (¬ ∃ N, Relation.TransGen (grammarStep (getBisectionGrammar S)) N N) ∧
    (∀ G, getExhaustiveGrammar S = some G →
      ¬ ∃ N, Relation.TransGen (grammarStep G) N N) ∧
    (∀ G, getSakamotoGrammar S = some G →
      ¬ ∃ N, Relation.TransGen (grammarStep G) N N) ∧
    (∀ G, getLehman1Grammar S = .ok G →
      ¬ ∃ N, Relation.TransGen (grammarStep G) N N) :=
  ⟨acyclic_of_lenDecreasing _ (getBisectionGrammar_lenDecreasing S),
   fun G hG => acyclic_of_lenDecreasing G (getExhaustiveGrammar_lenDecreasing S G hG),
   fun G hG => acyclic_of_lenDecreasing G (getSakamotoGrammar_lenDecreasing S G hG),
   fun G hG => acyclic_of_lenDecreasing G (getLehman1Grammar_lenDecreasing S hS G hG)⟩

/-- Witness for C5 at the concrete input `"ab"`. -/
theorem grammars_acyclic_witness :
    ¬ ∃ N, Relation.TransGen (grammarStep (getBisectionGrammar (strOf "ab"))) N N :=
  (grammars_acyclic (strOf "ab") (by decide)).1

/-! ## Expansion correctness (C1)

The expander is described by the spec only (section 4.1; src/ has no
expander), so it is modelled from the spec's words: starting from a
symbol, every symbol of length at least 2 is replaced by its right-hand
side until only single characters remain; a symbol of length at least 2
that is not a grammar key is the spec's `UnresolvedNonterminal` failure,
modelled as `none`, as is fuel exhaustion (which cannot happen on an
acyclic grammar with enough fuel). -/

def expandSym : Nat → Grammar → Str → Option Str
  | 0, _, _ => none
  | fuel + 1, G, s =>
      if s.length ≤ 1 then some s
      else
        match lookupA G s with
        | none => none
        | some rhs => (rhs.mapM (expandSym fuel G)).map List.flatten

/-- Every production concatenates exactly to its key. -/
def prodConcat (g : Grammar) : Prop := ∀ kv ∈ g, kv.2.flatten = kv.1

/-- Every right-hand-side symbol of length at least 2 is a key (the spec's
closure invariant). -/
def closedG (g : Grammar) : Prop :=
  ∀ kv ∈ g, ∀ m ∈ kv.2, m.length ≤ 1 ∨ hasKeyA g m = true

theorem mapM_self (f : Str → Option Str) :
    ∀ l : List Str, (∀ x ∈ l, f x = some x) → l.mapM f = some l := by
  intro l
  induction l with
  | nil => intro _; rfl
  | cons x xs ih =>
      intro h
      rw [List.mapM_cons, h x (List.mem_cons_self _ _),
        ih (fun y hy => h y (List.mem_cons_of_mem _ hy))]
      rfl

/-- On a strictly length-decreasing, concatenating, closed grammar, any
symbol that is short or a key expands to itself with fuel beyond its
length. -/
theorem expandSym_self (G : Grammar) (hdec : lenDecreasing G) (hcat : prodConcat G)
    (hclo : closedG G) :
    ∀ (n : Nat) (s : Str), s.length < n →
      (s.length ≤ 1 ∨ hasKeyA G s = true) → expandSym n G s = some s := by
  intro n
  induction n with
  | zero =>
      intro s hs _
      omega
  | succ n ih =>
      intro s hs hside
      rw [expandSym]
      by_cases h1 : s.length ≤ 1
      · rw [if_pos h1]
      · rw [if_neg h1]
        have hkey : hasKeyA G s = true := by
          rcases hside with h2 | h2
          · omega
          · exact h2
        rw [hasKeyA] at hkey
        rcases hl : lookupA G s with _ | rhs
        · rw [hl] at hkey
          simp at hkey
        · show (rhs.mapM (expandSym n G)).map List.flatten = some s
          have hmem := lookupA_mem G s rhs hl
          have hmap : rhs.mapM (expandSym n G) = some rhs := by
            refine mapM_self _ rhs ?_
            intro m hm
            refine ih m ?_ (hclo (s, rhs) hmem m hm)
            have h3 : m.length < s.length := hdec (s, rhs) hmem m hm
            omega
          rw [hmap]
          have hc : rhs.flatten = s := hcat (s, rhs) hmem
          show some rhs.flatten = some s
          rw [hc]

theorem insertA_prodConcat (g : Grammar) (k : Str) (v : List Str)
    (hg : prodConcat g) (hv : v.flatten = k) : prodConcat (insertA g k v) := by
  intro kv hkv
  rcases mem_insertA g k v kv hkv with h1 | h1
  · rw [h1]
    exact hv
  · exact hg kv h1

theorem updateA_prodConcat (g h : Grammar) (hg : prodConcat g)
    (hh : prodConcat h) : prodConcat (updateA g h) := by
  intro kv hkv
  rcases mem_updateA h g kv hkv with h1 | h1
  · exact hg kv h1
  · exact hh kv h1

theorem hasKeyA_insertA_self {α β : Type} [DecidableEq α] (d : List (α × β))
    (k : α) (v : β) : hasKeyA (insertA d k v) k = true := by
  rw [hasKeyA, lookupA_insertA, if_pos rfl]
  rfl

theorem hasKeyA_insertA_mono {α β : Type} [DecidableEq α] (d : List (α × β))
    (k a : α) (v : β) (h : hasKeyA d a = true) : hasKeyA (insertA d k v) a = true := by
  rw [hasKeyA, lookupA_insertA] at *
  split
  · rfl
  · exact h

theorem hasKeyA_updateA_left {α β : Type} [DecidableEq α] (h d : List (α × β))
    (a : α) (ha : hasKeyA d a = true) : hasKeyA (updateA d h) a = true := by
  rw [updateA]
  exact foldl_preserve (fun d : List (α × β) => hasKeyA d a = true) (fun _ => True) _
    (fun b kv hb _ => hasKeyA_insertA_mono b kv.1 a kv.2 hb) h (fun _ _ => trivial) d ha

theorem hasKeyA_updateA_right {α β : Type} [DecidableEq α] :
    ∀ (h d : List (α × β)) (a : α), hasKeyA h a = true →
      hasKeyA (updateA d h) a = true := by
  intro h
  induction h with
  | nil =>
      intro d a ha
      rw [hasKeyA, lookupA] at ha
      simp at ha
  | cons kv rest ih =>
      intro d a ha
      rw [updateA, List.foldl_cons]
      rw [hasKeyA, lookupA] at ha
      by_cases hk : kv.1 = a
      · rw [← updateA]
        refine hasKeyA_updateA_left rest _ a ?_
        rw [hk]
        exact hasKeyA_insertA_self d a kv.2
      · rw [if_neg hk] at ha
        exact ih (insertA d kv.1 kv.2) a ha

/-! ### Expansion for bisection: concatenation, closure, start key -/

theorem bisectionRecurse_prodConcat (n : Nat) :
    ∀ S : Str, S.length ≤ n → ∀ g : Grammar,
      prodConcat g → prodConcat (bisectionRecurse S g) := by
  induction n with
  | zero =>
      intro S hS g hg
      rw [bisectionRecurse, dif_pos (show S.length ≤ 1 by omega)]
      exact hg
  | succ n ih =>
      intro S hS g hg
      by_cases h1 : S.length ≤ 1
      · rw [bisectionRecurse, dif_pos h1]
        exact hg
      · rw [bisectionRecurse, dif_neg h1]
        show prodConcat (bisectionRecurse (S.drop (S.length / 2))
          (bisectionRecurse (S.take (S.length / 2))
            (insertA g S [S.take (S.length / 2), S.drop (S.length / 2)])))
        refine ih _ (by simp only [List.length_drop]; omega) _ ?_
        refine ih _ (by simp only [List.length_take]; omega) _ ?_
        refine insertA_prodConcat g _ _ hg ?_
        simp

theorem bisectionRecurse_closure (n : Nat) :
    ∀ S : Str, S.length ≤ n → ∀ g : Grammar,
      (∀ a : Str, hasKeyA g a = true → hasKeyA (bisectionRecurse S g) a = true) ∧
      (2 ≤ S.length → hasKeyA (bisectionRecurse S g) S = true) ∧
      (∀ kv ∈ bisectionRecurse S g, kv ∈ g ∨
        ∀ m ∈ kv.2, m.length ≤ 1 ∨ hasKeyA (bisectionRecurse S g) m = true) := by
  induction n with
  | zero =>
      intro S hS g
      rw [bisectionRecurse, dif_pos (show S.length ≤ 1 by omega)]
      exact ⟨fun a ha => ha, fun h2 => by omega, fun kv hkv => Or.inl hkv⟩
  | succ n ih =>
      intro S hS g
      by_cases h1 : S.length ≤ 1
      · rw [bisectionRecurse, dif_pos h1]
        exact ⟨fun a ha => ha, fun h2 => by omega, fun kv hkv => Or.inl hkv⟩
      · have hstep : bisectionRecurse S g = bisectionRecurse (S.drop (S.length / 2))
            (bisectionRecurse (S.take (S.length / 2))
              (insertA g S [S.take (S.length / 2), S.drop (S.length / 2)])) := by
          rw [bisectionRecurse, dif_neg h1]
        have htlen : (S.take (S.length / 2)).length ≤ n := by
          simp only [List.length_take]
          omega
        have hdlen : (S.drop (S.length / 2)).length ≤ n := by
          simp only [List.length_drop]
          omega
        have ihT := ih (S.take (S.length / 2)) htlen
          (insertA g S [S.take (S.length / 2), S.drop (S.length / 2)])
        have ihD := ih (S.drop (S.length / 2)) hdlen
          (bisectionRecurse (S.take (S.length / 2))
            (insertA g S [S.take (S.length / 2), S.drop (S.length / 2)]))
        rw [hstep]
        refine ⟨?_, ?_, ?_⟩
        · intro a ha
          exact ihD.1 a (ihT.1 a (hasKeyA_insertA_mono g S a _ ha))
        · intro _
          exact ihD.1 S (ihT.1 S (hasKeyA_insertA_self g S _))
        · intro kv hkv
          rcases ihD.2.2 kv hkv with h2 | h2
          · rcases ihT.2.2 kv h2 with h3 | h3
            · rcases mem_insertA g S _ kv h3 with h4 | h4
              · right
                rw [h4]
                intro m hm
                simp only [List.mem_cons, List.not_mem_nil, or_false] at hm
                rcases hm with h5 | h5
                · by_cases h6 : 2 ≤ (S.take (S.length / 2)).length
                  · right
                    rw [h5]
                    exact ihD.1 _ (ihT.2.1 h6)
                  · left
                    rw [h5]
                    omega
                · by_cases h6 : 2 ≤ (S.drop (S.length / 2)).length
                  · right
                    rw [h5]
                    exact ihD.2.1 h6
                  · left
                    rw [h5]
                    omega
              · exact Or.inl h4
            · right
              intro m hm
              rcases h3 m hm with h5 | h5
              · exact Or.inl h5
              · exact Or.inr (ihD.1 m h5)
          · exact Or.inr h2

theorem getBisectionGrammar_expansion_facts (S : Str) :
    prodConcat (getBisectionGrammar S) ∧ closedG (getBisectionGrammar S) ∧
    (2 ≤ S.length → hasKeyA (getBisectionGrammar S) S = true) := by
  rw [getBisectionGrammar]
  have h := bisectionRecurse_closure S.length S (Nat.le_refl _) []
  refine ⟨bisectionRecurse_prodConcat S.length S (Nat.le_refl _) []
    (fun kv hkv => absurd hkv (List.not_mem_nil kv)), ?_, h.2.1⟩
  intro kv hkv
  rcases h.2.2 kv hkv with h1 | h1
  · exact absurd h1 (List.not_mem_nil kv)
  · exact h1

/-! ### Expansion for exhaustive: concatenation, closure, start key -/

theorem generateAllGrammars_prodConcat (n : Nat) :
    ∀ goal : Str, goal.length ≤ n → ∀ G ∈ generateAllGrammars goal, prodConcat G := by
  induction n with
  | zero =>
      intro goal hlen G hG
      rw [generateAllGrammars, if_neg (by omega), (show goal.length - 1 = 0 by omega)] at hG
      simp at hG
  | succ n ih =>
      intro goal hlen G hG
      rw [generateAllGrammars] at hG
      by_cases h1 : goal.length = 1
      · rw [if_pos h1] at hG
        rw [List.mem_singleton] at hG
        rw [hG]
        intro kv hkv
        exact absurd hkv (List.not_mem_nil kv)
      · rw [if_neg h1] at hG
        rw [List.mem_flatten] at hG
        rcases hG with ⟨outer, houter, hGo⟩
        rw [List.mem_map] at houter
        rcases houter with ⟨ii, _, rfl⟩
        simp only [List.mem_flatten, List.mem_map] at hGo
        rcases hGo with ⟨inner, ⟨g, hg, rfl⟩, hGi⟩
        rw [List.mem_map] at hGi
        rcases hGi with ⟨h2, hh2, rfl⟩
        intro kv hkv
        rcases mem_updateA g _ kv hkv with hk1 | hk1
        · rcases mem_updateA h2 _ kv hk1 with hk2 | hk2
          · rw [List.mem_singleton] at hk2
            rw [hk2]
            simp
          · refine ih (goal.drop ii.1) ?_ h2 hh2 kv hk2
            simp only [List.length_drop]
            have := List.mem_range'_1.mp ii.2
            omega
        · refine ih (goal.take ii.1) ?_ g hg kv hk1
          simp only [List.length_take]
          have := List.mem_range'_1.mp ii.2
          omega

theorem generateAllGrammars_closure (n : Nat) :
    ∀ goal : Str, goal.length ≤ n → ∀ G ∈ generateAllGrammars goal,
      closedG G ∧ (2 ≤ goal.length → hasKeyA G goal = true) := by
  induction n with
  | zero =>
      intro goal hlen G hG
      rw [generateAllGrammars, if_neg (by omega), (show goal.length - 1 = 0 by omega)] at hG
      simp at hG
  | succ n ih =>
      intro goal hlen G hG
      rw [generateAllGrammars] at hG
      by_cases h1 : goal.length = 1
      · rw [if_pos h1] at hG
        rw [List.mem_singleton] at hG
        rw [hG]
        exact ⟨fun kv hkv => absurd hkv (List.not_mem_nil kv), fun h2 => by omega⟩
      · rw [if_neg h1] at hG
        rw [List.mem_flatten] at hG
        rcases hG with ⟨outer, houter, hGo⟩
        rw [List.mem_map] at houter
        rcases houter with ⟨ii, _, rfl⟩
        have hrange := List.mem_range'_1.mp ii.2
        simp only [List.mem_flatten, List.mem_map] at hGo
        rcases hGo with ⟨inner, ⟨g, hg, rfl⟩, hGi⟩
        rw [List.mem_map] at hGi
        rcases hGi with ⟨h2, hh2, rfl⟩
        have ihL := ih (goal.take ii.1) (by simp only [List.length_take]; omega) g hg
        have ihR := ih (goal.drop ii.1) (by simp only [List.length_drop]; omega) h2 hh2
        have hbasekey : hasKeyA [(goal, [goal.take ii.1, goal.drop ii.1])] goal = true := by
          rw [hasKeyA, lookupA, if_pos rfl]
          rfl
        have hGkey : hasKeyA (updateA (updateA [(goal, [goal.take ii.1, goal.drop ii.1])] h2) g)
            goal = true :=
          hasKeyA_updateA_left g _ goal (hasKeyA_updateA_left h2 _ goal hbasekey)
        refine ⟨?_, fun _ => hGkey⟩
        intro kv hkv
        rcases mem_updateA g _ kv hkv with hk1 | hk1
        · rcases mem_updateA h2 _ kv hk1 with hk2 | hk2
          · rw [List.mem_singleton] at hk2
            rw [hk2]
            intro m hm
            simp only [List.mem_cons, List.not_mem_nil, or_false] at hm
            rcases hm with h5 | h5
            · by_cases h6 : 2 ≤ (goal.take ii.1).length
              · right
                rw [h5]
                exact hasKeyA_updateA_right g _ _ (ihL.2 h6)
              · left
                rw [h5]
                omega
            · by_cases h6 : 2 ≤ (goal.drop ii.1).length
              · right
                rw [h5]
                exact hasKeyA_updateA_left g _ _
                  (hasKeyA_updateA_right h2 _ _ (ihR.2 h6))
              · left
                rw [h5]
                omega
          · intro m hm
            rcases ihR.1 kv hk2 m hm with h5 | h5
            · exact Or.inl h5
            · exact Or.inr (hasKeyA_updateA_left g _ _
                (hasKeyA_updateA_right h2 _ _ h5))
        · intro m hm
          rcases ihL.1 kv hk1 m hm with h5 | h5
          · exact Or.inl h5
          · exact Or.inr (hasKeyA_updateA_right g _ _ h5)

/-! ### Expansion for Lehman1: concatenation, closure, start key -/

theorem subConstrRecurse_prodConcat (n : Nat) :
    ∀ S : List Str, S.length ≤ n → ∀ g : Grammar,
      prodConcat g → prodConcat (subConstrRecurse S g) := by
  induction n with
  | zero =>
      intro S hS g hg
      rw [subConstrRecurse, dif_pos (show S.length ≤ 1 by omega)]
      exact hg
  | succ n ih =>
      intro S hS g hg
      by_cases h1 : S.length ≤ 1
      · rw [subConstrRecurse, dif_pos h1]
        exact hg
      · rw [subConstrRecurse, dif_neg h1]
        have hlen2 : 2 ≤ S.length := by omega
        have hfold1 : prodConcat ((List.range (S.length / 2 - 1)).foldl
            (fun g i =>
              insertA g ((S.drop i).take (S.length / 2 - i)).flatten
                [S.getD i [], ((S.drop (i + 1)).take (S.length / 2 - (i + 1))).flatten])
            g) := by
          refine foldl_preserve prodConcat
            (fun i : Nat => i < S.length / 2 - 1) _ ?_ _
            (fun i hi => List.mem_range.mp hi) g hg
          intro g i hP hi
          have hiS : i < S.length := by omega
          have hdec : ((S.drop i).take (S.length / 2 - i)).flatten
              = S[i] ++ ((S.drop (i + 1)).take (S.length / 2 - i - 1)).flatten := by
            rw [drop_take_cons S i (S.length / 2 - i) hiS (by omega), List.flatten_cons]
          have harg : S.length / 2 - (i + 1) = S.length / 2 - i - 1 :=
            (Nat.sub_sub _ _ _).symm
          refine insertA_prodConcat g _ _ hP ?_
          simp only [List.flatten_cons, List.flatten_nil, List.append_nil]
          rw [List.getD_eq_getElem S [] hiS, harg, hdec]
        refine ih (S.drop (S.length / 2)) (by rw [List.length_drop]; omega) _ ?_
        refine ih (S.take (S.length / 2)) (by rw [List.length_take]; omega) _ ?_
        refine foldl_preserve prodConcat
          (fun i : Nat => S.length / 2 + 1 ≤ i ∧ i < S.length) _ ?_ _
          (fun i hi => by
            have := List.mem_range'_1.mp hi
            omega) _ hfold1
        intro g2 i hP hi
        have hiS : i < S.length := hi.2
        have hsnoc : (S.drop (S.length / 2)).take (i + 1 - S.length / 2)
            = (S.drop (S.length / 2)).take (i - S.length / 2) ++ [S.getD i []] := by
          rw [show i + 1 - S.length / 2 = (i - S.length / 2) + 1 from by omega,
            List.take_succ]
          congr 1
          rw [List.getElem?_drop]
          rw [show S.length / 2 + (i - S.length / 2) = i from by omega]
          rw [List.getElem?_eq_getElem hiS, List.getD_eq_getElem S [] hiS]
          rfl
        have hdec : ((S.drop (S.length / 2)).take (i + 1 - S.length / 2)).flatten
            = ((S.drop (S.length / 2)).take (i - S.length / 2)).flatten
              ++ S.getD i [] := by
          rw [hsnoc, List.flatten_append]
          simp
        refine insertA_prodConcat g2 _ _ hP ?_
        simp only [List.flatten_cons, List.flatten_nil, List.append_nil]
        rw [hdec]

theorem flatten_map_singleton (s : Str) : (s.map (fun c => [c])).flatten = s := by
  induction s with
  | nil => rfl
  | cons c rest ih => simp [ih]

/-- The stitching walk preserves concatenation: the symbols collected so
far followed by the remainder always spell the segment being stitched. -/
theorem stitchLevels_concat :
    ∀ (levels : List (List Str)) (g0 : Grammar) (sRem : Str) (rhs : List Str)
      (out : List Str × Str),
      stitchLevels g0 levels sRem rhs = .ok out →
      out.1.flatten ++ out.2 = rhs.flatten ++ sRem := by
  intro levels
  induction levels with
  | nil =>
      intro g0 sRem rhs out h
      rw [stitchLevels] at h
      injection h with h'
      rw [← h']
  | cons C rest ih =>
      intro g0 sRem rhs out h
      rw [stitchLevels] at h
      split at h
      · simp at h
      · next start e used heq =>
          have hspec := findLongestPref_spec sRem C start e used heq
          obtain ⟨hstartC, heC, hse, hused, husedle, hpref⟩ := hspec
          by_cases hc1 : start = e
          · rw [if_pos hc1] at h
            exact ih g0 sRem rhs out h
          · rw [if_neg hc1] at h
            have hlt : start < e := by omega
            have hSEG : sRem.take used = ((C.drop start).take (e - start)).flatten := by
              conv_lhs => rw [← hpref]
              rw [List.take_take, min_eq_left husedle]
              have hsplit : (C.drop start).flatten
                  = ((C.drop start).take (e - start)).flatten
                    ++ ((C.drop start).drop (e - start)).flatten := by
                conv_lhs => rw [← List.take_append_drop (e - start) (C.drop start)]
                rw [List.flatten_append]
              rw [hsplit]
              have hlenSEG : (((C.drop start).take (e - start)).flatten).length = used := by
                rw [List.length_flatten]
                omega
              rw [← hlenSEG, List.take_left]
            have hremsplit : rhs.flatten ++ sRem
                = rhs.flatten ++ ((C.drop start).take (e - start)).flatten
                  ++ sRem.drop used := by
              conv_lhs => rw [← List.take_append_drop used sRem]
              rw [hSEG, List.append_assoc]
            by_cases hc2 : start + 1 = e
            · rw [if_pos hc2] at h
              have hresult := ih g0 _ _ out h
              rw [hresult, List.flatten_append, hremsplit]
              have h1seg : (C.drop start).take (e - start) = [C.getD start []] := by
                rw [show e - start = 1 from by omega,
                  drop_take_cons C start 1 hstartC (by omega)]
                rw [List.getD_eq_getElem C [] hstartC]
                rfl
              rw [h1seg]
            · rw [if_neg hc2] at h
              by_cases hc3 : start + 2 = e
              · rw [if_pos hc3] at h
                have hresult := ih g0 _ _ out h
                rw [hresult, List.flatten_append, hremsplit]
                have hs1C : start + 1 < C.length := by omega
                have h2seg : (C.drop start).take (e - start)
                    = [C.getD start [], C.getD (start + 1) []] := by
                  rw [drop_take_cons C start (e - start) hstartC (by omega),
                    drop_take_cons C (start + 1) (e - start - 1) hs1C (by omega)]
                  rw [show e - start - 1 - 1 = 0 from by omega]
                  rw [List.getD_eq_getElem C [] hstartC,
                    List.getD_eq_getElem C [] hs1C]
                  rfl
                rw [h2seg]
              · rw [if_neg hc3] at h
                have h3le : start + 3 ≤ e := by omega
                have hcsb := chooseSplit_bounds g0 C start e h3le
                have hresult := ih g0 _ _ out h
                rw [hresult, List.flatten_append, hremsplit]
                have hsegsplit : (C.drop start).take (e - start)
                    = (C.drop start).take (chooseSplit g0 C start e - start)
                      ++ (C.drop (chooseSplit g0 C start e)).take
                        (e - chooseSplit g0 C start e) :=
                  slice_split C start (chooseSplit g0 C start e) e (by omega) (by omega)
                rw [hsegsplit, List.flatten_append]
                simp [List.append_assoc]

theorem closureOk_closedG (g : Grammar) (h : closureOk g = true) : closedG g := by
  rw [closureOk, List.all_eq_true] at h
  intro kv hkv m hm
  have h2 := h kv hkv
  rw [List.all_eq_true] at h2
  have h3 := h2 m hm
  simp only [Bool.or_eq_true, decide_eq_true_eq] at h3
  exact h3

theorem generateCsLoop_pre (k : Nat) :
    ∀ Cs : List (List Str), ∃ tail, generateCsLoop k Cs = Cs ++ tail := by
  induction k using Nat.strong_induction_on with
  | _ k ih =>
      intro Cs
      rw [generateCsLoop]
      by_cases hk : k < 2
      · rw [if_pos hk]
        exact ⟨[], (List.append_nil Cs).symm⟩
      · rw [if_neg hk]
        obtain ⟨t', ht'⟩ := ih (k / 2) (by omega)
          (Cs ++ [splitTooBigs (blumSmallestSuperstringAndBreaking (Cs.getLastD [])) k])
        exact ⟨[splitTooBigs (blumSmallestSuperstringAndBreaking (Cs.getLastD [])) k] ++ t',
          by rw [ht', List.append_assoc]⟩

theorem stitchList_key (levels : List (List Str)) :
    ∀ (lvl : List Str) (g g' : Grammar),
      stitchList levels g lvl = .ok g' →
      (∀ a, hasKeyA g a = true → hasKeyA g' a = true) ∧
      (∀ s ∈ lvl, s.length ≠ 1 → hasKeyA g' s = true) := by
  intro lvl
  induction lvl with
  | nil =>
      intro g g' h
      injection h with h'
      subst h'
      exact ⟨fun a ha => ha, fun s hs => absurd hs (List.not_mem_nil s)⟩
  | cons s rest ih =>
      intro g g' h
      rw [stitchList] at h
      by_cases hs1 : s.length = 1
      · rw [if_pos hs1] at h
        have hrec := ih g g' h
        refine ⟨hrec.1, ?_⟩
        intro t ht htl
        rcases List.mem_cons.mp ht with h1 | h1
        · rw [h1] at htl
          exact absurd hs1 htl
        · exact hrec.2 t h1 htl
      · rw [if_neg hs1] at h
        have h2 : (match stitchLevels (insertA g s []) levels s [] with
            | Except.error msg => Except.error msg
            | Except.ok (rhs, sRem) => stitchList levels
                (insertA (insertA g s []) s (rhs ++ List.map (fun c => [c]) sRem)) rest)
            = Except.ok g' := h
        clear h
        split at h2
        · simp at h2
        · next rhs sRem _ =>
            have hrec := ih _ g' h2
            have hkeyS : hasKeyA (insertA (insertA g s []) s
                (rhs ++ List.map (fun c => [c]) sRem)) s = true :=
              hasKeyA_insertA_self _ s _
            refine ⟨?_, ?_⟩
            · intro a ha
              exact hrec.1 a (hasKeyA_insertA_mono _ s a _
                (hasKeyA_insertA_mono _ s a _ ha))
            · intro t ht htl
              rcases List.mem_cons.mp ht with h1 | h1
              · rw [h1]
                exact hrec.1 s hkeyS
              · exact hrec.2 t h1 htl

theorem stitchAll_keys_mono :
    ∀ (Cs : List (List Str)) (g gf : Grammar),
      stitchAll g Cs = .ok gf →
      ∀ a, hasKeyA g a = true → hasKeyA gf a = true := by
  intro Cs
  induction Cs with
  | nil =>
      intro g gf h a ha
      injection h with h'
      subst h'
      exact ha
  | cons C rest ih =>
      intro g gf h a ha
      rw [stitchAll] at h
      split at h
      · simp at h
      · next g2 hsl =>
          exact ih g2 gf h a ((stitchList_key rest C g g2 hsl).1 a ha)

theorem lehmanBase_concat (S : Str) :
    prodConcat (updateA ((generateCs S).foldl
        (fun g C => updateA g (generateSubstringConstructionGrammar C)) [])
      (generateSubstringConstructionGrammar (S.map (fun c => [c])))) := by
  have hfold := foldl_preserve prodConcat (fun _ : List Str => True)
    (fun g C => updateA g (generateSubstringConstructionGrammar C))
    (fun g C hP _ => by
      refine updateA_prodConcat _ _ hP ?_
      rw [generateSubstringConstructionGrammar]
      exact subConstrRecurse_prodConcat C.length C (Nat.le_refl _) []
        (fun kv hkv => absurd hkv (List.not_mem_nil kv)))
    (generateCs S) (fun _ _ => trivial) []
    (fun kv hkv => absurd hkv (List.not_mem_nil kv))
  refine updateA_prodConcat _ _ hfold ?_
  rw [generateSubstringConstructionGrammar]
  exact subConstrRecurse_prodConcat _ _ (Nat.le_refl _) []
    (fun kv hkv => absurd hkv (List.not_mem_nil kv))

theorem getLehman1Grammar_expansion_facts (S : Str) (hS : 1 ≤ S.length) (G : Grammar)
    (h : getLehman1Grammar S = .ok G) :
    prodConcat G ∧ closedG G ∧ (2 ≤ S.length → hasKeyA G S = true) := by
  have hSne : S ≠ [] := by
    intro hc
    rw [hc] at hS
    simp at hS
  rw [getLehman1Grammar] at h
  split at h
  · simp at h
  · next g hsa =>
      split at h
      · next hok =>
          injection h with h'
          subst h'
          have hbase := lehmanBase_good S hSne
          have hlv := generateCs_good S hSne
          have hpres := stitchAll_preserve (generateCs S) _ g hsa hlv
          have hnodup : keysNodup g := hpres.1 hbase.2.2
          have hlong : keysLong g := hpres.2 hbase.2.1
          refine ⟨?_, closureOk_closedG g hok, ?_⟩
          · intro kv hkv
            have hk2 : 2 ≤ kv.1.length := hlong kv hkv
            have hlook : lookupA g kv.1 = some kv.2 :=
              lookup_of_mem_nodup g hnodup kv hkv
            rcases stitchAll_lookup (generateCs S) _ g kv.1 hk2 hsa with ⟨_, heq⟩ |
              ⟨rest, gx, rhs, sRem, _, _, hst, hlook2⟩
            · rw [heq] at hlook
              exact lehmanBase_concat S (kv.1, kv.2) (lookupA_mem _ _ _ hlook)
            · have hv : kv.2 = rhs ++ sRem.map (fun c => [c]) := by
                rw [hlook] at hlook2
                injection hlook2
              have hcc := stitchLevels_concat rest (insertA gx kv.1 []) kv.1 [] (rhs, sRem) hst
              show kv.2.flatten = kv.1
              rw [hv, List.flatten_append, flatten_map_singleton]
              exact hcc
          · intro h2S
            obtain ⟨tail, htail⟩ := generateCsLoop_pre (2 ^ (Nat.clog 2 S.length - 1)) [[S]]
            have hCs : generateCs S = [S] :: tail := by
              rw [generateCs, htail]
              rfl
            rw [hCs] at hsa
            rw [stitchAll] at hsa
            split at hsa
            · simp at hsa
            · next g2 hsl =>
                refine stitchAll_keys_mono tail g2 g hsa S ?_
                exact (stitchList_key tail [S] _ g2 hsl).2 S (List.mem_singleton.mpr rfl)
                  (by omega)
      · simp at h

/-! ### Expansion for Sakamoto: the two-phase pair replacement merges each
occurrence in place and preserves the spelled string -/

/-- The second phase of `replaceSegment` (the `pop` loop), with the running
enumeration index made explicit. -/
def eraseGo (i : Nat) : List Nat → List Str → List Str
  | [], w => w
  | q :: qs, w => eraseGo (i + 1) qs (w.eraseIdx (q - i + 1))

/-- Reference form of the combined replacement: merge the two symbols at
each listed occurrence (original positions, ascending) into one. -/
def mergeAt : List Nat → List Str → Str → List Str
  | [], w, _ => w
  | l :: rest, w, v =>
      w.take l ++ v :: mergeAt (rest.map (fun x => x - (l + 2))) (w.drop (l + 2)) v
termination_by locs _ _ => locs.length
decreasing_by
  simp only [List.length_map, List.length_cons]
  omega

theorem enum_foldl_eraseGo :
    ∀ (qs : List Nat) (i : Nat) (w : List Str),
      (List.enumFrom i qs).foldl (fun wacc p => wacc.eraseIdx (p.2 - p.1 + 1)) w
        = eraseGo i qs w := by
  intro qs
  induction qs with
  | nil =>
      intro i w
      rfl
  | cons q qs' ih =>
      intro i w
      rw [List.enumFrom_cons, List.foldl_cons, eraseGo]
      exact ih (i + 1) _

theorem eraseGo_shift :
    ∀ (qs : List Nat) (i : Nat) (w : List Str),
      eraseGo (i + 1) qs w = eraseGo i (qs.map (fun x => x - 1)) w := by
  intro qs
  induction qs with
  | nil =>
      intro i w
      rfl
  | cons q qs' ih =>
      intro i w
      rw [eraseGo, List.map_cons, eraseGo]
      rw [show q - 1 - i + 1 = q - (i + 1) + 1 from by omega]
      exact ih (i + 1) _

theorem eraseGo_append :
    ∀ (qs : List Nat) (i : Nat) (u v : List Str),
      List.Pairwise (fun x y => x + 2 ≤ y) qs →
      (∀ q ∈ qs, u.length + i ≤ q) →
      eraseGo i qs (u ++ v) = u ++ eraseGo i (qs.map (fun x => x - u.length)) v := by
  intro qs
  induction qs with
  | nil =>
      intro i u v _ _
      rfl
  | cons q qs' ih =>
      intro i u v hgap hq
      have hq0 := hq q (List.mem_cons_self _ _)
      rw [List.pairwise_cons] at hgap
      rw [eraseGo, List.map_cons, eraseGo]
      rw [List.eraseIdx_append_of_length_le (show u.length ≤ q - i + 1 by omega) v]
      rw [show q - i + 1 - u.length = q - u.length - i + 1 from by omega]
      refine ih (i + 1) u _ hgap.2 ?_
      intro q' hq'
      have hgt := hgap.1 q' hq'
      omega

theorem setFold_append :
    ∀ (qs : List Nat) (u v : List Str) (x : Str),
      (∀ q ∈ qs, u.length ≤ q) →
      qs.foldl (fun wacc l => wacc.set l x) (u ++ v)
        = u ++ (qs.map (fun q => q - u.length)).foldl (fun wacc l => wacc.set l x) v := by
  intro qs
  induction qs with
  | nil =>
      intro u v x _
      rfl
  | cons q qs' ih =>
      intro u v x hq
      rw [List.foldl_cons, List.map_cons, List.foldl_cons]
      rw [List.set_append_right _ _ (hq q (List.mem_cons_self _ _))]
      exact ih u _ x (fun q' hq' => hq q' (List.mem_cons_of_mem _ hq'))

theorem take_two_decomp (w : List Str) (l : Nat) (hl : l + 1 < w.length) :
    w.take (l + 2) = w.take l ++ [w[l], w[l + 1]] := by
  have h0 : l < w.length := by omega
  rw [List.take_add, drop_take_cons w l 2 h0 (by omega),
    drop_take_cons w (l + 1) 1 hl (by omega)]
  rfl

/-- The set phase followed by the compensated pop phase is exactly the
in-place merge of the listed occurrences. -/
theorem twoPhase_eq_mergeAt (n : Nat) :
    ∀ (locs : List Nat), locs.length ≤ n → ∀ (w : List Str) (a b : Str),
      List.Pairwise (fun x y => x + 2 ≤ y) locs →
      (∀ l ∈ locs, l + 1 < w.length) →
      eraseGo 0 locs (locs.foldl (fun wacc l => wacc.set l (a ++ b)) w)
        = mergeAt locs w (a ++ b) := by
  induction n with
  | zero =>
      intro locs hn w a b _ _
      match locs, hn with
      | [], _ => rw [mergeAt]; rfl
  | succ n ih =>
      intro locs hn w a b hgap hmem
      match locs with
      | [] => rw [mergeAt]; rfl
      | l0 :: rest =>
          rw [List.pairwise_cons] at hgap
          have hl0 := hmem l0 (List.mem_cons_self _ _)
          have hlen2 : l0 + 2 ≤ w.length := by omega
          have htlen : (w.take (l0 + 2)).length = l0 + 2 := by
            rw [List.length_take]
            omega
          -- set phase decomposition
          have hset : (l0 :: rest).foldl (fun wacc l => wacc.set l (a ++ b)) w
              = ((w.take (l0 + 2)).set l0 (a ++ b))
                ++ (rest.map (fun q => q - (l0 + 2))).foldl
                  (fun wacc l => wacc.set l (a ++ b)) (w.drop (l0 + 2)) := by
            conv_lhs => rw [← List.take_append_drop (l0 + 2) w]
            rw [List.foldl_cons]
            rw [List.set_append_left _ _ (by omega)]
            have hsetlen : ((w.take (l0 + 2)).set l0 (a ++ b)).length = l0 + 2 := by
              rw [List.length_set]
              exact htlen
            rw [setFold_append rest _ _ (a ++ b) (fun q hq => by
              have := hgap.1 q hq
              omega)]
            rw [hsetlen]
          rw [hset, eraseGo]
          -- first erase: hits the last slot of the head block
          have hU1 : ((w.take (l0 + 2)).set l0 (a ++ b))
              = w.take l0 ++ [a ++ b, w[l0 + 1]] := by
            rw [take_two_decomp w l0 hl0]
            rw [List.set_append_right _ _ (by rw [List.length_take]; omega)]
            rw [show l0 - (w.take l0).length = 0 from by rw [List.length_take]; omega]
            rfl
          have herase : (((w.take (l0 + 2)).set l0 (a ++ b))
              ++ (rest.map (fun q => q - (l0 + 2))).foldl
                (fun wacc l => wacc.set l (a ++ b)) (w.drop (l0 + 2))).eraseIdx (l0 - 0 + 1)
              = (w.take l0 ++ [a ++ b])
                ++ (rest.map (fun q => q - (l0 + 2))).foldl
                  (fun wacc l => wacc.set l (a ++ b)) (w.drop (l0 + 2)) := by
            rw [hU1, List.append_assoc]
            rw [List.eraseIdx_append_of_length_le (by rw [List.length_take]; omega) _]
            rw [show l0 - 0 + 1 - (w.take l0).length = 1 from by
              rw [List.length_take]
              omega]
            rw [List.append_assoc]
            rfl
          rw [herase]
          have hulen : (w.take l0 ++ [a ++ b]).length = l0 + 1 := by
            rw [List.length_append, List.length_take, List.length_cons, List.length_nil]
            omega
          rw [eraseGo_append rest 1 _ _ hgap.2 (fun q hq => by
            have := hgap.1 q hq
            rw [hulen]
            omega)]
          rw [hulen, eraseGo_shift]
          rw [List.map_map]
          have hmaps : ((fun x => x - 1) ∘ fun x => x - (l0 + 1)) = fun x => x - (l0 + 2) := by
            funext x
            show x - (l0 + 1) - 1 = x - (l0 + 2)
            omega
          rw [hmaps]
          have hrec := ih (rest.map (fun x => x - (l0 + 2)))
            (by rw [List.length_map]; simp only [List.length_cons] at hn; omega)
            (w.drop (l0 + 2)) a b
            (by
              rw [List.pairwise_map]
              refine hgap.2.imp_of_mem ?_
              intro x y hx _ hxy
              have := hgap.1 x hx
              omega)
            (by
              intro l hl
              rcases List.mem_map.mp hl with ⟨q, hq, rfl⟩
              have h1 := hgap.1 q hq
              have h2 := hmem q (List.mem_cons_of_mem _ hq)
              rw [List.length_drop]
              omega)
          rw [hrec]
          rw [mergeAt]
          rw [List.append_assoc]
          rfl

theorem getD_drop (w : List Str) (k j : Nat) :
    (w.drop k).getD j [] = w.getD (k + j) [] := by
  rw [List.getD_eq_getElem?_getD, List.getD_eq_getElem?_getD, List.getElem?_drop]

/-- Merging occurrences of the pair `(a, b)` does not change the spelled
string. -/
theorem mergeAt_flatten (n : Nat) :
    ∀ (locs : List Nat), locs.length ≤ n → ∀ (w : List Str) (a b : Str),
      List.Pairwise (fun x y => x + 2 ≤ y) locs →
      (∀ l ∈ locs, l + 1 < w.length ∧ w.getD l [] = a ∧ w.getD (l + 1) [] = b) →
      (mergeAt locs w (a ++ b)).flatten = w.flatten := by
  induction n with
  | zero =>
      intro locs hn w a b _ _
      match locs, hn with
      | [], _ => rw [mergeAt]
  | succ n ih =>
      intro locs hn w a b hgap hmem
      match locs with
      | [] => rw [mergeAt]
      | l0 :: rest =>
          rw [List.pairwise_cons] at hgap
          obtain ⟨hl0, ha0, hb0⟩ := hmem l0 (List.mem_cons_self _ _)
          have h0 : l0 < w.length := by omega
          rw [mergeAt, List.flatten_append, List.flatten_cons]
          have hrec := ih (rest.map (fun x => x - (l0 + 2)))
            (by rw [List.length_map]; simp only [List.length_cons] at hn; omega)
            (w.drop (l0 + 2)) a b
            (by
              rw [List.pairwise_map]
              refine hgap.2.imp_of_mem ?_
              intro x y hx _ hxy
              have := hgap.1 x hx
              omega)
            (by
              intro l hl
              rcases List.mem_map.mp hl with ⟨q, hq, rfl⟩
              have h1 := hgap.1 q hq
              obtain ⟨h2, h3, h4⟩ := hmem q (List.mem_cons_of_mem _ hq)
              have hq1 : q - (l0 + 2) < (w.drop (l0 + 2)).length := by
                rw [List.length_drop]
                omega
              have hq2 : q - (l0 + 2) + 1 < (w.drop (l0 + 2)).length := by
                rw [List.length_drop]
                omega
              refine ⟨hq2, ?_, ?_⟩
              · rw [getD_drop, show l0 + 2 + (q - (l0 + 2)) = q from by omega]
                exact h3
              · rw [getD_drop, show l0 + 2 + (q - (l0 + 2) + 1) = q + 1 from by omega]
                exact h4)
          rw [hrec]
          conv_rhs => rw [← List.take_append_drop (l0 + 2) w]
          rw [take_two_decomp w l0 hl0]
          rw [List.flatten_append, List.flatten_append]
          rw [List.getD_eq_getElem w [] h0] at ha0
          rw [List.getD_eq_getElem w [] hl0] at hb0
          rw [ha0, hb0]
          simp [List.append_assoc]

/-- On a sequence with no two equal adjacent symbols, `replaceSegment`
preserves the spelled string. -/
theorem replaceSegment_flatten (w : List Str) (s : Str × Str) (hne : s.1 ≠ s.2) :
    (replaceSegment w s).flatten = w.flatten := by
  show ((((List.range (w.length - 1)).filter
      (fun i => (w.getD i [], w.getD (i + 1) []) == s)).enum).foldl
      (fun wacc li_l => wacc.eraseIdx (li_l.2 - li_l.1 + 1))
      (((List.range (w.length - 1)).filter
        (fun i => (w.getD i [], w.getD (i + 1) []) == s)).foldl
        (fun wacc l => wacc.set l (s.1 ++ s.2)) w)).flatten = w.flatten
  have hlt : List.Pairwise (· < ·) ((List.range (w.length - 1)).filter
      (fun i => (w.getD i [], w.getD (i + 1) []) == s)) :=
    (List.pairwise_lt_range _).filter _
  generalize hl : (List.range (w.length - 1)).filter
      (fun i => (w.getD i [], w.getD (i + 1) []) == s) = locs at *
  have hmemlocs : ∀ l ∈ locs, l + 1 < w.length ∧
      w.getD l [] = s.1 ∧ w.getD (l + 1) [] = s.2 := by
    intro l hmem
    rw [← hl, List.mem_filter] at hmem
    have h1 := List.mem_range.mp hmem.1
    have h2 : (w.getD l [], w.getD (l + 1) []) = s := beq_iff_eq.mp hmem.2
    refine ⟨by omega, ?_, ?_⟩
    · exact congrArg Prod.fst h2
    · exact congrArg Prod.snd h2
  have hgap : List.Pairwise (fun x y => x + 2 ≤ y) locs := by
    refine hlt.imp_of_mem ?_
    intro x y hx hy hxy
    by_cases hc : y = x + 1
    · exfalso
      have hx2 := (hmemlocs x hx).2.2
      have hy1 := (hmemlocs y hy).2.1
      rw [hc] at hy1
      exact hne (by rw [← hx2, ← hy1])
    · omega
  rw [show locs.enum = List.enumFrom 0 locs from rfl]
  rw [enum_foldl_eraseGo]
  rw [twoPhase_eq_mergeAt locs.length locs (Nat.le_refl _) w s.1 s.2 hgap
    (fun l hmem => (hmemlocs l hmem).1)]
  exact mergeAt_flatten locs.length locs (Nat.le_refl _) w s.1 s.2 hgap hmemlocs

/-! ### Expansion for Sakamoto: the repetition pass preserves the spelled
string and leaves no equal adjacent symbols -/

theorem runLen_take (a : Str) :
    ∀ l : List Str, l.take (runLen a l) = List.replicate (runLen a l) a := by
  intro l
  induction l with
  | nil => rfl
  | cons b rest ih =>
      rw [runLen]
      split
      · next hba =>
          rw [List.take_succ_cons, List.replicate_succ, hba, ih]
      · rfl

theorem hasRepeatingSymbolAux_run :
    ∀ (l : List Str) (i0 i j : Nat),
      hasRepeatingSymbolAux i0 l = some (i, j) →
      i0 ≤ i ∧ i < j ∧ j - i0 < l.length ∧
      (l.drop (i - i0)).take (j - i + 1)
        = List.replicate (j - i + 1) (l.getD (i - i0) []) := by
  intro l
  induction l with
  | nil =>
      intro i0 i j h
      simp [hasRepeatingSymbolAux] at h
  | cons x tail ih =>
      intro i0 i j h
      match tail, ih with
      | [], _ => simp [hasRepeatingSymbolAux] at h
      | y :: rest, ih =>
          rw [hasRepeatingSymbolAux] at h
          split at h
          · next hyx =>
              simp only [Option.some.injEq, Prod.mk.injEq] at h
              obtain ⟨h1, h2⟩ := h
              subst h1
              subst h2
              have hrl := runLen_le x rest
              refine ⟨Nat.le_refl _, by omega, by simp only [List.length_cons]; omega, ?_⟩
              rw [Nat.sub_self]
              rw [List.drop_zero, List.getD_cons_zero]
              rw [show i0 + 1 + runLen x rest - i0 + 1 = (runLen x rest + 1) + 1 from by omega]
              rw [List.take_succ_cons, List.take_succ_cons]
              rw [List.replicate_succ, List.replicate_succ, hyx, runLen_take]
          · have hrec := ih (i0 + 1) i j h
            obtain ⟨hr1, hr2, hr3, hr4⟩ := hrec
            have hik : i - i0 = (i - (i0 + 1)) + 1 := by omega
            refine ⟨by omega, hr2, by simp only [List.length_cons] at *; omega, ?_⟩
            rw [hik, List.drop_succ_cons, List.getD_cons_succ]
            exact hr4

theorem hasRepeatingSymbolAux_none :
    ∀ (l : List Str) (i0 : Nat), hasRepeatingSymbolAux i0 l = none →
      ∀ p ∈ l.zip l.tail, p.1 ≠ p.2 := by
  intro l
  induction l with
  | nil =>
      intro i0 _ p hp
      simp at hp
  | cons x tail ih =>
      intro i0 h p hp
      match tail, ih, hp with
      | [], _, hp => simp at hp
      | y :: rest, ih, hp =>
          rw [hasRepeatingSymbolAux] at h
          split at h
          · simp at h
          · next hyx =>
              simp only [List.tail_cons, List.zip_cons_cons] at hp
              rcases List.mem_cons.mp hp with h1 | h1
              · rw [h1]
                intro hc
                exact hyx hc.symm
              · exact ih (i0 + 1) h p h1

/-- The repetition pass preserves the spelled string, and its result has no
equal adjacent symbols (the loop only exits when `hasRepeatingSymbol`
fails). -/
theorem repetitionLoop_flatten (n : Nat) :
    ∀ w : List Str, w.length ≤ n → ∀ P : Grammar,
      (repetitionLoop w P).2.flatten = w.flatten ∧
      hasRepeatingSymbol (repetitionLoop w P).2 = none := by
  induction n with
  | zero =>
      intro w hw P
      rw [repetitionLoop]
      split
      · next heq => exact ⟨rfl, heq⟩
      · next i j heq =>
          have hb := hasRepeatingSymbol_bounds w (i, j) heq
          omega
  | succ n ih =>
      intro w hw P
      rw [repetitionLoop]
      split
      · next heq => exact ⟨rfl, heq⟩
      · next i j heq =>
          have hb := hasRepeatingSymbol_bounds w (i, j) heq
          have hrun := hasRepeatingSymbolAux_run w 0 i j heq
          simp only [Nat.sub_zero] at hrun
          obtain ⟨_, hij, hjlen, hslice⟩ := hrun
          have hrec := ih (w.take i ++ [(List.replicate (j - i + 1) (w.getD i [])).flatten]
              ++ w.drop (j + 1))
            (by
              simp only [List.length_append, List.length_take, List.length_drop,
                List.length_cons, List.length_nil]
              omega)
            (produceRepeatingSymbolGrammar P
              ((List.replicate (j - i + 1) (w.getD i [])).flatten))
          refine ⟨?_, hrec.2⟩
          rw [hrec.1]
          rw [List.flatten_append, List.flatten_append, List.flatten_cons,
            List.flatten_nil, List.append_nil]
          rw [← hslice]
          have hw2 : w = w.take i ++ (w.drop i).take (j - i + 1) ++ w.drop (j + 1) := by
            conv_lhs => rw [← List.take_append_drop i w]
            rw [List.append_assoc]
            congr 1
            conv_lhs => rw [← List.take_append_drop (j - i + 1) (w.drop i)]
            rw [List.drop_drop]
            rw [show i + (j - i + 1) = j + 1 from by omega]
          conv_rhs => rw [hw2]
          rw [List.flatten_append, List.flatten_append]

theorem repetition_flatten (w : List Str) :
    (repetition w).2.flatten = w.flatten ∧
    hasRepeatingSymbol (repetition w).2 = none := by
  rw [repetition]
  exact repetitionLoop_flatten w.length w (Nat.le_refl _) []

/-! ### Expansion for Sakamoto: closure of the grammar built by the repair
loop -/

/-- Every key of `g` is a key of `G`. -/
def keySub (g G : Grammar) : Prop :=
  ∀ k : Str, hasKeyA g k = true → hasKeyA G k = true

/-- Every right-hand-side symbol of every entry of `g` of length at least 2
is a key of the (possibly larger) grammar `G`. -/
def entriesClosedIn (g G : Grammar) : Prop :=
  ∀ kv ∈ g, ∀ m ∈ kv.2, m.length ≤ 1 ∨ hasKeyA G m = true

/-- The repeated-symbol decomposition only adds keys, keys its argument
whenever it is long, concatenates, and its entries are closed in any
grammar containing its keys. -/
theorem prSG_closure (n : Nat) :
    ∀ S : Str, S.length ≤ n → ∀ P : Grammar,
      keySub P (produceRepeatingSymbolGrammar P S) ∧
      (2 ≤ S.length → hasKeyA (produceRepeatingSymbolGrammar P S) S = true) ∧
      (prodConcat P → prodConcat (produceRepeatingSymbolGrammar P S)) ∧
      (∀ G : Grammar, keySub (produceRepeatingSymbolGrammar P S) G →
        entriesClosedIn P G → entriesClosedIn (produceRepeatingSymbolGrammar P S) G) := by
  induction n with
  | zero =>
      intro S hS P
      rw [produceRepeatingSymbolGrammar, if_pos (show S.length ≤ 1 by omega)]
      exact ⟨fun k hk => hk, fun h2 => by omega, fun h => h, fun G _ h => h⟩
  | succ n ih =>
      intro S hS P
      by_cases h1 : S.length ≤ 1
      · rw [produceRepeatingSymbolGrammar, if_pos h1]
        exact ⟨fun k hk => hk, fun h2 => by omega, fun h => h, fun G _ h => h⟩
      · by_cases h2 : S.length = 2
        · rw [produceRepeatingSymbolGrammar, if_neg h1, if_pos h2]
          refine ⟨fun k hk => hasKeyA_insertA_mono P S k _ hk,
            fun _ => hasKeyA_insertA_self P S _, ?_, ?_⟩
          · intro hP
            refine insertA_prodConcat P S _ hP ?_
            rw [List.flatten_cons, List.flatten_cons, List.flatten_nil,
              List.append_nil, List.take_append_drop]
          · intro G _ hent kv hkv
            rcases mem_insertA P S _ kv hkv with h3 | h3
            · rw [h3]
              intro m hm
              simp only [List.mem_cons, List.not_mem_nil, or_false] at hm
              rcases hm with h4 | h4 <;> rw [h4] <;> left <;>
                simp only [List.length_take, List.length_drop] <;> omega
            · exact hent kv h3
        · by_cases h3 : S.length % 2 = 0
          · have hstep : produceRepeatingSymbolGrammar P S
                = produceRepeatingSymbolGrammar (produceRepeatingSymbolGrammar
                    (insertA P S [S.take (S.length / 2), S.drop (S.length / 2)])
                    (S.take (S.length / 2))) (S.drop (S.length / 2)) := by
              rw [produceRepeatingSymbolGrammar, if_neg h1, if_neg h2, if_pos h3]
            rw [hstep]
            have ih1 := ih (S.take (S.length / 2))
              (by simp only [List.length_take]; omega)
              (insertA P S [S.take (S.length / 2), S.drop (S.length / 2)])
            have ih2 := ih (S.drop (S.length / 2))
              (by simp only [List.length_drop]; omega)
              (produceRepeatingSymbolGrammar
                (insertA P S [S.take (S.length / 2), S.drop (S.length / 2)])
                (S.take (S.length / 2)))
            refine ⟨?_, ?_, ?_, ?_⟩
            · intro k hk
              exact ih2.1 k (ih1.1 k (hasKeyA_insertA_mono P S k _ hk))
            · intro _
              exact ih2.1 S (ih1.1 S (hasKeyA_insertA_self P S _))
            · intro hP
              refine ih2.2.2.1 (ih1.2.2.1 ?_)
              refine insertA_prodConcat P S _ hP ?_
              rw [List.flatten_cons, List.flatten_cons, List.flatten_nil,
                List.append_nil, List.take_append_drop]
            · intro G hsub hent
              have hsub1 : keySub (produceRepeatingSymbolGrammar
                  (insertA P S [S.take (S.length / 2), S.drop (S.length / 2)])
                  (S.take (S.length / 2))) G := fun k hk => hsub k (ih2.1 k hk)
              refine ih2.2.2.2 G hsub ?_
              refine ih1.2.2.2 G hsub1 ?_
              intro kv hkv
              rcases mem_insertA P S _ kv hkv with h4 | h4
              · rw [h4]
                intro m hm
                simp only [List.mem_cons, List.not_mem_nil, or_false] at hm
                have hlen1 : 2 ≤ (S.take (S.length / 2)).length := by
                  simp only [List.length_take]
                  omega
                have hlen2 : 2 ≤ (S.drop (S.length / 2)).length := by
                  simp only [List.length_drop]
                  omega
                rcases hm with h5 | h5
                · right
                  rw [h5]
                  exact hsub1 _ (ih1.2.1 hlen1)
                · right
                  rw [h5]
                  exact hsub _ (ih2.2.1 hlen2)
              · exact hent kv h4
          · have hstep : produceRepeatingSymbolGrammar P S
                = produceRepeatingSymbolGrammar
                    (insertA P S [S.take (S.length - 1), S.drop (S.length - 1)])
                    (S.take (S.length - 1)) := by
              rw [produceRepeatingSymbolGrammar, if_neg h1, if_neg h2, if_neg h3]
            rw [hstep]
            have ih1 := ih (S.take (S.length - 1))
              (by simp only [List.length_take]; omega)
              (insertA P S [S.take (S.length - 1), S.drop (S.length - 1)])
            refine ⟨?_, ?_, ?_, ?_⟩
            · intro k hk
              exact ih1.1 k (hasKeyA_insertA_mono P S k _ hk)
            · intro _
              exact ih1.1 S (hasKeyA_insertA_self P S _)
            · intro hP
              refine ih1.2.2.1 ?_
              refine insertA_prodConcat P S _ hP ?_
              rw [List.flatten_cons, List.flatten_cons, List.flatten_nil,
                List.append_nil, List.take_append_drop]
            · intro G hsub hent
              refine ih1.2.2.2 G hsub ?_
              intro kv hkv
              rcases mem_insertA P S _ kv hkv with h4 | h4
              · rw [h4]
                intro m hm
                simp only [List.mem_cons, List.not_mem_nil, or_false] at hm
                have hlen1 : 2 ≤ (S.take (S.length - 1)).length := by
                  simp only [List.length_take]
                  omega
                rcases hm with h5 | h5
                · right
                  rw [h5]
                  exact hsub _ (ih1.2.1 hlen1)
                · left
                  rw [h5]
                  simp only [List.length_drop]
                  omega
              · exact hent kv h4

/-- The repetition pass only adds keys, concatenates, keys every symbol it
introduces into the sequence, and its entries are closed in any grammar
containing its keys. -/
theorem repetitionLoop_closure (n : Nat) :
    ∀ w : List Str, w.length ≤ n → ∀ P : Grammar, symsNE w →
      keySub P (repetitionLoop w P).1 ∧
      (prodConcat P → prodConcat (repetitionLoop w P).1) ∧
      (∀ x ∈ (repetitionLoop w P).2, x ∈ w ∨ hasKeyA (repetitionLoop w P).1 x = true) ∧
      (∀ G : Grammar, keySub (repetitionLoop w P).1 G → entriesClosedIn P G →
        entriesClosedIn (repetitionLoop w P).1 G) := by
  induction n with
  | zero =>
      intro w hw P hsyms
      rw [repetitionLoop]
      split
      · exact ⟨fun k hk => hk, fun h => h, fun x hx => Or.inl hx, fun G _ h => h⟩
      · next i j heq =>
          have hb := hasRepeatingSymbol_bounds w (i, j) heq
          omega
  | succ n ih =>
      intro w hw P hsyms
      rw [repetitionLoop]
      split
      · exact ⟨fun k hk => hk, fun h => h, fun x hx => Or.inl hx, fun G _ h => h⟩
      · next i j heq =>
          have hb := hasRepeatingSymbol_bounds w (i, j) heq
          have hiw : i < w.length := by omega
          have hgetD : w.getD i [] = w[i] := List.getD_eq_getElem w [] hiw
          have hAel : ∀ x ∈ List.replicate (j - i + 1) (w.getD i []), x ≠ [] := by
            intro x hx
            rw [List.eq_of_mem_replicate hx, hgetD]
            exact hsyms _ (List.getElem_mem hiw)
          have hApos : 2 ≤ ((List.replicate (j - i + 1) (w.getD i [])).flatten).length := by
            have hle := length_le_length_flatten (List.replicate (j - i + 1) (w.getD i [])) hAel
            rw [List.length_replicate] at hle
            omega
          have hAne : (List.replicate (j - i + 1) (w.getD i [])).flatten ≠ [] := by
            intro hc
            have hc2 := congrArg List.length hc
            simp only [List.length_nil] at hc2
            omega
          have hsyms2 : symsNE (w.take i ++ [(List.replicate (j - i + 1)
              (w.getD i [])).flatten] ++ w.drop (j + 1)) := by
            intro x hx
            rcases List.mem_append.mp hx with hx1 | hx1
            · rcases List.mem_append.mp hx1 with hx2 | hx2
              · exact hsyms x (List.mem_of_mem_take hx2)
              · rw [List.mem_singleton] at hx2
                rw [hx2]
                exact hAne
            · exact hsyms x (List.mem_of_mem_drop hx1)
          have hlen2 : (w.take i ++ [(List.replicate (j - i + 1) (w.getD i [])).flatten]
              ++ w.drop (j + 1)).length ≤ n := by
            simp only [List.length_append, List.length_take, List.length_drop,
              List.length_cons, List.length_nil]
            omega
          have hrec := ih _ hlen2 (produceRepeatingSymbolGrammar P
              ((List.replicate (j - i + 1) (w.getD i [])).flatten)) hsyms2
          have hpr := prSG_closure
            ((List.replicate (j - i + 1) (w.getD i [])).flatten).length
            ((List.replicate (j - i + 1) (w.getD i [])).flatten) (Nat.le_refl _) P
          refine ⟨?_, ?_, ?_, ?_⟩
          · intro k hk
            exact hrec.1 k (hpr.1 k hk)
          · intro hP
            exact hrec.2.1 (hpr.2.2.1 hP)
          · intro x hx
            rcases hrec.2.2.1 x hx with h5 | h5
            · rcases List.mem_append.mp h5 with h6 | h6
              · rcases List.mem_append.mp h6 with h7 | h7
                · exact Or.inl (List.mem_of_mem_take h7)
                · right
                  rw [List.mem_singleton] at h7
                  rw [h7]
                  exact hrec.1 _ (hpr.2.1 hApos)
              · exact Or.inl (List.mem_of_mem_drop h6)
            · exact Or.inr h5
          · intro G hsub hent
            refine hrec.2.2.2 G hsub ?_
            exact hpr.2.2.2 G (fun k hk => hsub k (hrec.1 k hk)) hent

theorem foldl_set_mem (locs : List Nat) (v : Str) :
    ∀ w : List Str, ∀ x ∈ locs.foldl (fun wacc l => wacc.set l v) w,
      x ∈ w ∨ x = v := by
  induction locs with
  | nil => exact fun w x hx => Or.inl hx
  | cons l rest ih =>
      intro w x hx
      rw [List.foldl_cons] at hx
      rcases ih _ x hx with h1 | h1
      · rcases List.mem_or_eq_of_mem_set h1 with h2 | h2
        · exact Or.inl h2
        · exact Or.inr h2
      · exact Or.inr h1

theorem foldl_eraseIdx_mem (xs : List (Nat × Nat)) :
    ∀ w : List Str,
      ∀ x ∈ xs.foldl (fun wacc li_l => wacc.eraseIdx (li_l.2 - li_l.1 + 1)) w,
      x ∈ w := by
  induction xs with
  | nil => exact fun w x hx => hx
  | cons p rest ih =>
      intro w x hx
      rw [List.foldl_cons] at hx
      exact List.mem_of_mem_eraseIdx (ih _ x hx)

/-- Every symbol of the sequence after one segment replacement is an old
symbol or the merged pair nonterminal. -/
theorem replaceSegment_mem (w : List Str) (s : Str × Str) :
    ∀ x ∈ replaceSegment w s, x ∈ w ∨ x = s.1 ++ s.2 := by
  intro x hx
  rw [replaceSegment] at hx
  exact foldl_set_mem _ _ w x (foldl_eraseIdx_mem _ _ x hx)

/-- The replacement loop preserves the spelled string (each replaced
segment has distinct components), only adds keys, concatenates, keys every
symbol it introduces, and its entries are closed in any grammar containing
its keys and both components of every segment. -/
theorem replaceLoop_facts (segs : List (Str × Str)) :
    ∀ (w : List Str) (P : Grammar),
      (∀ s ∈ segs, s.1 ≠ s.2) →
      (replaceLoop segs w P).1.flatten = w.flatten ∧
      keySub P (replaceLoop segs w P).2 ∧
      (prodConcat P → prodConcat (replaceLoop segs w P).2) ∧
      (∀ x ∈ (replaceLoop segs w P).1, x ∈ w ∨
        hasKeyA (replaceLoop segs w P).2 x = true) ∧
      (∀ G : Grammar, keySub (replaceLoop segs w P).2 G →
        entriesClosedIn P G →
        (∀ s ∈ segs, (s.1.length ≤ 1 ∨ hasKeyA G s.1 = true) ∧
          (s.2.length ≤ 1 ∨ hasKeyA G s.2 = true)) →
        entriesClosedIn (replaceLoop segs w P).2 G) := by
  induction segs with
  | nil =>
      intro w P _
      exact ⟨rfl, fun k hk => hk, fun h => h, fun x hx => Or.inl hx,
        fun G _ h _ => h⟩
  | cons s rest ih =>
      intro w P hne
      rw [replaceLoop]
      have hs := hne s (List.mem_cons_self _ _)
      have hrec := ih (replaceSegment w s) (insertA P (s.1 ++ s.2) [s.1, s.2])
        (fun t ht => hne t (List.mem_cons_of_mem _ ht))
      refine ⟨?_, ?_, ?_, ?_, ?_⟩
      · rw [hrec.1, replaceSegment_flatten w s hs]
      · intro k hk
        exact hrec.2.1 k (hasKeyA_insertA_mono P _ k _ hk)
      · intro hP
        refine hrec.2.2.1 ?_
        refine insertA_prodConcat P _ _ hP ?_
        rw [List.flatten_cons, List.flatten_cons, List.flatten_nil, List.append_nil]
      · intro x hx
        rcases hrec.2.2.2.1 x hx with h1 | h1
        · rcases replaceSegment_mem w s x h1 with h2 | h2
          · exact Or.inl h2
          · right
            rw [h2]
            exact hrec.2.1 _ (hasKeyA_insertA_self P _ _)
        · exact Or.inr h1
      · intro G hsub hent hsegs
        refine hrec.2.2.2.2 G hsub ?_
          (fun t ht => hsegs t (List.mem_cons_of_mem _ ht))
        intro kv hkv
        rcases mem_insertA P _ _ kv hkv with h1 | h1
        · rw [h1]
          intro m hm
          simp only [List.mem_cons, List.not_mem_nil, or_false] at hm
          have hsm := hsegs s (List.mem_cons_self _ _)
          rcases hm with h2 | h2
          · rw [h2]
            exact hsm.1
          · rw [h2]
            exact hsm.2
        · exact hent kv h1

/-- The pair at any adjacent position of `w` occurs in `w.zip w.tail`. -/
theorem zip_tail_get (w : List Str) (i : Nat) (hi : i + 1 < w.length) :
    (w.getD i [], w.getD (i + 1) []) ∈ w.zip w.tail := by
  have hi0 : i < w.length := by omega
  have hit : i < w.tail.length := by
    rw [List.length_tail]
    omega
  have hlen : i < (w.zip w.tail).length := by
    rw [List.length_zip, List.length_tail]
    omega
  have hget : (w.zip w.tail).get ⟨i, hlen⟩ = (w[i], w.tail[i]) := List.getElem_zip
  have htail : w.tail[i] = w[i + 1] := List.getElem_tail w i hit
  have hval : (w.zip w.tail).get ⟨i, hlen⟩ = (w.getD i [], w.getD (i + 1) []) := by
    rw [hget, htail, List.getD_eq_getElem w [] hi0, List.getD_eq_getElem w [] hi]
  rw [← hval]
  exact List.get_mem _ i hlen

/-- The arrangement pass preserves the spelled string (provided no two
adjacent symbols are equal), keys every symbol it introduces,
concatenates, and its grammar is closed in any grammar containing its keys
once every symbol of `w` is short or keyed. -/
theorem arrangement_facts (w : List Str) (idc : Nat)
    (hnr : hasRepeatingSymbol w = none) :
    (arrangement w idc).2.1.flatten = w.flatten ∧
    (∀ x ∈ (arrangement w idc).2.1, x ∈ w ∨
      hasKeyA (arrangement w idc).1 x = true) ∧
    prodConcat (arrangement w idc).1 ∧
    (∀ G : Grammar, keySub (arrangement w idc).1 G →
      (∀ x ∈ w, x.length ≤ 1 ∨ hasKeyA G x = true) →
      entriesClosedIn (arrangement w idc).1 G) := by
  have hadj : ∀ p ∈ w.zip w.tail, p.1 ≠ p.2 := hasRepeatingSymbolAux_none w 0 hnr
  rw [arrangement]
  have hD := (arrangementLoop_D w (createSortedSegmentList w) ⟨[], [], idc⟩
    (fun a ha => by simp at ha)).1
  have hsegs : ∀ s ∈ nubFirst (((arrangementLoop w (createSortedSegmentList w)
      ⟨[], [], idc⟩).D).map (fun kv => (w.getD kv.1.1 [], w.getD kv.1.2 []))),
      s.1 ≠ s.2 ∧ s.1 ∈ w ∧ s.2 ∈ w := by
    intro s hs
    have hs2 := mem_nubFirst (((arrangementLoop w (createSortedSegmentList w)
      ⟨[], [], idc⟩).D).map (fun kv => (w.getD kv.1.1 [], w.getD kv.1.2 []))).length
      _ (Nat.le_refl _) s hs
    rcases List.mem_map.mp hs2 with ⟨kv, hkv, rfl⟩
    have hshape := hD kv.1 (List.mem_map.mpr ⟨kv, hkv, rfl⟩)
    obtain ⟨hsh1, hsh2⟩ := hshape
    have h1 : kv.1.1 < w.length := by omega
    have h2 : kv.1.2 < w.length := by omega
    refine ⟨?_, ?_, ?_⟩
    · have hne := hadj _ (zip_tail_get w kv.1.1 hsh2)
      show w.getD kv.1.1 [] ≠ w.getD kv.1.2 []
      rw [hsh1]
      exact hne
    · show w.getD kv.1.1 [] ∈ w
      rw [List.getD_eq_getElem w [] h1]
      exact List.getElem_mem h1
    · show w.getD kv.1.2 [] ∈ w
      rw [List.getD_eq_getElem w [] h2]
      exact List.getElem_mem h2
  have hmain := replaceLoop_facts _ w [] (fun s hs => (hsegs s hs).1)
  refine ⟨hmain.1, hmain.2.2.2.1, ?_, ?_⟩
  · exact hmain.2.2.1 (fun kv hkv => absurd hkv (List.not_mem_nil kv))
  · intro G hsub hwc
    refine hmain.2.2.2.2 G hsub (fun kv hkv => absurd hkv (List.not_mem_nil kv)) ?_
    intro s hs
    exact ⟨hwc s.1 (hsegs s hs).2.1, hwc s.2 (hsegs s hs).2.2⟩

theorem ptgFold_mem (w : List Str) :
    ∀ (l : List Nat) (d : Grammar) (kv : Str × List Str),
      kv ∈ l.foldl (fun P i => insertA P (w.take i).flatten
        [(w.take (i - 1)).flatten, w.getD (i - 1) []]) d →
      kv ∈ d ∨ ∃ i ∈ l, kv = ((w.take i).flatten,
        [(w.take (i - 1)).flatten, w.getD (i - 1) []]) := by
  intro l
  induction l with
  | nil => exact fun d kv hkv => Or.inl hkv
  | cons i rest ih =>
      intro d kv hkv
      rw [List.foldl_cons] at hkv
      rcases ih _ kv hkv with h1 | h1
      · rcases mem_insertA d _ _ kv h1 with h2 | h2
        · exact Or.inr ⟨i, List.mem_cons_self _ _, h2⟩
        · exact Or.inl h2
      · rcases h1 with ⟨i2, hi2, heq⟩
        exact Or.inr ⟨i2, List.mem_cons_of_mem _ hi2, heq⟩

theorem ptgFold_key (w : List Str) :
    ∀ (l : List Nat) (d : Grammar) (i : Nat), i ∈ l →
      hasKeyA (l.foldl (fun P i => insertA P (w.take i).flatten
        [(w.take (i - 1)).flatten, w.getD (i - 1) []]) d)
        ((w.take i).flatten) = true := by
  intro l
  induction l with
  | nil =>
      intro d i hi
      exact absurd hi (List.not_mem_nil i)
  | cons i0 rest ih =>
      intro d i hi
      rw [List.foldl_cons]
      rcases List.mem_cons.mp hi with h1 | h1
      · subst h1
        exact foldl_preserve (fun g : Grammar => hasKeyA g ((w.take i).flatten) = true)
          (fun _ => True) _ (fun b a hb _ => hasKeyA_insertA_mono b _ _ _ hb) rest
          (fun _ _ => trivial) _ (hasKeyA_insertA_self d _ _)
      · exact ih _ i h1

/-- The trivial chain concatenates, keys the full spelled string, and its
entries are closed in any grammar containing its keys once every symbol of
`w` is short or keyed. -/
theorem produceTrivialGrammar_facts (w : List Str) (hw : 2 ≤ w.length) :
    prodConcat (produceTrivialGrammar w) ∧
    hasKeyA (produceTrivialGrammar w) w.flatten = true ∧
    (∀ G : Grammar, keySub (produceTrivialGrammar w) G →
      (∀ x ∈ w, x.length ≤ 1 ∨ hasKeyA G x = true) →
      entriesClosedIn (produceTrivialGrammar w) G) := by
  have hrange : ∀ i : Nat, i ∈ List.range' 2 (w.length + 1 - 2) ↔ 2 ≤ i ∧ i ≤ w.length := by
    intro i
    rw [List.mem_range'_1]
    omega
  have hkeyfact : ∀ i : Nat, 2 ≤ i → i ≤ w.length →
      hasKeyA (produceTrivialGrammar w) ((w.take i).flatten) = true := by
    intro i h2 hle
    rw [produceTrivialGrammar]
    exact ptgFold_key w _ [] i ((hrange i).mpr ⟨h2, hle⟩)
  have hmem : ∀ kv ∈ produceTrivialGrammar w, ∃ i : Nat, 2 ≤ i ∧ i ≤ w.length ∧
      kv = ((w.take i).flatten, [(w.take (i - 1)).flatten, w.getD (i - 1) []]) := by
    intro kv hkv
    rw [produceTrivialGrammar] at hkv
    rcases ptgFold_mem w _ [] kv hkv with h1 | h1
    · exact absurd h1 (List.not_mem_nil kv)
    · rcases h1 with ⟨i, hi, heq⟩
      have hb := (hrange i).mp hi
      exact ⟨i, hb.1, hb.2, heq⟩
  have htake : ∀ i : Nat, 2 ≤ i → i ≤ w.length →
      (w.take i).flatten = (w.take (i - 1)).flatten ++ w.getD (i - 1) [] := by
    intro i h2 hle
    have hidx : i - 1 < w.length := by omega
    have hgetD : w.getD (i - 1) [] = w[i - 1] := List.getD_eq_getElem w [] hidx
    have hdec : w.take i = w.take (i - 1) ++ [w[i - 1]] := by
      have heq : i = (i - 1) + 1 := by omega
      conv_lhs => rw [heq]
      rw [List.take_succ, List.getElem?_eq_getElem hidx]
      rfl
    rw [hdec, List.flatten_append, List.flatten_cons, List.flatten_nil,
      List.append_nil, hgetD]
  refine ⟨?_, ?_, ?_⟩
  · intro kv hkv
    rcases hmem kv hkv with ⟨i, h2, hle, heq⟩
    rw [heq]
    show ([(w.take (i - 1)).flatten, w.getD (i - 1) []] : List Str).flatten
      = (w.take i).flatten
    rw [List.flatten_cons, List.flatten_cons, List.flatten_nil, List.append_nil]
    exact (htake i h2 hle).symm
  · have hk := hkeyfact w.length (by omega) (Nat.le_refl _)
    rw [List.take_length] at hk
    exact hk
  · intro G hsub hwc kv hkv
    rcases hmem kv hkv with ⟨i, h2, hle, heq⟩
    rw [heq]
    intro m hm
    simp only [List.mem_cons, List.not_mem_nil, or_false] at hm
    have hidx : i - 1 < w.length := by omega
    rcases hm with h3 | h3
    · by_cases h4 : i = 2
      · subst h4
        rw [h3]
        have h0 : 0 < w.length := by omega
        have htake1 : (w.take (2 - 1)).flatten = w[0] := by
          rw [show (2 - 1 : Nat) = 0 + 1 from rfl, List.take_succ, List.take_zero,
            List.getElem?_eq_getElem h0, List.nil_append]
          show ([w[0]] : List Str).flatten = w[0]
          rw [List.flatten_cons, List.flatten_nil, List.append_nil]
        rw [htake1]
        exact hwc _ (List.getElem_mem h0)
      · right
        rw [h3]
        exact hsub _ (hkeyfact (i - 1) (by omega) (by omega))
    · rw [h3, List.getD_eq_getElem w [] hidx]
      exact hwc _ (List.getElem_mem hidx)

/-- Combined invariant of the repair loop: the spelled string is constant,
the grammar concatenates, keys only grow, and (relative to any grammar
containing the final keys) the accumulated entries are closed and every
symbol of the final sequence is short or keyed. -/
theorem lwrLoop_facts (fuel : Nat) :
    ∀ (w : List Str) (P : Grammar) (idc : Nat) (G : Grammar) (w2 : List Str),
      symsNE w →
      lwrLoop fuel w P idc = some (G, w2) →
      w2.flatten = w.flatten ∧
      (prodConcat P → prodConcat G) ∧
      keySub P G ∧
      (∀ Q : Grammar, keySub G Q → entriesClosedIn P Q →
        (∀ x ∈ w, x.length ≤ 1 ∨ hasKeyA Q x = true) →
        entriesClosedIn G Q ∧ (∀ x ∈ w2, x.length ≤ 1 ∨ hasKeyA Q x = true)) := by
  induction fuel with
  | zero =>
      intro w P idc G w2 hsyms h
      rw [lwrLoop] at h
      split at h
      · exact absurd h (by simp)
      · simp only [Option.some.injEq, Prod.mk.injEq] at h
        obtain ⟨h1, h2⟩ := h
        subst h1
        subst h2
        exact ⟨rfl, fun hp => hp, fun k hk => hk, fun Q _ hent hwc => ⟨hent, hwc⟩⟩
  | succ fuel ih =>
      intro w P idc G w2 hsyms h
      rw [lwrLoop] at h
      split at h
      · have hrepfacts := repetition_flatten w
        have hreploop := repetitionLoop_closure w.length w (Nat.le_refl _) [] hsyms
        have hrepinv := repetition_inv w hsyms
        have harrinv := arrangement_inv (repetition w).2 idc hrepinv.2
        have harr := arrangement_facts (repetition w).2 idc hrepfacts.2
        have hrec := ih (arrangement (repetition w).2 idc).2.1
          (updateA (updateA P (repetition w).1) (arrangement (repetition w).2 idc).1)
          (arrangement (repetition w).2 idc).2.2 G w2 harrinv.2 h
        refine ⟨?_, ?_, ?_, ?_⟩
        · rw [hrec.1, harr.1, hrepfacts.1]
        · intro hP
          refine hrec.2.1 ?_
          refine updateA_prodConcat _ _ ?_ harr.2.2.1
          exact updateA_prodConcat _ _ hP
            (hreploop.2.1 (fun kv hkv => absurd hkv (List.not_mem_nil kv)))
        · intro k hk
          exact hrec.2.2.1 k (hasKeyA_updateA_left _ _ k (hasKeyA_updateA_left _ _ k hk))
        · intro Q hsubGQ hent hwc
          have hPnextQ : keySub (updateA (updateA P (repetition w).1)
              (arrangement (repetition w).2 idc).1) Q :=
            fun k hk => hsubGQ k (hrec.2.2.1 k hk)
          have hr1Q : keySub (repetition w).1 Q := fun k hk =>
            hPnextQ k (hasKeyA_updateA_left _ _ k (hasKeyA_updateA_right _ _ k hk))
          have ha1Q : keySub (arrangement (repetition w).2 idc).1 Q := fun k hk =>
            hPnextQ k (hasKeyA_updateA_right _ _ k hk)
          have hr1ent : entriesClosedIn (repetition w).1 Q :=
            hreploop.2.2.2 Q hr1Q (fun kv hkv => absurd hkv (List.not_mem_nil kv))
          have hwr2 : ∀ x ∈ (repetition w).2, x.length ≤ 1 ∨ hasKeyA Q x = true := by
            intro x hx
            rcases hreploop.2.2.1 x hx with h5 | h5
            · exact hwc x h5
            · exact Or.inr (hr1Q x h5)
          have ha1ent : entriesClosedIn (arrangement (repetition w).2 idc).1 Q :=
            harr.2.2.2 Q ha1Q hwr2
          have hPnextent : entriesClosedIn (updateA (updateA P (repetition w).1)
              (arrangement (repetition w).2 idc).1) Q := by
            intro kv hkv
            rcases mem_updateA (arrangement (repetition w).2 idc).1
                (updateA P (repetition w).1) kv hkv with h5 | h5
            · rcases mem_updateA (repetition w).1 P kv h5 with h6 | h6
              · exact hent kv h6
              · exact hr1ent kv h6
            · exact ha1ent kv h5
          have hwnext : ∀ x ∈ (arrangement (repetition w).2 idc).2.1,
              x.length ≤ 1 ∨ hasKeyA Q x = true := by
            intro x hx
            rcases harr.2.1 x hx with h5 | h5
            · exact hwr2 x h5
            · exact Or.inr (ha1Q x h5)
          exact hrec.2.2.2 Q hsubGQ hPnextent hwnext
      · simp only [Option.some.injEq, Prod.mk.injEq] at h
        obtain ⟨h1, h2⟩ := h
        subst h1
        subst h2
        exact ⟨rfl, fun hp => hp, fun k hk => hk, fun Q _ hent hwc => ⟨hent, hwc⟩⟩

/-- The Sakamoto grammar concatenates, is closed, and keys the input
whenever it has at least two characters. -/
theorem getSakamotoGrammar_expansion_facts (S : Str) (hS : 1 ≤ S.length) (G : Grammar)
    (h : getSakamotoGrammar S = some G) :
    prodConcat G ∧ closedG G ∧ (2 ≤ S.length → hasKeyA G S = true) := by
  rw [getSakamotoGrammar, levelwiseRepair] at h
  rcases hres : lwrLoop ((S.map (fun c => [c])).length) (S.map (fun c => [c])) [] 0
      with _ | pr
  · rw [hres] at h
    exact absurd h (by simp)
  · rw [hres] at h
    have hw0syms : symsNE (S.map (fun c => [c])) := by
      intro x hx
      rcases List.mem_map.mp hx with ⟨c, _, rfl⟩
      simp
    have hw0c : ∀ Q : Grammar, ∀ x ∈ S.map (fun c => [c]),
        x.length ≤ 1 ∨ hasKeyA Q x = true := by
      intro Q x hx
      rcases List.mem_map.mp hx with ⟨c, _, rfl⟩
      left
      simp
    have hfacts := lwrLoop_facts ((S.map (fun c => [c])).length) (S.map (fun c => [c]))
      [] 0 pr.1 pr.2 hw0syms (by rw [hres])
    have hflat : pr.2.flatten = S := hfacts.1.trans (flatten_map_singleton S)
    have hcatP : prodConcat pr.1 :=
      hfacts.2.1 (fun kv hkv => absurd hkv (List.not_mem_nil kv))
    have h2 : (if pr.2.length = 1 then some pr.1
        else some (updateA pr.1 (produceTrivialGrammar pr.2))) = some G := h
    split at h2
    · next hlen1 =>
        simp only [Option.some.injEq] at h2
        rw [← h2]
        have hkeyall := hfacts.2.2.2 pr.1 (fun k hk => hk)
          (fun kv hkv => absurd hkv (List.not_mem_nil kv)) (hw0c pr.1)
        refine ⟨hcatP, hkeyall.1, ?_⟩
        intro h2S
        rcases List.length_eq_one.mp hlen1 with ⟨x, hx⟩
        have hxS : x = S := by
          rw [hx, List.flatten_cons, List.flatten_nil, List.append_nil] at hflat
          exact hflat
        have hxmem : x ∈ pr.2 := by
          rw [hx]
          exact List.mem_singleton.mpr rfl
        rcases hkeyall.2 x hxmem with h5 | h5
        · rw [hxS] at h5
          omega
        · rw [hxS] at h5
          exact h5
    · next hlen1 =>
        simp only [Option.some.injEq] at h2
        rw [← h2]
        have hprne : pr.2 ≠ [] := by
          intro hc
          rw [hc, List.flatten_nil] at hflat
          rw [← hflat] at hS
          simp at hS
        have hlen2 : 2 ≤ pr.2.length := by
          have h0 : 0 < pr.2.length := List.length_pos.mpr hprne
          omega
        have hptg := produceTrivialGrammar_facts pr.2 hlen2
        have hsubQ : keySub pr.1 (updateA pr.1 (produceTrivialGrammar pr.2)) :=
          fun k hk => hasKeyA_updateA_left _ _ k hk
        have hmainc := hfacts.2.2.2 (updateA pr.1 (produceTrivialGrammar pr.2)) hsubQ
          (fun kv hkv => absurd hkv (List.not_mem_nil kv))
          (hw0c (updateA pr.1 (produceTrivialGrammar pr.2)))
        refine ⟨updateA_prodConcat _ _ hcatP hptg.1, ?_, ?_⟩
        · intro kv hkv
          rcases mem_updateA (produceTrivialGrammar pr.2) pr.1 kv hkv with h5 | h5
          · exact hmainc.1 kv h5
          · exact hptg.2.2 _ (fun k hk => hasKeyA_updateA_right _ _ k hk)
              hmainc.2 kv h5
        · intro _
          have hk := hptg.2.1
          rw [hflat] at hk
          exact hasKeyA_updateA_right _ _ S hk

/-- Claim C1: for every nonempty input string `S`, each of the four
algorithms produces a grammar whose recursive expansion from the start
nonterminal (the full string `S`) reproduces exactly `S`: every production
concatenates to its key, every right-hand-side symbol of length at least 2
is itself a key, and `S` is a key whenever it has at least two characters,
so the expander of the specification terminates with `S` itself. For the
exhaustive, Sakamoto and Lehman1 algorithms the statement covers every
grammar the embedded function returns. -/
theorem expansion_correct (S : Str) (hS : 1 ≤ S.length) :
    expandSym (S.length + 1) (getBisectionGrammar S) S = some S ∧
    (∀ G : Grammar, getExhaustiveGrammar S = some G →
      expandSym (S.length + 1) G S = some S) ∧
    (∀ G : Grammar, getSakamotoGrammar S = some G →
      expandSym (S.length + 1) G S = some S) ∧
    (∀ G : Grammar, getLehman1Grammar S = Except.ok G →
      expandSym (S.length + 1) G S = some S) := by
  have hside : ∀ G : Grammar, (2 ≤ S.length → hasKeyA G S = true) →
      (S.length ≤ 1 ∨ hasKeyA G S = true) := by
    intro G hk
    by_cases h2 : 2 ≤ S.length
    · exact Or.inr (hk h2)
    · exact Or.inl (by omega)
  refine ⟨?_, ?_, ?_, ?_⟩
  · have hf := getBisectionGrammar_expansion_facts S
    exact expandSym_self (getBisectionGrammar S) (getBisectionGrammar_lenDecreasing S)
      hf.1 hf.2.1 (S.length + 1) S (by omega) (hside _ hf.2.2)
  · intro G hG
    rw [getExhaustiveGrammar] at hG
    have hmem : G ∈ generateAllGrammars S := pyMinBy_mem _ _ _ hG
    have hcat := generateAllGrammars_prodConcat S.length S (Nat.le_refl _) G hmem
    have hclo := generateAllGrammars_closure S.length S (Nat.le_refl _) G hmem
    exact expandSym_self G
      (generateAllGrammars_lenDecreasing S.length S (Nat.le_refl _) G hmem)
      hcat hclo.1 (S.length + 1) S (by omega) (hside G hclo.2)
  · intro G hG
    have hf := getSakamotoGrammar_expansion_facts S hS G hG
    exact expandSym_self G (getSakamotoGrammar_lenDecreasing S G hG) hf.1 hf.2.1
      (S.length + 1) S (by omega) (hside G hf.2.2)
  · intro G hG
    have hf := getLehman1Grammar_expansion_facts S hS G hG
    exact expandSym_self G (getLehman1Grammar_lenDecreasing S hS G hG) hf.1 hf.2.1
      (S.length + 1) S (by omega) (hside G hf.2.2)

/-- Witness for C1: on the concrete input `"ab"` the bisection grammar
expands back to the input. -/
theorem expansion_correct_witness :
    expandSym ((strOf "ab").length + 1) (getBisectionGrammar (strOf "ab")) (strOf "ab")
      = some (strOf "ab") :=
  (expansion_correct (strOf "ab") (by decide)).1

/-! ### Lehman1 never raises: the substring-construction grammar admits a
two-piece decomposition of every contiguous slice -/

theorem insFold_mem {α β : Type} [DecidableEq α] (keyf : Nat → α) (valf : Nat → β) :
    ∀ (l : List Nat) (d : List (α × β)) (kv : α × β),
      kv ∈ l.foldl (fun g i => insertA g (keyf i) (valf i)) d →
      kv ∈ d ∨ ∃ i ∈ l, kv = (keyf i, valf i) := by
  intro l
  induction l with
  | nil => exact fun d kv hkv => Or.inl hkv
  | cons i rest ih =>
      intro d kv hkv
      rw [List.foldl_cons] at hkv
      rcases ih _ kv hkv with h1 | h1
      · rcases mem_insertA d _ _ kv h1 with h2 | h2
        · exact Or.inr ⟨i, List.mem_cons_self _ _, h2⟩
        · exact Or.inl h2
      · rcases h1 with ⟨i2, hi2, heq⟩
        exact Or.inr ⟨i2, List.mem_cons_of_mem _ hi2, heq⟩

theorem insFold_key {α β : Type} [DecidableEq α] (keyf : Nat → α) (valf : Nat → β) :
    ∀ (l : List Nat) (d : List (α × β)) (i : Nat), i ∈ l →
      hasKeyA (l.foldl (fun g i => insertA g (keyf i) (valf i)) d) (keyf i) = true := by
  intro l
  induction l with
  | nil =>
      intro d i hi
      exact absurd hi (List.not_mem_nil i)
  | cons i0 rest ih =>
      intro d i hi
      rw [List.foldl_cons]
      rcases List.mem_cons.mp hi with h1 | h1
      · subst h1
        exact foldl_preserve (fun g : List (α × β) => hasKeyA g (keyf i) = true)
          (fun _ => True) _ (fun b a hb _ => hasKeyA_insertA_mono b _ _ _ hb) rest
          (fun _ _ => trivial) _ (hasKeyA_insertA_self d _ _)
      · exact ih _ i h1

theorem subConstrRecurse_keys_mono (n : Nat) :
    ∀ C : List Str, C.length ≤ n → ∀ (g : Grammar) (k : Str),
      hasKeyA g k = true → hasKeyA (subConstrRecurse C g) k = true := by
  induction n with
  | zero =>
      intro C hC g k hk
      rw [subConstrRecurse, dif_pos (show C.length ≤ 1 by omega)]
      exact hk
  | succ n ih =>
      intro C hC g k hk
      by_cases h1 : C.length ≤ 1
      · rw [subConstrRecurse, dif_pos h1]
        exact hk
      · rw [subConstrRecurse, dif_neg h1]
        refine ih (C.drop (C.length / 2)) (by simp only [List.length_drop]; omega) _ k ?_
        refine ih (C.take (C.length / 2)) (by simp only [List.length_take]; omega) _ k ?_
        refine foldl_preserve (fun g : Grammar => hasKeyA g k = true) (fun _ : Nat => True)
          _ (fun b a hb _ => hasKeyA_insertA_mono b _ k _ hb) _ (fun _ _ => trivial) _ ?_
        exact foldl_preserve (fun g : Grammar => hasKeyA g k = true) (fun _ : Nat => True)
          _ (fun b a hb _ => hasKeyA_insertA_mono b _ k _ hb) _ (fun _ _ => trivial) _ hk

theorem take_slice_eq (C : List Str) (mm a t : Nat) (h : a + t ≤ mm) :
    ((C.take mm).drop a).take t = (C.drop a).take t := by
  rw [List.drop_take, List.take_take]
  congr 1
  omega

theorem drop_slice_eq (C : List Str) (mm a t : Nat) :
    ((C.drop mm).drop a).take t = (C.drop (mm + a)).take t := by
  rw [List.drop_drop]

/-- Any slice of at least two segments splits at some interior point into
two parts, each a single segment or a key of the substring-construction
grammar: the top-level call keys every slice `[i, m)` with `i ≤ m - 2` and
every slice `[m, j)` with `j ≥ m + 2`, and the recursion covers slices
lying inside either half. -/
theorem subConstr_split (n : Nat) :
    ∀ C : List Str, C.length ≤ n → ∀ (g : Grammar) (a b : Nat),
      b ≤ C.length → a + 2 ≤ b →
      ∃ x, a < x ∧ x < b ∧
        (x = a + 1 ∨
          hasKeyA (subConstrRecurse C g) ((C.drop a).take (x - a)).flatten = true) ∧
        (x = b - 1 ∨
          hasKeyA (subConstrRecurse C g) ((C.drop x).take (b - x)).flatten = true) := by
  induction n with
  | zero =>
      intro C hC g a b hb hab
      omega
  | succ n ih =>
      intro C hC g a b hb hab
      have h1 : ¬ C.length ≤ 1 := by omega
      have hstep : subConstrRecurse C g
          = subConstrRecurse (C.drop (C.length / 2))
              (subConstrRecurse (C.take (C.length / 2))
                ((List.range' (C.length / 2 + 1) (C.length - (C.length / 2 + 1))).foldl
                  (fun g i =>
                    insertA g ((C.drop (C.length / 2)).take (i + 1 - C.length / 2)).flatten
                      [((C.drop (C.length / 2)).take (i - C.length / 2)).flatten,
                        C.getD i []])
                  ((List.range (C.length / 2 - 1)).foldl
                    (fun g i =>
                      insertA g ((C.drop i).take (C.length / 2 - i)).flatten
                        [C.getD i [],
                          ((C.drop (i + 1)).take (C.length / 2 - (i + 1))).flatten])
                    g))) := by
        rw [subConstrRecurse, dif_neg h1]
      have hmono2 : ∀ k : Str,
          hasKeyA ((List.range' (C.length / 2 + 1) (C.length - (C.length / 2 + 1))).foldl
            (fun g i =>
              insertA g ((C.drop (C.length / 2)).take (i + 1 - C.length / 2)).flatten
                [((C.drop (C.length / 2)).take (i - C.length / 2)).flatten, C.getD i []])
            ((List.range (C.length / 2 - 1)).foldl
              (fun g i =>
                insertA g ((C.drop i).take (C.length / 2 - i)).flatten
                  [C.getD i [],
                    ((C.drop (i + 1)).take (C.length / 2 - (i + 1))).flatten])
              g)) k = true →
          hasKeyA (subConstrRecurse C g) k = true := by
        intro k hk
        rw [hstep]
        refine subConstrRecurse_keys_mono (C.drop (C.length / 2)).length _
          (Nat.le_refl _) _ k ?_
        exact subConstrRecurse_keys_mono (C.take (C.length / 2)).length _
          (Nat.le_refl _) _ k hk
      by_cases hB : b ≤ C.length / 2
      · have hlen : (C.take (C.length / 2)).length = C.length / 2 := by
          simp only [List.length_take]
          omega
        obtain ⟨x, hx1, hx2, hc1, hc2⟩ := ih (C.take (C.length / 2))
          (by rw [hlen]; omega) _ a b (by rw [hlen]; omega) hab
        refine ⟨x, hx1, hx2, ?_, ?_⟩
        · rcases hc1 with h2 | h2
          · exact Or.inl h2
          · right
            rw [take_slice_eq C (C.length / 2) a (x - a) (by omega)] at h2
            rw [hstep]
            exact subConstrRecurse_keys_mono (C.drop (C.length / 2)).length _
              (Nat.le_refl _) _ _ h2
        · rcases hc2 with h2 | h2
          · exact Or.inl h2
          · right
            rw [take_slice_eq C (C.length / 2) x (b - x) (by omega)] at h2
            rw [hstep]
            exact subConstrRecurse_keys_mono (C.drop (C.length / 2)).length _
              (Nat.le_refl _) _ _ h2
      · by_cases hC2 : C.length / 2 ≤ a
        · have hlen : (C.drop (C.length / 2)).length = C.length - C.length / 2 := by
            simp only [List.length_drop]
          obtain ⟨x, hx1, hx2, hc1, hc2⟩ := ih (C.drop (C.length / 2))
            (by rw [hlen]; omega) _ (a - C.length / 2) (b - C.length / 2)
            (by rw [hlen]; omega) (by omega)
          refine ⟨C.length / 2 + x, by omega, by omega, ?_, ?_⟩
          · rcases hc1 with h2 | h2
            · exact Or.inl (by omega)
            · right
              rw [drop_slice_eq C (C.length / 2) (a - C.length / 2) (x - (a - C.length / 2))]
                at h2
              rw [show C.length / 2 + (a - C.length / 2) = a from by omega] at h2
              rw [show x - (a - C.length / 2) = C.length / 2 + x - a from by omega] at h2
              rw [hstep]
              exact h2
          · rcases hc2 with h2 | h2
            · exact Or.inl (by omega)
            · right
              rw [drop_slice_eq C (C.length / 2) x (b - C.length / 2 - x)] at h2
              rw [show b - C.length / 2 - x = b - (C.length / 2 + x) from by omega] at h2
              rw [hstep]
              exact h2
        · refine ⟨C.length / 2, by omega, by omega, ?_, ?_⟩
          · by_cases hx1 : C.length / 2 = a + 1
            · exact Or.inl hx1
            · right
              refine hmono2 _ ?_
              refine foldl_preserve
                (fun g2 : Grammar =>
                  hasKeyA g2 ((C.drop a).take (C.length / 2 - a)).flatten = true)
                (fun _ : Nat => True) _
                (fun b2 a2 hb2 _ => hasKeyA_insertA_mono b2 _ _ _ hb2) _
                (fun _ _ => trivial) _ ?_
              exact insFold_key (fun i => ((C.drop i).take (C.length / 2 - i)).flatten)
                (fun i => [C.getD i [],
                  ((C.drop (i + 1)).take (C.length / 2 - (i + 1))).flatten])
                (List.range (C.length / 2 - 1)) g a
                (List.mem_range.mpr (by omega))
          · by_cases hx2 : C.length / 2 = b - 1
            · exact Or.inl hx2
            · right
              refine hmono2 _ ?_
              have hkey := insFold_key
                (fun i => ((C.drop (C.length / 2)).take (i + 1 - C.length / 2)).flatten)
                (fun i => [((C.drop (C.length / 2)).take (i - C.length / 2)).flatten,
                  C.getD i []])
                (List.range' (C.length / 2 + 1) (C.length - (C.length / 2 + 1)))
                ((List.range (C.length / 2 - 1)).foldl
                  (fun g i =>
                    insertA g ((C.drop i).take (C.length / 2 - i)).flatten
                      [C.getD i [],
                        ((C.drop (i + 1)).take (C.length / 2 - (i + 1))).flatten])
                  g)
                (b - 1) (List.mem_range'_1.mpr ⟨by omega, by omega⟩)
              rw [show b - C.length / 2 = b - 1 + 1 - C.length / 2 from by omega]
              exact hkey

/-- Every entry of the substring-construction grammar is inherited or has
each right-hand-side symbol short, a segment of `C`, or itself a key. -/
theorem subConstr_closed (n : Nat) :
    ∀ C : List Str, C.length ≤ n → ∀ g : Grammar, ∀ kv ∈ subConstrRecurse C g,
      kv ∈ g ∨ ∀ m ∈ kv.2, m.length ≤ 1 ∨ m ∈ C ∨
        hasKeyA (subConstrRecurse C g) m = true := by
  induction n with
  | zero =>
      intro C hC g kv hkv
      rw [subConstrRecurse, dif_pos (show C.length ≤ 1 by omega)] at hkv
      exact Or.inl hkv
  | succ n ih =>
      intro C hC g kv hkv
      by_cases h1 : C.length ≤ 1
      · rw [subConstrRecurse, dif_pos h1] at hkv
        exact Or.inl hkv
      · have hstep : subConstrRecurse C g
            = subConstrRecurse (C.drop (C.length / 2))
                (subConstrRecurse (C.take (C.length / 2))
                  ((List.range' (C.length / 2 + 1) (C.length - (C.length / 2 + 1))).foldl
                    (fun g i =>
                      insertA g ((C.drop (C.length / 2)).take (i + 1 - C.length / 2)).flatten
                        [((C.drop (C.length / 2)).take (i - C.length / 2)).flatten,
                          C.getD i []])
                    ((List.range (C.length / 2 - 1)).foldl
                      (fun g i =>
                        insertA g ((C.drop i).take (C.length / 2 - i)).flatten
                          [C.getD i [],
                            ((C.drop (i + 1)).take (C.length / 2 - (i + 1))).flatten])
                      g))) := by
          rw [subConstrRecurse, dif_neg h1]
        have hmono2 : ∀ k : Str,
            hasKeyA ((List.range' (C.length / 2 + 1) (C.length - (C.length / 2 + 1))).foldl
              (fun g i =>
                insertA g ((C.drop (C.length / 2)).take (i + 1 - C.length / 2)).flatten
                  [((C.drop (C.length / 2)).take (i - C.length / 2)).flatten, C.getD i []])
              ((List.range (C.length / 2 - 1)).foldl
                (fun g i =>
                  insertA g ((C.drop i).take (C.length / 2 - i)).flatten
                    [C.getD i [],
                      ((C.drop (i + 1)).take (C.length / 2 - (i + 1))).flatten])
                g)) k = true →
            hasKeyA (subConstrRecurse C g) k = true := by
          intro k hk
          rw [hstep]
          refine subConstrRecurse_keys_mono (C.drop (C.length / 2)).length _
            (Nat.le_refl _) _ k ?_
          exact subConstrRecurse_keys_mono (C.take (C.length / 2)).length _
            (Nat.le_refl _) _ k hk
        rw [hstep] at hkv
        rcases ih (C.drop (C.length / 2)) (by simp only [List.length_drop]; omega)
            _ kv hkv with h2 | h2
        · rcases ih (C.take (C.length / 2)) (by simp only [List.length_take]; omega)
              _ kv h2 with h3 | h3
          · rcases insFold_mem
                (fun i => ((C.drop (C.length / 2)).take (i + 1 - C.length / 2)).flatten)
                (fun i => [((C.drop (C.length / 2)).take (i - C.length / 2)).flatten,
                  C.getD i []]) _ _ kv h3 with h4 | h4
            · rcases insFold_mem
                  (fun i => ((C.drop i).take (C.length / 2 - i)).flatten)
                  (fun i => [C.getD i [],
                    ((C.drop (i + 1)).take (C.length / 2 - (i + 1))).flatten])
                  _ _ kv h4 with h5 | h5
              · exact Or.inl h5
              · rcases h5 with ⟨i, hi, heq⟩
                have hir := List.mem_range.mp hi
                right
                rw [heq]
                intro m hm
                simp only [List.mem_cons, List.not_mem_nil, or_false] at hm
                have hiC : i < C.length := by omega
                rcases hm with h6 | h6
                · right
                  left
                  rw [h6, List.getD_eq_getElem C [] hiC]
                  exact List.getElem_mem hiC
                · by_cases h7 : C.length / 2 - (i + 1) = 1
                  · right
                    left
                    rw [h6, h7]
                    have hi1 : i + 1 < C.length := by omega
                    rw [drop_take_cons C (i + 1) 1 hi1 (Nat.le_refl _)]
                    simp only [Nat.sub_self, List.take_zero, List.flatten_cons,
                      List.flatten_nil, List.append_nil]
                    exact List.getElem_mem hi1
                  · right
                    right
                    rw [h6]
                    refine hmono2 _ ?_
                    refine foldl_preserve
                      (fun g2 : Grammar => hasKeyA g2
                        ((C.drop (i + 1)).take (C.length / 2 - (i + 1))).flatten = true)
                      (fun _ : Nat => True) _
                      (fun b2 a2 hb2 _ => hasKeyA_insertA_mono b2 _ _ _ hb2) _
                      (fun _ _ => trivial) _ ?_
                    exact insFold_key
                      (fun i => ((C.drop i).take (C.length / 2 - i)).flatten)
                      (fun i => [C.getD i [],
                        ((C.drop (i + 1)).take (C.length / 2 - (i + 1))).flatten])
                      (List.range (C.length / 2 - 1)) g (i + 1)
                      (List.mem_range.mpr (by omega))
            · rcases h4 with ⟨i, hi, heq⟩
              have hir := List.mem_range'_1.mp hi
              right
              rw [heq]
              intro m hm
              simp only [List.mem_cons, List.not_mem_nil, or_false] at hm
              have hiC : i < C.length := by omega
              rcases hm with h6 | h6
              · by_cases h7 : i - C.length / 2 = 1
                · right
                  left
                  rw [h6, h7]
                  have hm2 : C.length / 2 < C.length := by omega
                  rw [drop_take_cons C (C.length / 2) 1 hm2 (Nat.le_refl _)]
                  simp only [Nat.sub_self, List.take_zero, List.flatten_cons,
                    List.flatten_nil, List.append_nil]
                  exact List.getElem_mem hm2
                · right
                  right
                  rw [h6]
                  refine hmono2 _ ?_
                  have hkey := insFold_key
                    (fun i => ((C.drop (C.length / 2)).take (i + 1 - C.length / 2)).flatten)
                    (fun i => [((C.drop (C.length / 2)).take (i - C.length / 2)).flatten,
                      C.getD i []])
                    (List.range' (C.length / 2 + 1) (C.length - (C.length / 2 + 1)))
                    ((List.range (C.length / 2 - 1)).foldl
                      (fun g i =>
                        insertA g ((C.drop i).take (C.length / 2 - i)).flatten
                          [C.getD i [],
                            ((C.drop (i + 1)).take (C.length / 2 - (i + 1))).flatten])
                      g)
                    (i - 1) (List.mem_range'_1.mpr ⟨by omega, by omega⟩)
                  rw [show i - C.length / 2 = i - 1 + 1 - C.length / 2 from by omega]
                  exact hkey
              · right
                left
                rw [h6, List.getD_eq_getElem C [] hiC]
                exact List.getElem_mem hiC
          · right
            intro m hm
            rcases h3 m hm with h4 | h4 | h4
            · exact Or.inl h4
            · exact Or.inr (Or.inl (List.mem_of_mem_take h4))
            · right
              right
              rw [hstep]
              exact subConstrRecurse_keys_mono (C.drop (C.length / 2)).length _
                (Nat.le_refl _) _ _ h4
        · right
          intro m hm
          rcases h2 m hm with h4 | h4 | h4
          · exact Or.inl h4
          · exact Or.inr (Or.inl (List.mem_of_mem_drop h4))
          · right
            right
            rw [hstep]
            exact h4

/-- A valid interior split exists for the slice `[a, b)` of `C`: both
halves are single segments or keys of `g`. -/
def splitOkIn (g : Grammar) (C : List Str) : Prop :=
  ∀ a b : Nat, b ≤ C.length → a + 2 ≤ b →
    ∃ x, a < x ∧ x < b ∧
      (x = a + 1 ∨ hasKeyA g ((C.drop a).take (x - a)).flatten = true) ∧
      (x = b - 1 ∨ hasKeyA g ((C.drop x).take (b - x)).flatten = true)

theorem splitOkIn_mono (g g2 : Grammar) (C : List Str)
    (hsub : ∀ k : Str, hasKeyA g k = true → hasKeyA g2 k = true)
    (h : splitOkIn g C) : splitOkIn g2 C := by
  intro a b hb hab
  obtain ⟨x, hx1, hx2, hc1, hc2⟩ := h a b hb hab
  refine ⟨x, hx1, hx2, ?_, ?_⟩
  · rcases hc1 with h2 | h2
    · exact Or.inl h2
    · exact Or.inr (hsub _ h2)
  · rcases hc2 with h2 | h2
    · exact Or.inl h2
    · exact Or.inr (hsub _ h2)

/-- When some interior split satisfies the membership test, `chooseSplit`
returns a split satisfying it (the `find?` cannot fall through). -/
theorem chooseSplit_found (g : Grammar) (C : List Str) (start e : Nat)
    (hex : ∃ x, start < x ∧ x < e ∧
      (x = start + 1 ∨ hasKeyA g ((C.drop start).take (x - start)).flatten = true) ∧
      (x = e - 1 ∨ hasKeyA g ((C.drop x).take (e - x)).flatten = true)) :
    (chooseSplit g C start e = start + 1 ∨
      hasKeyA g ((C.drop start).take (chooseSplit g C start e - start)).flatten = true) ∧
    (chooseSplit g C start e = e - 1 ∨
      hasKeyA g ((C.drop (chooseSplit g C start e)).take
        (e - chooseSplit g C start e)).flatten = true) := by
  obtain ⟨x, hx1, hx2, hc1, hc2⟩ := hex
  have hpred : ((x == start + 1 ||
      hasKeyA g ((C.drop start).take (x - start)).flatten) &&
      (x == e - 1 || hasKeyA g ((C.drop x).take (e - x)).flatten)) = true := by
    simp only [Bool.and_eq_true, Bool.or_eq_true, beq_iff_eq]
    exact ⟨hc1, hc2⟩
  have hxmem : x ∈ List.range' (start + 1) (e - (start + 1)) :=
    List.mem_range'_1.mpr ⟨by omega, by omega⟩
  rw [chooseSplit]
  rcases hfind : (List.range' (start + 1) (e - (start + 1))).find? (fun split =>
      (split == start + 1 ||
        hasKeyA g ((C.drop start).take (split - start)).flatten) &&
      (split == e - 1 || hasKeyA g ((C.drop split).take (e - split)).flatten))
      with _ | sp
  · exact absurd hpred (List.find?_eq_none.mp hfind x hxmem)
  · have hsp := List.find?_some hfind
    simp only [Bool.and_eq_true, Bool.or_eq_true, beq_iff_eq] at hsp
    exact hsp

theorem closedG_closureOk (g : Grammar) (h : closedG g) : closureOk g = true := by
  rw [closureOk, List.all_eq_true]
  intro kv hkv
  rw [List.all_eq_true]
  intro v hv
  rcases h kv hkv v hv with h1 | h1
  · simp only [Bool.or_eq_true]
    exact Or.inl (decide_eq_true h1)
  · simp only [Bool.or_eq_true]
    exact Or.inr h1

/-! ### Lehman1 never raises: the greedy merge keeps every original string
occurring at a recorded offset of a live string -/

/-- The running maximum of `computeOverlap` always pairs a cut with a
genuine suffix-prefix match. -/
theorem computeOverlap_match (s1 s2 : Str) :
    (computeOverlap s1 s2).1 + (computeOverlap s1 s2).2.1 = s1.length ∧
    s1.drop (computeOverlap s1 s2).2.1 = s2.take (computeOverlap s1 s2).1 := by
  rw [computeOverlap]
  refine foldl_preserve
    (fun best : Nat × Nat × Nat => best.1 + best.2.1 = s1.length ∧
      s1.drop best.2.1 = s2.take best.1)
    (fun i : Nat => i ≤ s1.length) _ ?_ _ ?_ _ ?_
  · intro best i hbest hi
    split
    · next hmatch =>
        rw [pyMax3]
        split
        · exact ⟨by show i + (s1.length - i) = s1.length; omega, hmatch⟩
        · exact hbest
    · exact hbest
  · intro i hi
    have := List.mem_range'_1.mp hi
    omega
  · refine ⟨by show 0 + s1.length = s1.length; omega, ?_⟩
    show s1.drop s1.length = s2.take 0
    rw [List.drop_length, List.take_zero]

/-- The original string `t` occurs at a recorded offset of a live string. -/
def OccW (strings : List Str) (d : List (Str × List Nat)) (t : Str) : Prop :=
  ∃ s ∈ strings, ∃ offs, lookupA d s = some offs ∧
    ∃ o ∈ offs, o + t.length ≤ s.length ∧ (s.drop o).take t.length = t

theorem foldl_insert0_lookup_notmem (Ss : List Str) :
    ∀ (d : List (Str × List Nat)) (t : Str), t ∉ Ss →
      lookupA (Ss.foldl (fun d s => insertA d s [0]) d) t = lookupA d t := by
  induction Ss with
  | nil => exact fun d t _ => rfl
  | cons s rest ih =>
      intro d t ht
      rw [List.foldl_cons]
      rw [ih _ t (fun hc => ht (List.mem_cons_of_mem _ hc))]
      rw [lookupA_insertA]
      rw [if_neg (fun hc => ht (by rw [← hc]; exact List.mem_cons_self _ _))]

theorem foldl_insert0_lookup (Ss : List Str) :
    ∀ (d : List (Str × List Nat)) (t : Str), t ∈ Ss →
      lookupA (Ss.foldl (fun d s => insertA d s [0]) d) t = some [0] := by
  induction Ss with
  | nil =>
      intro d t ht
      exact absurd ht (List.not_mem_nil t)
  | cons s rest ih =>
      intro d t ht
      rw [List.foldl_cons]
      by_cases h1 : t ∈ rest
      · exact ih _ t h1
      · have hts : t = s := by
          rcases List.mem_cons.mp ht with h2 | h2
          · exact h2
          · exact absurd h2 h1
        rw [foldl_insert0_lookup_notmem rest _ t h1, hts, lookupA_insertA, if_pos rfl]

/-- One greedy merge step preserves the occurrence witness: an occurrence
inside `p1` stays in place (`p1` is a prefix of the merged string), an
occurrence inside `p2` is shifted by the cut, and all other strings and
dictionary entries are untouched. -/
theorem blum_step_occ (strings : List Str) (d : List (Str × List Nat)) (p1 p2 t : Str)
    (h : OccW strings d t) :
    OccW ((strings.erase p1).erase p2 ++ [p1.take (computeOverlap p1 p2).2.1 ++ p2])
      (insertA
        (if hasKeyA d (p1.take (computeOverlap p1 p2).2.1 ++ p2) then d
         else insertA d (p1.take (computeOverlap p1 p2).2.1 ++ p2) [])
        (p1.take (computeOverlap p1 p2).2.1 ++ p2)
        ((lookupA (if hasKeyA d (p1.take (computeOverlap p1 p2).2.1 ++ p2) then d
            else insertA d (p1.take (computeOverlap p1 p2).2.1 ++ p2) [])
            (p1.take (computeOverlap p1 p2).2.1 ++ p2)).getD [] ++
          (lookupA (if hasKeyA d (p1.take (computeOverlap p1 p2).2.1 ++ p2) then d
            else insertA d (p1.take (computeOverlap p1 p2).2.1 ++ p2) [])
            p1).getD [] ++
          ((lookupA (if hasKeyA d (p1.take (computeOverlap p1 p2).2.1 ++ p2) then d
            else insertA d (p1.take (computeOverlap p1 p2).2.1 ++ p2) [])
            p2).getD []).map (fun i => i + (computeOverlap p1 p2).2.1))) t := by
  have hov := computeOverlap_match p1 p2
  set cut := (computeOverlap p1 p2).2.1 with hcutdef
  set merged := p1.take cut ++ p2 with hmergeddef
  set d1 := if hasKeyA d merged then d else insertA d merged [] with hd1def
  set offsNew := (lookupA d1 merged).getD [] ++ (lookupA d1 p1).getD [] ++
    ((lookupA d1 p2).getD []).map (fun i => i + cut) with hoffsdef
  have hcutle : cut ≤ p1.length := by
    have h1 := hov.1
    omega
  have hlen1 : (p1.take cut).length = cut := by
    rw [List.length_take]
    omega
  have htake1 : merged.take p1.length = p1 := by
    rw [hmergeddef]
    rw [show p1.length = (p1.take cut).length + (computeOverlap p1 p2).1 from by
      rw [hlen1]; omega]
    rw [List.take_append]
    rw [← hov.2, List.take_append_drop]
  have hp1pref : p1 <+: merged := List.prefix_iff_eq_take.mpr htake1.symm
  have hp1le : p1.length ≤ merged.length := hp1pref.length_le
  have hdropcut : merged.drop cut = p2 := by
    rw [hmergeddef]
    exact List.drop_left' hlen1
  have hmergedlen : merged.length = cut + p2.length := by
    rw [hmergeddef, List.length_append, hlen1]
  have hd1look : ∀ s : Str, s ≠ merged → lookupA d1 s = lookupA d s := by
    intro s hs
    rw [hd1def]
    split
    · rfl
    · rw [lookupA_insertA, if_neg (fun hc => hs hc.symm)]
  have hlookother : ∀ s : Str, s ≠ merged →
      lookupA (insertA d1 merged offsNew) s = lookupA d s := by
    intro s hs
    rw [lookupA_insertA, if_neg (fun hc => hs hc.symm)]
    exact hd1look s hs
  have hlookM : lookupA (insertA d1 merged offsNew) merged = some offsNew := by
    rw [lookupA_insertA, if_pos rfl]
  have hMmem : merged ∈ (strings.erase p1).erase p2 ++ [merged] :=
    List.mem_append.mpr (Or.inr (List.mem_singleton.mpr rfl))
  obtain ⟨s, hsmem, offs, hlook, o, ho, hbound, hocc⟩ := h
  have hkeyed : ∀ u : Str, lookupA d u = some offs → hasKeyA d u = true := by
    intro u hu
    show (lookupA d u).isSome = true
    rw [hu]
    rfl
  have hd1self : ∀ u : Str, lookupA d u = some offs → lookupA d1 u = some offs := by
    intro u hu
    by_cases hum : u = merged
    · rw [hd1def]
      rw [hum] at hu
      rw [if_pos (hkeyed merged hu), hum]
      exact hu
    · rw [hd1look u hum]
      exact hu
  by_cases hs1 : s = p1
  · subst hs1
    refine ⟨merged, hMmem, offsNew, hlookM, o + 0, ?_, ?_, ?_⟩
    · rw [hoffsdef]
      refine List.mem_append.mpr (Or.inl (List.mem_append.mpr (Or.inr ?_)))
      rw [hd1self s hlook, Option.getD_some]
      show o + 0 ∈ offs
      rw [Nat.add_zero]
      exact ho
    · omega
    · rw [Nat.add_zero]
      have hmin : min t.length (s.length - o) = t.length := by omega
      have hstep1 : ((merged.take s.length).drop o).take t.length
          = (merged.drop o).take t.length := by
        rw [List.drop_take, List.take_take, hmin]
      rw [← hstep1, htake1]
      exact hocc
  · by_cases hs2 : s = p2
    · subst hs2
      refine ⟨merged, hMmem, offsNew, hlookM, o + cut, ?_, by omega, ?_⟩
      · rw [hoffsdef]
        refine List.mem_append.mpr (Or.inr ?_)
        refine List.mem_map.mpr ⟨o, ?_, rfl⟩
        rw [hd1self s hlook, Option.getD_some]
        exact ho
      · rw [show o + cut = cut + o from by omega]
        rw [← List.drop_drop, hdropcut]
        exact hocc
    · have hsmem2 : s ∈ (strings.erase p1).erase p2 :=
        (List.mem_erase_of_ne hs2).mpr ((List.mem_erase_of_ne hs1).mpr hsmem)
      by_cases hs3 : s = merged
      · subst hs3
        refine ⟨merged, hMmem, offsNew, hlookM, o, ?_, hbound, hocc⟩
        rw [hoffsdef]
        refine List.mem_append.mpr (Or.inl (List.mem_append.mpr (Or.inl ?_)))
        rw [hd1self merged hlook, Option.getD_some]
        exact ho
      · exact ⟨s, List.mem_append.mpr (Or.inl hsmem2), offs,
          by rw [hlookother s hs3]; exact hlook, o, ho, hbound, hocc⟩

theorem blumLoop_occ (fuel : Nat) :
    ∀ (strings : List Str) (d : List (Str × List Nat)) (t : Str),
      OccW strings d t →
      OccW (blumLoop fuel strings d).1 (blumLoop fuel strings d).2 t := by
  induction fuel with
  | zero =>
      intro strings d t h
      rw [blumLoop]
      exact h
  | succ fuel ih =>
      intro strings d t h
      rw [blumLoop]
      by_cases hlen : strings.length ≤ 1
      · rw [if_pos hlen]
        exact h
      · rw [if_neg hlen]
        refine ih _ _ t ?_
        exact blum_step_occ strings d (pairWithMaximumOverlap strings).1
          (pairWithMaximumOverlap strings).2 t h

/-- The winning triple of the pair scan has ascending indices. -/
theorem bestOverlapTriple_lt (Ss : List Str) (t : Nat × Nat × Nat)
    (h : bestOverlapTriple Ss = some t) : t.2.1 < t.2.2 := by
  rw [bestOverlapTriple] at h
  refine foldl_preserve
    (fun o : Option (Nat × Nat × Nat) => ∀ u, o = some u → u.2.1 < u.2.2)
    (fun ij : Nat × Nat => ij.1 < ij.2)
    _ ?_ _ ?_ none (fun u hu => by cases hu) t h
  · intro b a hb ha u hu
    cases b with
    | none =>
        injection hu with hu1
        rw [← hu1]
        exact ha
    | some b0 =>
        injection hu with hu1
        rw [← hu1, pyMax3]
        split
        · exact ha
        · exact hb b0 rfl
  · exact fun ij hij => by
      have := (mem_pairIndexList Ss.length ij.1 ij.2).mp (by
        have h2 : (ij.1, ij.2) = ij := rfl
        rw [h2]
        exact hij)
      omega

theorem getElem_mem_erase (l : List Str) (i j : Nat) (hij : i < j) (hj : j < l.length)
    (hi : i < l.length) : l[j] ∈ l.erase l[i] := by
  by_cases heq : l[j] = l[i]
  · have hjt : i < (l.take j).length := by
      rw [List.length_take]
      omega
    have htk : (l.take j)[i] = l[i] := List.getElem_take l
    have h1 : l[i] ∈ l.take j := by
      rw [← htk]
      exact List.getElem_mem hjt
    have h2 : l[i] ∈ l.drop j := by
      rw [List.drop_eq_getElem_cons hj]
      exact List.mem_cons.mpr (Or.inl heq.symm)
    have hcount : 2 ≤ l.count l[i] := by
      have hc1 : 1 ≤ (l.take j).count l[i] := List.count_pos_iff.mpr h1
      have hc2 : 1 ≤ (l.drop j).count l[i] := List.count_pos_iff.mpr h2
      have hsplit : (l.take j ++ l.drop j).count l[i]
          = (l.take j).count l[i] + (l.drop j).count l[i] := by
        rw [List.count_append]
      rw [List.take_append_drop] at hsplit
      omega
    have hpos : 0 < (l.erase l[i]).count l[j] := by
      rw [heq, List.count_erase_self]
      omega
    exact List.count_pos_iff.mp hpos
  · exact (List.mem_erase_of_ne heq).mpr (List.getElem_mem hj)

/-- With fuel one less than the number of strings, the merge loop always
finishes with a single string (each iteration merges two into one). -/
theorem blumLoop_one (fuel : Nat) :
    ∀ (strings : List Str) (d : List (Str × List Nat)),
      strings.length ≤ fuel + 1 → 1 ≤ strings.length →
      (blumLoop fuel strings d).1.length = 1 := by
  induction fuel with
  | zero =>
      intro strings d h1 h2
      rw [blumLoop]
      show strings.length = 1
      omega
  | succ fuel ih =>
      intro strings d h1 h2
      rw [blumLoop]
      by_cases hlen : strings.length ≤ 1
      · rw [if_pos hlen]
        show strings.length = 1
        omega
      · rw [if_neg hlen]
        have h2len : 2 ≤ strings.length := by omega
        obtain ⟨tt, htt⟩ := bestOverlapTriple_some strings h2len
        have hidx := bestOverlapTriple_indices strings tt htt
        have hij := bestOverlapTriple_lt strings tt htt
        have hp : pairWithMaximumOverlap strings
            = (strings.getD tt.2.1 [], strings.getD tt.2.2 []) := by
          rw [pairWithMaximumOverlap, htt]
        have hi : tt.2.1 < strings.length := by omega
        have hp1mem : (pairWithMaximumOverlap strings).1 ∈ strings := by
          rw [hp]
          show strings.getD tt.2.1 [] ∈ strings
          rw [List.getD_eq_getElem strings [] hi]
          exact List.getElem_mem hi
        have hp2mem : (pairWithMaximumOverlap strings).2
            ∈ strings.erase (pairWithMaximumOverlap strings).1 := by
          rw [hp]
          show strings.getD tt.2.2 [] ∈ strings.erase (strings.getD tt.2.1 [])
          rw [List.getD_eq_getElem strings [] hi, List.getD_eq_getElem strings [] hidx.2]
          exact getElem_mem_erase strings tt.2.1 tt.2.2 hij hidx.2 hi
        have hlerase1 : (strings.erase (pairWithMaximumOverlap strings).1).length
            = strings.length - 1 := List.length_erase_of_mem hp1mem
        have hlerase2 : ((strings.erase (pairWithMaximumOverlap strings).1).erase
            (pairWithMaximumOverlap strings).2).length = strings.length - 2 := by
          rw [List.length_erase_of_mem hp2mem, hlerase1]
          omega
        refine ih _ _ ?_ ?_
        · rw [List.length_append, hlerase2, List.length_cons, List.length_nil]
          omega
        · rw [List.length_append, hlerase2, List.length_cons, List.length_nil]
          omega

/-! ### Lehman1 never raises: the break offsets cut the superstring so that
every original string is a prefix of a segment suffix of the next level -/

theorem sliceSplitG {α : Type} (C : List α) (a b c : Nat) (hab : a ≤ b) (_hbc : b ≤ c) :
    (C.drop a).take (c - a) = (C.drop a).take (b - a) ++ (C.drop b).take (c - b) := by
  have h1 : c - a = (b - a) + (c - b) := by omega
  rw [h1, List.take_add]
  congr 2
  rw [List.drop_drop]
  congr 1
  omega

theorem chain_le_getLastD : ∀ (l : List Nat) (x : Nat),
    List.Chain (· ≤ ·) x l → x ≤ l.getLastD x := by
  intro l
  induction l with
  | nil => exact fun x _ => Nat.le_refl x
  | cons y rest ih =>
      intro x hch
      rw [List.chain_cons] at hch
      rw [List.getLastD_cons]
      exact Nat.le_trans hch.1 (ih y hch.2)

theorem pairwise_lt_getLastD : ∀ (l : List Nat) (d y : Nat),
    List.Pairwise (· < ·) l → y ∈ l → y ≤ l.getLastD d := by
  intro l
  induction l with
  | nil =>
      intro d y _ hy
      exact absurd hy (List.not_mem_nil y)
  | cons a rest ih =>
      intro d y hp hy
      rw [List.pairwise_cons] at hp
      rw [List.getLastD_cons]
      rcases List.mem_cons.mp hy with h1 | h1
      · subst h1
        rcases hrest : rest with _ | ⟨b, rest2⟩
        · exact Nat.le_refl y
        · rw [← hrest]
          have hmem : rest.getLastD y ∈ rest :=
            getLastD_mem rest y (by rw [hrest]; simp)
          exact Nat.le_of_lt (hp.1 _ hmem)
      · exact ih a y hp.2 h1

theorem zip_drop {α β : Type} : ∀ (n : Nat) (l1 : List α) (l2 : List β),
    (l1.zip l2).drop n = (l1.drop n).zip (l2.drop n) := by
  intro n
  induction n with
  | zero =>
      intro l1 l2
      rfl
  | succ n ih =>
      intro l1 l2
      match l1, l2 with
      | [], _ => simp
      | _ :: _, [] => simp
      | a :: l1x, b :: l2x =>
          rw [List.zip_cons_cons, List.drop_succ_cons, List.drop_succ_cons,
            List.drop_succ_cons, ih]

theorem mem_suffix_of_lt (l : List Nat) (k : Nat) (o b : Nat)
    (hp : List.Pairwise (· < ·) l) (hd : l.drop k = o :: l.drop (k + 1))
    (hb : b ∈ l) (hob : o < b) : b ∈ l.drop (k + 1) := by
  have hsplit : l = l.take k ++ o :: l.drop (k + 1) := by
    conv_lhs => rw [← List.take_append_drop k l]
    rw [hd]
  rw [hsplit] at hb hp
  rcases List.mem_append.mp hb with h1 | h1
  · exfalso
    have := (List.pairwise_append.mp hp).2.2 b h1 o (List.mem_cons_self _ _)
    omega
  · rcases List.mem_cons.mp h1 with h2 | h2
    · omega
    · exact h2

/-- Telescoping: the consecutive-break slices from `x` onwards concatenate
to the superstring segment from `x` to the last break. -/
theorem zipSlices_flatten (sup : Str) :
    ∀ (idxs : List Nat) (x : Nat), List.Chain (· ≤ ·) x idxs →
      (((x :: idxs).zip idxs).map
        (fun se => (sup.drop se.1).take (se.2 - se.1))).flatten
        = (sup.drop x).take (idxs.getLastD x - x) := by
  intro idxs
  induction idxs with
  | nil =>
      intro x _
      rw [List.zip_nil_right, List.map_nil, List.flatten_nil]
      rw [show ([] : List Nat).getLastD x = x from rfl, Nat.sub_self, List.take_zero]
  | cons y rest ih =>
      intro x hch
      rw [List.chain_cons] at hch
      rw [List.zip_cons_cons, List.map_cons, List.flatten_cons]
      rw [ih y hch.2]
      rw [List.getLastD_cons]
      exact (sliceSplitG sup x y (rest.getLastD y) hch.1
        (chain_le_getLastD rest y hch.2)).symm

/-- An occurrence of `t` at a recorded break offset makes `t` a prefix of
the concatenation of the slices from that break onwards. -/
theorem slices_cover (sup : Str) (os : List Nat) (t : Str) (ht : t ≠ [])
    (hos : ∀ o2 ∈ os, o2 ≤ sup.length) (o : Nat) (ho : o ∈ os)
    (hbound : o + t.length ≤ sup.length)
    (hoccur : (sup.drop o).take t.length = t) :
    ∃ i0, t <+: ((((sortedNub (0 :: os ++ [sup.length])).zip
      (sortedNub (0 :: os ++ [sup.length])).tail).map
        (fun se => (sup.drop se.1).take (se.2 - se.1))).drop i0).flatten := by
  set idxs := sortedNub (0 :: os ++ [sup.length]) with hidxs
  have hlt : List.Pairwise (· < ·) idxs := sortedNub_pairwise_lt _
  have hbnd : ∀ y ∈ idxs, y ≤ sup.length := by
    intro y hy
    have hy2 := (mem_sortedNub_iff _ y).mp hy
    rcases List.mem_cons.mp hy2 with h1 | h1
    · omega
    · rcases List.mem_append.mp h1 with h2 | h2
      · exact hos y h2
      · rw [List.mem_singleton] at h2
        omega
  have homem : o ∈ idxs := (mem_sortedNub_iff _ o).mpr
    (List.mem_cons_of_mem _ (List.mem_append.mpr (Or.inl ho)))
  have hLmem : sup.length ∈ idxs := (mem_sortedNub_iff _ _).mpr
    (List.mem_cons_of_mem _ (List.mem_append.mpr (Or.inr (List.mem_singleton.mpr rfl))))
  have htpos : 1 ≤ t.length := List.length_pos.mpr ht
  have hoL : o < sup.length := by omega
  obtain ⟨⟨i0, hi0lt⟩, hget⟩ := List.mem_iff_get.mp homem
  have hgetE : idxs[i0] = o := hget
  have hdropi0 : idxs.drop i0 = o :: idxs.drop (i0 + 1) := by
    rw [List.drop_eq_getElem_cons hi0lt, hgetE]
  have hLtail : sup.length ∈ idxs.drop (i0 + 1) :=
    mem_suffix_of_lt idxs i0 o sup.length hlt hdropi0 hLmem hoL
  have hpairdrop : List.Pairwise (· < ·) (o :: idxs.drop (i0 + 1)) := by
    rw [← hdropi0]
    exact hlt.sublist (List.drop_sublist i0 idxs)
  have hlast : (idxs.drop (i0 + 1)).getLastD o = sup.length := by
    have hne2 : idxs.drop (i0 + 1) ≠ [] := List.ne_nil_of_mem hLtail
    have hmem2 : (idxs.drop (i0 + 1)).getLastD o ∈ idxs.drop (i0 + 1) :=
      getLastD_mem _ o hne2
    have hle1 : (idxs.drop (i0 + 1)).getLastD o ≤ sup.length :=
      hbnd _ (List.mem_of_mem_drop hmem2)
    have hle2 : sup.length ≤ (idxs.drop (i0 + 1)).getLastD o :=
      pairwise_lt_getLastD _ o _ (List.pairwise_cons.mp hpairdrop).2 hLtail
    omega
  have hchain : List.Chain (· ≤ ·) o (idxs.drop (i0 + 1)) := by
    have h1 : List.Chain' (· ≤ ·) (o :: idxs.drop (i0 + 1)) :=
      (hpairdrop.imp (fun h => Nat.le_of_lt h)).chain'
    exact h1
  refine ⟨i0, ?_⟩
  have hzip : ((idxs.zip idxs.tail).map
      (fun se => (sup.drop se.1).take (se.2 - se.1))).drop i0
      = ((o :: idxs.drop (i0 + 1)).zip (idxs.drop (i0 + 1))).map
        (fun se => (sup.drop se.1).take (se.2 - se.1)) := by
    rw [← List.map_drop]
    rw [zip_drop]
    rw [List.drop_tail]
    rw [hdropi0]
  rw [hzip, zipSlices_flatten sup (idxs.drop (i0 + 1)) o hchain, hlast]
  have hfull : (sup.drop o).take (sup.length - o) = sup.drop o := by
    rw [← List.length_drop]
    exact List.take_length _
  rw [hfull]
  exact List.prefix_iff_eq_take.mpr hoccur.symm

/-- Every original string is a prefix of the flattened suffix of the
merge-and-break output starting at some segment boundary. -/
theorem blum_bridge (Ss : List Str) (hne : Ss ≠ []) (hels : ∀ x ∈ Ss, x ≠ []) :
    ∀ t ∈ Ss, ∃ i0, t <+: ((blumSmallestSuperstringAndBreaking Ss).drop i0).flatten := by
  intro t ht
  have hd0 : ∀ kv ∈ Ss.foldl (fun d s => insertA d s [0]) [], ∀ o ∈ kv.2,
      o ≤ kv.1.length := by
    refine foldl_preserve
      (fun d : List (Str × List Nat) => ∀ kv ∈ d, ∀ o ∈ kv.2, o ≤ kv.1.length)
      (fun _ : Str => True) _ ?_ _ (fun _ _ => trivial) _ ?_
    · intro d s hd _
      exact insertA_offsets d s [0] hd (fun o ho => by
        rw [List.mem_singleton] at ho
        omega)
    · intro kv hkv
      exact absurd hkv (List.not_mem_nil kv)
  have hloop := blumLoop_inv Ss.length Ss _ hels hne hd0
  have hone := blumLoop_one Ss.length Ss (Ss.foldl (fun d s => insertA d s [0]) [])
    (by omega) (List.length_pos.mpr hne)
  have hocc0 : OccW Ss (Ss.foldl (fun d s => insertA d s [0]) []) t := by
    refine ⟨t, ht, [0], foldl_insert0_lookup Ss [] t ht, 0,
      List.mem_singleton.mpr rfl, by omega, ?_⟩
    rw [List.drop_zero, List.take_length]
  have hocc := blumLoop_occ Ss.length Ss (Ss.foldl (fun d s => insertA d s [0]) []) t hocc0
  obtain ⟨a, ha⟩ := List.length_eq_one.mp hone
  obtain ⟨s, hsmem, offs, hlook, o, ho, hbound, hoccur⟩ := hocc
  have hsa : s = a := by
    rw [ha] at hsmem
    exact List.mem_singleton.mp hsmem
  have hsup : (blumLoop Ss.length Ss (Ss.foldl (fun d s => insertA d s [0]) [])).1.getD 0 []
      = a := by
    rw [ha]
    rfl
  have htne : t ≠ [] := hels t ht
  have hlookgetD : (lookupA (blumLoop Ss.length Ss
      (Ss.foldl (fun d s => insertA d s [0]) [])).2
      ((blumLoop Ss.length Ss (Ss.foldl (fun d s => insertA d s [0]) [])).1.getD 0 [])).getD []
      = offs := by
    rw [hsup, ← hsa, hlook, Option.getD_some]
  have hcover := slices_cover
    ((blumLoop Ss.length Ss (Ss.foldl (fun d s => insertA d s [0]) [])).1.getD 0 [])
    ((lookupA (blumLoop Ss.length Ss (Ss.foldl (fun d s => insertA d s [0]) [])).2
      ((blumLoop Ss.length Ss
        (Ss.foldl (fun d s => insertA d s [0]) [])).1.getD 0 [])).getD [])
    t htne
    (lookup_getD_bound _ hloop.2.2 _)
    o (by rw [hlookgetD]; exact ho)
    (by rw [hsup, ← hsa]; exact hbound)
    (by rw [hsup, ← hsa]; exact hoccur)
  exact hcover

theorem splitTooBigs_flatten : ∀ (L : List Str) (k : Nat),
    (splitTooBigs L k).flatten = L.flatten := by
  intro L
  induction L with
  | nil =>
      intro k
      rfl
  | cons s rest ih =>
      intro k
      rw [splitTooBigs, List.flatten_append, ih, List.flatten_cons]
      congr 1
      split
      · rw [List.flatten_cons, List.flatten_cons, List.flatten_nil, List.append_nil,
          List.take_append_drop]
      · rw [List.flatten_cons, List.flatten_nil, List.append_nil]

/-- Splitting only refines segment boundaries: every suffix-at-a-boundary of
the input is a suffix-at-a-boundary of the output. -/
theorem splitTooBigs_refine : ∀ (L : List Str) (k i : Nat),
    ∃ i2, ((splitTooBigs L k).drop i2).flatten = (L.drop i).flatten := by
  intro L
  induction L with
  | nil =>
      intro k i
      refine ⟨0, ?_⟩
      rw [splitTooBigs, List.drop_nil, List.drop_nil]
  | cons s rest ih =>
      intro k i
      match i with
      | 0 =>
          refine ⟨0, ?_⟩
          rw [List.drop_zero, List.drop_zero, splitTooBigs_flatten]
      | i + 1 =>
          obtain ⟨i2, hi2⟩ := ih k i
          refine ⟨(if k < s.length then
            [s.take (s.length / 2), s.drop (s.length / 2)] else [s]).length + i2, ?_⟩
          rw [splitTooBigs, List.drop_succ_cons, List.drop_append, hi2]

/-- Every string of `A` is a prefix of a flattened segment suffix of `B`. -/
def coveredBy (t : Str) (C : List Str) : Prop := ∃ i0, t <+: (C.drop i0).flatten

def bridged (A B : List Str) : Prop := ∀ t ∈ A, coveredBy t B

theorem level_bridged (C : List Str) (k : Nat) (hne : C ≠ []) (hels : ∀ x ∈ C, x ≠ []) :
    bridged C (splitTooBigs (blumSmallestSuperstringAndBreaking C) k) := by
  intro t ht
  obtain ⟨i0, hpref⟩ := blum_bridge C hne hels t ht
  obtain ⟨i2, hflat⟩ := splitTooBigs_refine (blumSmallestSuperstringAndBreaking C) k i0
  refine ⟨i2, ?_⟩
  rw [hflat]
  exact hpref

theorem generateCsLoop_chain (k : Nat) :
    ∀ Cs : List (List Str), levelsGood Cs → Cs ≠ [] →
      List.Chain' bridged Cs → List.Chain' bridged (generateCsLoop k Cs) := by
  induction k using Nat.strong_induction_on with
  | _ k ih =>
      intro Cs hCs hne hch
      rw [generateCsLoop]
      by_cases hk : k < 2
      · rw [if_pos hk]
        exact hch
      · rw [if_neg hk]
        have hlast := hCs (Cs.getLastD []) (getLastD_mem Cs [] hne)
        have hbr : bridged (Cs.getLastD [])
            (splitTooBigs (blumSmallestSuperstringAndBreaking (Cs.getLastD [])) k) :=
          level_bridged _ k hlast.1 hlast.2
        have hblum := blum_output (Cs.getLastD []) hlast.1 hlast.2
        have hsplit := splitTooBigs_symsNE
          (blumSmallestSuperstringAndBreaking (Cs.getLastD [])) k (by omega) hblum.2
        refine ih (k / 2) (by omega) _ ?_ ?_ ?_
        · intro C hC
          rcases List.mem_append.mp hC with h1 | h1
          · exact hCs C h1
          · rw [List.mem_singleton] at h1
            rw [h1]
            exact ⟨hsplit.2 hblum.1, hsplit.1⟩
        · intro hc
          rcases List.append_eq_nil.mp hc with ⟨_, h2⟩
          cases h2
        · rw [List.chain'_append]
          refine ⟨hch, List.chain'_singleton _, ?_⟩
          intro x hx y hy
          have hx2 : Cs.getLastD [] = x := by
            have hxd := Option.mem_def.mp hx
            rw [List.getLastD_eq_getLast?, hxd]
            rfl
          have hy2 : y = splitTooBigs
              (blumSmallestSuperstringAndBreaking (Cs.getLastD [])) k := by
            have hyd := Option.mem_def.mp hy
            rw [List.head?_cons] at hyd
            injection hyd with h
            exact h.symm
          rw [← hx2, hy2]
          exact hbr

theorem generateCs_chain (S : Str) (hS : S ≠ []) :
    List.Chain' bridged (generateCs S) := by
  rw [generateCs]
  refine generateCsLoop_chain _ [[S]] ?_ (by simp) (List.chain'_singleton _)
  intro C hC
  rw [List.mem_singleton] at hC
  rw [hC]
  refine ⟨by simp, ?_⟩
  intro x hx
  rw [List.mem_singleton] at hx
  rw [hx]
  exact hS

/-! ### Lehman1 never raises: the level walk always finds its prefix and
appends only segments or existing keys -/

theorem flpConsume_exit (C : List Str) (n : Nat) :
    ∀ e rem, C.length - e ≤ n →
      ¬((flpConsume C e rem).1 < C.length ∧
        (C.getD (flpConsume C e rem).1 []).length ≤ (flpConsume C e rem).2) := by
  induction n with
  | zero =>
      intro e rem hn
      have hg : ¬(e < C.length ∧ (C.getD e []).length ≤ rem) := by
        rintro ⟨hh1, _⟩
        omega
      rw [flpConsume, dif_neg hg]
      exact hg
  | succ n ih =>
      intro e rem hn
      rw [flpConsume]
      by_cases hg : e < C.length ∧ (C.getD e []).length ≤ rem
      · rw [dif_pos hg]
        exact ih (e + 1) (rem - (C.getD e []).length) (by omega)
      · rw [dif_neg hg]
        exact hg

theorem chain'_of_chain {α : Type} (R : α → α → Prop) (a : α) (l : List α)
    (h : List.Chain R a l) : List.Chain' R l := by
  cases l with
  | nil => trivial
  | cons b l2 =>
      rw [List.chain_cons] at h
      exact h.2

theorem chain_head_rel {α : Type} (R : α → α → Prop) (a : α) (l : List α)
    (h : List.Chain R a l) : ∀ b, l.head? = some b → R a b := by
  intro b hb
  cases l with
  | nil => cases hb
  | cons c l2 =>
      rw [List.head?_cons] at hb
      injection hb with hb2
      rw [← hb2]
      exact (List.chain_cons.mp h).1

/-- The stitching walk never errors when the remainder enters each level as
a prefix at a segment boundary, and every symbol it appends is a segment of
one of the walked levels or an existing key (the chosen split's halves pass
the membership test by `splitOkIn`). -/
theorem stitchLevels_ok :
    ∀ (levels : List (List Str)) (g0 : Grammar) (sRem : Str) (rhs : List Str),
      (∀ C ∈ levels, C ≠ [] ∧ ∀ x ∈ C, x ≠ []) →
      List.Chain' bridged levels →
      (∀ C ∈ levels, splitOkIn g0 C) →
      (∀ C, levels.head? = some C → coveredBy sRem C) →
      ∃ out, stitchLevels g0 levels sRem rhs = Except.ok out ∧
        ∀ m ∈ out.1, m ∈ rhs ∨ (∃ C ∈ levels, m ∈ C) ∨ hasKeyA g0 m = true := by
  intro levels
  induction levels with
  | nil =>
      intro g0 sRem rhs _ _ _ _
      refine ⟨(rhs, sRem), ?_, ?_⟩
      · rw [stitchLevels]
      · intro m hm
        exact Or.inl hm
  | cons C rest ih =>
      intro g0 sRem rhs hgood hch hso hcov
      have hchain : List.Chain bridged C rest := hch
      have hCgood := hgood C (List.mem_cons_self _ _)
      have hCne : C ≠ [] := hCgood.1
      obtain ⟨i0, hpref⟩ := hcov C rfl
      have hfind : ∃ st, findPrefStart sRem C = some st := by
        rcases hf : findPrefStart sRem C with _ | st
        · exfalso
          rw [findPrefStart] at hf
          by_cases hsr : sRem = []
          · have h0 : (0 : Nat) ∈ List.range C.length :=
              List.mem_range.mpr (List.length_pos.mpr hCne)
            have hw : (((C.drop 0).flatten).take sRem.length == sRem) = true := by
              rw [hsr]
              simp
            exact (List.find?_eq_none.mp hf 0 h0) hw
          · have hi0lt : i0 < C.length := by
              by_contra hge
              push_neg at hge
              rw [List.drop_eq_nil_of_le hge, List.flatten_nil] at hpref
              exact hsr (List.prefix_nil.mp hpref)
            have hw : (((C.drop i0).flatten).take sRem.length == sRem) = true := by
              rw [beq_iff_eq]
              exact (List.prefix_iff_eq_take.mp hpref).symm
            exact (List.find?_eq_none.mp hf i0 (List.mem_range.mpr hi0lt)) hw
        · exact ⟨st, rfl⟩
      obtain ⟨st, hst⟩ := hfind
      have hstspec := findPrefStart_spec sRem C st hst
      have hflp : findLongestPref sRem C = some (st, (flpConsume C st sRem.length).1,
          sRem.length - (flpConsume C st sRem.length).2) := by
        rw [findLongestPref, hst]
      set e := (flpConsume C st sRem.length).1 with hedef
      set rem := (flpConsume C st sRem.length).2 with hremdef
      have hcons := flpConsume_spec C C.length st sRem.length (by omega)
      have hexit := flpConsume_exit C C.length st sRem.length (by omega)
      have hste : st ≤ e := hcons.1
      have heC : e ≤ C.length := by
        have h2 := hcons.2.1
        have h3 := hstspec.1
        omega
      have hsum : (((C.drop st).take (e - st)).map List.length).sum + rem
          = sRem.length := hcons.2.2
      have hflatsplit : (C.drop st).flatten
          = ((C.drop st).take (e - st)).flatten ++ ((C.drop e).flatten) := by
        have h1 : C.drop st = (C.drop st).take (e - st) ++ (C.drop e) := by
          conv_lhs => rw [← List.take_append_drop (e - st) (C.drop st)]
          rw [List.drop_drop]
          rw [show st + (e - st) = e from by omega]
        conv_lhs => rw [h1]
        rw [List.flatten_append]
      have husedlen : (((C.drop st).take (e - st)).flatten).length
          = sRem.length - rem := by
        rw [List.length_flatten]
        omega
      have hremle : rem ≤ sRem.length := by omega
      have hdropused : sRem.drop (sRem.length - rem) = ((C.drop e).flatten).take rem := by
        have hsrem : sRem = ((C.drop st).take (e - st)).flatten
            ++ ((C.drop e).flatten).take rem := by
          conv_lhs => rw [← hstspec.2]
          rw [hflatsplit]
          rw [show sRem.length
            = (((C.drop st).take (e - st)).flatten).length + rem from by omega]
          rw [List.take_append]
        rw [show sRem.length - rem
          = (((C.drop st).take (e - st)).flatten).length from by omega]
        conv_lhs => rw [hsrem]
        rw [List.drop_left]
      have hremfact : sRem.drop (sRem.length - rem) = [] ∨
          ∃ seg ∈ C, sRem.drop (sRem.length - rem) <+: seg := by
        by_cases heq : e < C.length
        · right
          have hgt : rem < (C.getD e []).length := by
            rcases Nat.lt_or_ge rem (C.getD e []).length with h2 | h2
            · exact h2
            · exact absurd ⟨heq, h2⟩ hexit
          rw [List.getD_eq_getElem C [] heq] at hgt
          refine ⟨C[e], List.getElem_mem heq, ?_⟩
          rw [hdropused]
          rw [List.drop_eq_getElem_cons heq, List.flatten_cons]
          rw [List.take_append_of_le_length (by omega)]
          exact List.take_prefix _ _
        · left
          rw [hdropused]
          rw [List.drop_eq_nil_of_le (by omega), List.flatten_nil, List.take_nil]
      have hunfold : stitchLevels g0 (C :: rest) sRem rhs
          = (if st = e then stitchLevels g0 rest sRem rhs
             else if st + 1 = e then
               stitchLevels g0 rest (sRem.drop (sRem.length - rem)) (rhs ++ [C.getD st []])
             else if st + 2 = e then
               stitchLevels g0 rest (sRem.drop (sRem.length - rem))
                 (rhs ++ [C.getD st [], C.getD (st + 1) []])
             else
               stitchLevels g0 rest (sRem.drop (sRem.length - rem))
                 (rhs ++ [((C.drop st).take (chooseSplit g0 C st e - st)).flatten,
                   ((C.drop (chooseSplit g0 C st e)).take
                     (e - chooseSplit g0 C st e)).flatten])) := by
        rw [stitchLevels, hflp]
      have hgoodrest : ∀ C2 ∈ rest, C2 ≠ [] ∧ ∀ x ∈ C2, x ≠ [] :=
        fun C2 hC2 => hgood C2 (List.mem_cons_of_mem _ hC2)
      have hchrest : List.Chain' bridged rest := chain'_of_chain bridged C rest hchain
      have hsorest : ∀ C2 ∈ rest, splitOkIn g0 C2 :=
        fun C2 hC2 => hso C2 (List.mem_cons_of_mem _ hC2)
      have hcovnext : ∀ C2, rest.head? = some C2 →
          coveredBy (sRem.drop (sRem.length - rem)) C2 := by
        intro C2 hC2
        rcases hremfact with h1 | ⟨seg, hsegC, hsegpref⟩
        · rw [h1]
          exact ⟨0, List.nil_prefix⟩
        · obtain ⟨i2, hi2⟩ := chain_head_rel bridged C rest hchain C2 hC2 seg hsegC
          exact ⟨i2, hsegpref.trans hi2⟩
      have hhalf_single : ∀ j : Nat, j < C.length → ((C.drop j).take 1).flatten ∈ C := by
        intro j hj
        rw [drop_take_cons C j 1 hj (Nat.le_refl _)]
        simp only [Nat.sub_self, List.take_zero, List.flatten_cons, List.flatten_nil,
          List.append_nil]
        exact List.getElem_mem hj
      by_cases hc1 : st = e
      · have he0 : e - st = 0 := by omega
        have hrem0 : rem = sRem.length := by
          rw [he0] at hsum
          simp only [List.take_zero, List.map_nil, List.sum_nil] at hsum
          omega
        have h0 : sRem.drop (sRem.length - rem) = sRem := by
          rw [show sRem.length - rem = 0 from by omega, List.drop_zero]
        obtain ⟨out, hout, hsym⟩ := ih g0 sRem rhs hgoodrest hchrest hsorest
          (fun C2 hC2 => by rw [← h0]; exact hcovnext C2 hC2)
        refine ⟨out, ?_, ?_⟩
        · rw [hunfold, if_pos hc1]
          exact hout
        · intro m hm
          rcases hsym m hm with h1 | h1 | h1
          · exact Or.inl h1
          · rcases h1 with ⟨C2, hC2, hmC2⟩
            exact Or.inr (Or.inl ⟨C2, List.mem_cons_of_mem _ hC2, hmC2⟩)
          · exact Or.inr (Or.inr h1)
      · by_cases hc2 : st + 1 = e
        · obtain ⟨out, hout, hsym⟩ := ih g0 (sRem.drop (sRem.length - rem))
            (rhs ++ [C.getD st []]) hgoodrest hchrest hsorest hcovnext
          refine ⟨out, ?_, ?_⟩
          · rw [hunfold, if_neg hc1, if_pos hc2]
            exact hout
          · intro m hm
            rcases hsym m hm with h1 | h1 | h1
            · rcases List.mem_append.mp h1 with h2 | h2
              · exact Or.inl h2
              · rw [List.mem_singleton] at h2
                refine Or.inr (Or.inl ⟨C, List.mem_cons_self _ _, ?_⟩)
                rw [h2, List.getD_eq_getElem C [] hstspec.1]
                exact List.getElem_mem hstspec.1
            · rcases h1 with ⟨C2, hC2, hmC2⟩
              exact Or.inr (Or.inl ⟨C2, List.mem_cons_of_mem _ hC2, hmC2⟩)
            · exact Or.inr (Or.inr h1)
        · by_cases hc3 : st + 2 = e
          · have hst1 : st + 1 < C.length := by omega
            obtain ⟨out, hout, hsym⟩ := ih g0 (sRem.drop (sRem.length - rem))
              (rhs ++ [C.getD st [], C.getD (st + 1) []]) hgoodrest hchrest hsorest hcovnext
            refine ⟨out, ?_, ?_⟩
            · rw [hunfold, if_neg hc1, if_neg hc2, if_pos hc3]
              exact hout
            · intro m hm
              rcases hsym m hm with h1 | h1 | h1
              · rcases List.mem_append.mp h1 with h2 | h2
                · exact Or.inl h2
                · simp only [List.mem_cons, List.not_mem_nil, or_false] at h2
                  rcases h2 with h3 | h3
                  · refine Or.inr (Or.inl ⟨C, List.mem_cons_self _ _, ?_⟩)
                    rw [h3, List.getD_eq_getElem C [] hstspec.1]
                    exact List.getElem_mem hstspec.1
                  · refine Or.inr (Or.inl ⟨C, List.mem_cons_self _ _, ?_⟩)
                    rw [h3, List.getD_eq_getElem C [] hst1]
                    exact List.getElem_mem hst1
              · rcases h1 with ⟨C2, hC2, hmC2⟩
                exact Or.inr (Or.inl ⟨C2, List.mem_cons_of_mem _ hC2, hmC2⟩)
              · exact Or.inr (Or.inr h1)
          · have he3 : st + 3 ≤ e := by omega
            have hcb := chooseSplit_bounds g0 C st e he3
            have hfound := chooseSplit_found g0 C st e
              (hso C (List.mem_cons_self _ _) st e heC (by omega))
            obtain ⟨out, hout, hsym⟩ := ih g0 (sRem.drop (sRem.length - rem))
              (rhs ++ [((C.drop st).take (chooseSplit g0 C st e - st)).flatten,
                ((C.drop (chooseSplit g0 C st e)).take
                  (e - chooseSplit g0 C st e)).flatten])
              hgoodrest hchrest hsorest hcovnext
            refine ⟨out, ?_, ?_⟩
            · rw [hunfold, if_neg hc1, if_neg hc2, if_neg hc3]
              exact hout
            · intro m hm
              rcases hsym m hm with h1 | h1 | h1
              · rcases List.mem_append.mp h1 with h2 | h2
                · exact Or.inl h2
                · simp only [List.mem_cons, List.not_mem_nil, or_false] at h2
                  rcases h2 with h3 | h3
                  · rcases hfound.1 with h4 | h4
                    · refine Or.inr (Or.inl ⟨C, List.mem_cons_self _ _, ?_⟩)
                      rw [h3, h4]
                      rw [show st + 1 - st = 1 from by omega]
                      exact hhalf_single st hstspec.1
                    · rw [h3]
                      exact Or.inr (Or.inr h4)
                  · rcases hfound.2 with h4 | h4
                    · refine Or.inr (Or.inl ⟨C, List.mem_cons_self _ _, ?_⟩)
                      rw [h3, h4]
                      rw [show e - (e - 1) = 1 from by omega]
                      exact hhalf_single (e - 1) (by omega)
                    · rw [h3]
                      exact Or.inr (Or.inr h4)
              · rcases h1 with ⟨C2, hC2, hmC2⟩
                exact Or.inr (Or.inl ⟨C2, List.mem_cons_of_mem _ hC2, hmC2⟩)
              · exact Or.inr (Or.inr h1)

theorem stitchList_ok (levels : List (List Str)) (gB : Grammar) :
    ∀ (lvl : List Str) (g : Grammar),
      (∀ C2 ∈ levels, C2 ≠ [] ∧ ∀ x ∈ C2, x ≠ []) →
      List.Chain' bridged levels →
      (∀ C2 ∈ levels, splitOkIn gB C2) →
      keySub gB g →
      (∀ s ∈ lvl, ∀ C2, levels.head? = some C2 → coveredBy s C2) →
      ∃ g2, stitchList levels g lvl = Except.ok g2 ∧
        (∀ F : Grammar, keySub g2 F → entriesClosedIn g F →
          (∀ C2 ∈ levels, ∀ seg ∈ C2, seg.length ≠ 1 → hasKeyA F seg = true) →
          entriesClosedIn g2 F) := by
  intro lvl
  induction lvl with
  | nil =>
      intro g _ _ _ _ _
      refine ⟨g, ?_, ?_⟩
      · rw [stitchList]
      · intro F _ hent _
        exact hent
  | cons s rest ih =>
      intro g hgood hch hso hkeyB hcov
      by_cases hs1 : s.length = 1
      · obtain ⟨g2, hg2, hT⟩ := ih g hgood hch hso hkeyB
          (fun t ht => hcov t (List.mem_cons_of_mem _ ht))
        refine ⟨g2, ?_, hT⟩
        rw [stitchList, if_pos hs1]
        exact hg2
      · obtain ⟨⟨rhs1, sRem1⟩, hout, hsym⟩ := stitchLevels_ok levels (insertA g s []) s []
          hgood hch
          (fun C2 hC2 => splitOkIn_mono gB (insertA g s []) C2
            (fun k hk => hasKeyA_insertA_mono g s k [] (hkeyB k hk)) (hso C2 hC2))
          (fun C2 hC2 => hcov s (List.mem_cons_self _ _) C2 hC2)
        obtain ⟨g2, hg2, hT⟩ := ih
          (insertA (insertA g s []) s (rhs1 ++ sRem1.map (fun c => [c])))
          hgood hch hso
          (fun k hk => hasKeyA_insertA_mono _ s k _
            (hasKeyA_insertA_mono g s k [] (hkeyB k hk)))
          (fun t ht => hcov t (List.mem_cons_of_mem _ ht))
        refine ⟨g2, ?_, ?_⟩
        · rw [stitchList, if_neg hs1]
          show (match stitchLevels (insertA g s []) levels s [] with
            | Except.error msg => Except.error msg
            | Except.ok (rhs, sRem) => stitchList levels
                (insertA (insertA g s []) s (rhs ++ List.map (fun c => [c]) sRem)) rest)
            = Except.ok g2
          rw [hout]
          exact hg2
        · intro F hsubF hent hsegk
          refine hT F hsubF ?_ hsegk
          intro kv hkv
          rcases mem_insertA (insertA g s []) s _ kv hkv with h1 | h1
          · rw [h1]
            intro m hm
            rcases List.mem_append.mp hm with h2 | h2
            · rcases hsym m h2 with h3 | h3 | h3
              · exact absurd h3 (List.not_mem_nil m)
              · rcases h3 with ⟨C2, hC2, hmC2⟩
                by_cases hml : m.length = 1
                · left
                  omega
                · right
                  exact hsegk C2 hC2 m hmC2 hml
              · right
                refine hsubF m ?_
                exact (stitchList_key levels rest _ g2 hg2).1 m
                  (hasKeyA_insertA_mono _ s m _ h3)
            · rcases List.mem_map.mp h2 with ⟨c, _, rfl⟩
              left
              simp
          · rcases mem_insertA g s [] kv h1 with h2 | h2
            · rw [h2]
              intro m hm
              exact absurd hm (List.not_mem_nil m)
            · exact hent kv h2

theorem stitchAll_ok (gB : Grammar) :
    ∀ (Cs : List (List Str)) (g : Grammar),
      levelsGood Cs → List.Chain' bridged Cs →
      (∀ C ∈ Cs, splitOkIn gB C) → keySub gB g →
      ∃ gf, stitchAll g Cs = Except.ok gf ∧
        (∀ F : Grammar, keySub gf F → entriesClosedIn g F →
          (∀ C ∈ Cs, ∀ seg ∈ C, seg.length ≠ 1 → hasKeyA F seg = true) →
          entriesClosedIn gf F) := by
  intro Cs
  induction Cs with
  | nil =>
      intro g _ _ _ _
      refine ⟨g, ?_, ?_⟩
      · rw [stitchAll]
      · intro F _ hent _
        exact hent
  | cons C rest ih =>
      intro g hgood hch hso hkeyB
      have hchain : List.Chain bridged C rest := hch
      have hgoodrest : levelsGood rest :=
        fun C2 hC2 => hgood C2 (List.mem_cons_of_mem _ hC2)
      obtain ⟨g2, hg2, hT1⟩ := stitchList_ok rest gB C g
        (fun C2 hC2 => hgoodrest C2 hC2)
        (chain'_of_chain bridged C rest hchain)
        (fun C2 hC2 => hso C2 (List.mem_cons_of_mem _ hC2))
        hkeyB
        (fun s hs C2 hC2 => chain_head_rel bridged C rest hchain C2 hC2 s hs)
      obtain ⟨gf, hgf, hT2⟩ := ih g2 hgoodrest
        (chain'_of_chain bridged C rest hchain)
        (fun C2 hC2 => hso C2 (List.mem_cons_of_mem _ hC2))
        (fun k hk => (stitchList_key rest C g g2 hg2).1 k (hkeyB k hk))
      refine ⟨gf, ?_, ?_⟩
      · rw [stitchAll, hg2]
        exact hgf
      · intro F hsubF hent hsegk
        refine hT2 F hsubF ?_ (fun C2 hC2 => hsegk C2 (List.mem_cons_of_mem _ hC2))
        refine hT1 F ?_ hent (fun C2 hC2 => hsegk C2 (List.mem_cons_of_mem _ hC2))
        intro k hk
        exact hsubF k (stitchAll_keys_mono rest g2 gf hgf k hk)

theorem stitchAll_segment_keys :
    ∀ (Cs : List (List Str)) (g gf : Grammar),
      stitchAll g Cs = Except.ok gf →
      ∀ C ∈ Cs, ∀ s ∈ C, s.length ≠ 1 → hasKeyA gf s = true := by
  intro Cs
  induction Cs with
  | nil =>
      intro g gf h C hC
      exact absurd hC (List.not_mem_nil C)
  | cons C0 rest ih =>
      intro g gf h C hC s hs hsl
      rw [stitchAll] at h
      split at h
      · simp at h
      · next g2 hsl2 =>
          rcases List.mem_cons.mp hC with h1 | h1
          · exact stitchAll_keys_mono rest g2 gf h s
              ((stitchList_key rest C0 g g2 hsl2).2 s (h1 ▸ hs) hsl)
          · exact ih g2 gf h C h1 s hs hsl

theorem foldUpd_keys_mono (Cs : List (List Str)) :
    ∀ (d : Grammar) (k : Str), hasKeyA d k = true →
      hasKeyA (Cs.foldl
        (fun g C => updateA g (generateSubstringConstructionGrammar C)) d) k = true := by
  intro d k hk
  exact foldl_preserve (fun g : Grammar => hasKeyA g k = true) (fun _ : List Str => True)
    _ (fun b a hb _ => hasKeyA_updateA_left _ b k hb) Cs (fun _ _ => trivial) d hk

theorem foldUpd_keys (Cs : List (List Str)) :
    ∀ (d : Grammar) (C : List Str), C ∈ Cs → ∀ k : Str,
      hasKeyA (generateSubstringConstructionGrammar C) k = true →
      hasKeyA (Cs.foldl
        (fun g C => updateA g (generateSubstringConstructionGrammar C)) d) k = true := by
  induction Cs with
  | nil =>
      intro d C hC
      exact absurd hC (List.not_mem_nil C)
  | cons C0 rest ih =>
      intro d C hC k hk
      rw [List.foldl_cons]
      rcases List.mem_cons.mp hC with h1 | h1
      · refine foldUpd_keys_mono rest _ k ?_
        rw [← h1]
        exact hasKeyA_updateA_right _ d k hk
      · exact ih _ C h1 k hk

theorem foldUpd_mem (Cs : List (List Str)) :
    ∀ (d : Grammar) (kv : Str × List Str),
      kv ∈ Cs.foldl (fun g C => updateA g (generateSubstringConstructionGrammar C)) d →
      kv ∈ d ∨ ∃ C ∈ Cs, kv ∈ generateSubstringConstructionGrammar C := by
  induction Cs with
  | nil => exact fun d kv hkv => Or.inl hkv
  | cons C0 rest ih =>
      intro d kv hkv
      rw [List.foldl_cons] at hkv
      rcases ih _ kv hkv with h1 | h1
      · rcases mem_updateA (generateSubstringConstructionGrammar C0) d kv h1 with h2 | h2
        · exact Or.inl h2
        · exact Or.inr ⟨C0, List.mem_cons_self _ _, h2⟩
      · rcases h1 with ⟨C2, hC2, hkv2⟩
        exact Or.inr ⟨C2, List.mem_cons_of_mem _ hC2, hkv2⟩

/-- Claim C2: for every nonempty input string, `getLehman1Grammar` returns
without raising, and every right-hand-side symbol of length at least 2 of
the returned grammar is itself a key. The prefix search of the stitching
walk always succeeds — each segment of a level occurs at a recorded break
offset of the next level's superstring, and splitting only refines the
break boundaries — and the final closure check passes, because every
appended symbol is a segment of a finer level (keyed when its own level is
stitched) or an existing key found by the split search, whose success the
two-piece slice decomposition of the substring-construction grammar
guarantees; hence both raise branches are unreachable. -/
theorem lehman1_no_raise (S : Str) (hS : 1 ≤ S.length) :
    ∃ G : Grammar, getLehman1Grammar S = Except.ok G ∧ closedG G := by
  have hSne : S ≠ [] := by
    intro hc
    rw [hc] at hS
    simp at hS
  have hgood : levelsGood (generateCs S) := generateCs_good S hSne
  have hchain : List.Chain' bridged (generateCs S) := generateCs_chain S hSne
  set g1 := (generateCs S).foldl
    (fun g C => updateA g (generateSubstringConstructionGrammar C)) [] with hg1def
  set g2 := updateA g1 (generateSubstringConstructionGrammar (S.map (fun c => [c])))
    with hg2def
  have hkeysub : ∀ C ∈ generateCs S, ∀ k : Str,
      hasKeyA (generateSubstringConstructionGrammar C) k = true →
      hasKeyA g2 k = true := by
    intro C hC k hk
    rw [hg2def]
    exact hasKeyA_updateA_left _ g1 k (foldUpd_keys (generateCs S) [] C hC k hk)
  have hso : ∀ C ∈ generateCs S, splitOkIn g2 C := by
    intro C hC a b hb hab
    obtain ⟨x, hx1, hx2, hc1, hc2⟩ :=
      subConstr_split C.length C (Nat.le_refl _) [] a b hb hab
    refine ⟨x, hx1, hx2, ?_, ?_⟩
    · rcases hc1 with h2 | h2
      · exact Or.inl h2
      · exact Or.inr (hkeysub C hC _ h2)
    · rcases hc2 with h2 | h2
      · exact Or.inl h2
      · exact Or.inr (hkeysub C hC _ h2)
  obtain ⟨gf, hgf, hT⟩ := stitchAll_ok g2 (generateCs S) g2 hgood hchain hso
    (fun k hk => hk)
  have hsegkeys : ∀ C ∈ generateCs S, ∀ seg ∈ C, seg.length ≠ 1 →
      hasKeyA gf seg = true := stitchAll_segment_keys (generateCs S) g2 gf hgf
  have hg2closed : entriesClosedIn g2 gf := by
    intro kv hkv
    rcases mem_updateA (generateSubstringConstructionGrammar (S.map (fun c => [c])))
        g1 kv hkv with h1 | h1
    · rcases foldUpd_mem (generateCs S) [] kv h1 with h2 | h2
      · exact absurd h2 (List.not_mem_nil kv)
      · rcases h2 with ⟨C, hC, hkv2⟩
        rcases subConstr_closed C.length C (Nat.le_refl _) [] kv hkv2 with h3 | h3
        · exact absurd h3 (List.not_mem_nil kv)
        · intro m hm
          rcases h3 m hm with h4 | h4 | h4
          · exact Or.inl h4
          · by_cases hml : m.length = 1
            · left
              omega
            · right
              exact hsegkeys C hC m h4 hml
          · right
            refine stitchAll_keys_mono (generateCs S) g2 gf hgf m ?_
            exact hkeysub C hC m h4
    · rcases subConstr_closed (S.map (fun c => [c])).length _ (Nat.le_refl _) [] kv h1
          with h3 | h3
      · exact absurd h3 (List.not_mem_nil kv)
      · intro m hm
        rcases h3 m hm with h4 | h4 | h4
        · exact Or.inl h4
        · left
          rcases List.mem_map.mp h4 with ⟨c, _, rfl⟩
          simp
        · right
          refine stitchAll_keys_mono (generateCs S) g2 gf hgf m ?_
          rw [hg2def]
          exact hasKeyA_updateA_right _ g1 m h4
  have hclosed : closedG gf := hT gf (fun k hk => hk) hg2closed hsegkeys
  refine ⟨gf, ?_, hclosed⟩
  have hrun : getLehman1Grammar S = (match stitchAll g2 (generateCs S) with
      | Except.error msg => Except.error msg
      | Except.ok g => if closureOk g then Except.ok g else Except.error "FUUU") := by
    rw [getLehman1Grammar]
  rw [hrun, hgf]
  show (if closureOk gf then Except.ok gf else Except.error "FUUU") = Except.ok gf
  rw [if_pos (closedG_closureOk gf hclosed)]

/-- Witness for C2 at the concrete input `"ab"`. -/
theorem lehman1_no_raise_witness :
    ∃ G : Grammar, getLehman1Grammar (strOf "ab") = Except.ok G ∧ closedG G :=
  lehman1_no_raise (strOf "ab") (by decide)

/-! ## Empty input (C10) -/

unseal bisectionRecurse in
/-- Claim C10: on the empty string neither `getBisectionGrammar` nor
`getSakamotoGrammar` has an error path (there is no EmptyInput check in
either source file), and both return the empty grammar: the bisection
recursion returns at `len(S) <= 1` without storing anything, and the
repair loop's guard `hasRepeatingPairs([])` is false, so `levelwiseRepair`
returns the empty production set extended by the trivial chain of the
empty sequence, which is also empty. -/
theorem empty_input_empty_grammar :
    getBisectionGrammar (strOf "") = [] ∧ getSakamotoGrammar (strOf "") = some [] := by
  constructor
  · rfl
  · rfl

end GrammarApprox
